import Mathlib

/-!
# Spectral-element driver `ex51.c` and the traceback error handler of `errtrace.c`

A shallow embedding of `src/ksp/ksp/tutorials/ex51.c` (index arithmetic, element
operators, quadrature rule, option check) and of `PetscTraceBackErrorHandler` in
`src/sys/error/errtrace.c`.

Modelling conventions, fixed once for the whole development:

* `PetscInt` values used as indices and sizes are natural numbers.  The driver
  rejects `p ≤ 0`, and the statements about indices are made for `m ≥ 1`, ranks in
  `[0, size)` and element numbers in `[0, m*m)`, where every C integer expression
  involved is non-negative, so that C's truncating `/` and `%` agree with `Nat`
  division and remainder.  Signed overflow (undefined behaviour in C) is not
  modelled.  Option values, error codes, ranks and counters that may be negative
  (`driverMain`, `PetscTraceBackErrorHandler`) are integers.
* `PetscReal`/`PetscScalar` values are elements of an arbitrary field `K`
  ("exact arithmetic"); the definitions are computable for `K = ℚ`.
* A C array reached through a pointer is a total function `Nat → α`; the store
  `a[i] = v` is `Function.update a i v`.
* A `for (i = 0; i < n; ++i)` loop is a left fold over `List.range n`; a loop whose
  number of passes is not known in advance takes a bound on the passes and returns
  an `Option`.
* Variables that persist between calls are an explicit state passed in and out.
-/

namespace Ex51

/-! ## Global index list of one element (`main`, lines 93–96) -/

/-- The right-hand side of the store in line 95:
`p * (p * m + 1) * (i / m) + p * (i % m) + k * (p * m + 1) + j`. -/
def idxValue (p m i k j : Nat) : Nat :=
  p * (p * m + 1) * (i / m) + p * (i % m) + k * (p * m + 1) + j

/-- One pass of the innermost statement `idx[indx++] = ...;` on the pair
`(idx, indx)`. -/
def idxStore (p m i k : Nat) (st : (Nat → Nat) × Nat) (j : Nat) : (Nat → Nat) × Nat :=
  (Function.update st.1 st.2 (idxValue p m i k j), st.2 + 1)

/-- The loop `for (j = 0; j < (p + 1); ++j) idx[indx++] = ...;`. -/
def idxInner (p m i : Nat) (st : (Nat → Nat) × Nat) (k : Nat) : (Nat → Nat) × Nat :=
  (List.range (p + 1)).foldl (idxStore p m i k) st

/-- Lines 93–96 for element `i`: `indx = 0;` followed by the double loop over
`k` and `j`.  The argument `idx` is the previous content of the buffer. -/
def elementIdx (p m i : Nat) (idx : Nat → Nat) : Nat → Nat :=
  ((List.range (p + 1)).foldl (idxInner p m i) (idx, 0)).1

/-- Number of contributions to the global index `g`: the pairs of an element
`e ∈ [0, m*m)` and a local pair `(k, l) ∈ [0,p]²` with `idx[l*(p+1)+k] = g` in the
index list built for `e`. -/
def coverCount (p m : Nat) (idx0 : Nat → Nat) (g : Nat) : Nat :=
  ((Finset.range (m * m) ×ˢ (Finset.range (p + 1) ×ˢ Finset.range (p + 1))).filter
    (fun x => elementIdx p m x.1 idx0 (x.2.2 * (p + 1) + x.2.1) = g)).card

/-- The one-dimensional overlap factor `a(t)`: `2` at a multiple of `p` strictly
between `0` and `p*m` (a node shared by two neighbouring elements), `1` otherwise. -/
def overlapFactor (p m t : Nat) : Nat :=
  if p ∣ t ∧ 0 < t ∧ t < p * m then 2 else 1

/-- The (element coordinate, local coordinate) pairs lying over the grid
coordinate `t` in one direction. -/
def lineSols (p m t : Nat) : Finset (Nat × Nat) :=
  (Finset.range m ×ˢ Finset.range (p + 1)).filter (fun x => p * x.1 + x.2 = t)

/-! ## Lagrange basis (lines 344–384) -/

/-- Lines 344–357, `polyBasisFunc`: the loop over `i = 0 .. order` multiplies
`numerator` by `xval - xLocVal[i]` and `denominator` by
`xLocVal[basis] - xLocVal[i]` for `i != basis`; the result is their quotient.
The loop state is the pair `(numerator, denominator)`. -/
def polyBasisFunc {K : Type} [Field K] (order basis : Nat) (xLocVal : Nat → K) (xval : K) : K :=
  let nd := (List.range (order + 1)).foldl
    (fun (s : K × K) i =>
      if i ≠ basis then (s.1 * (xval - xLocVal i), s.2 * (xLocVal basis - xLocVal i)) else s)
    (1, 1)
  nd.1 / nd.2

/-- Lines 361–384, `derivPolyBasisFunc`: `denominator` as in `polyBasisFunc`;
`numerator` is the sum over `j != basis` of the products `numtmp` of
`xval - xLocVal[i]` over `i != basis && j != i`. -/
def derivPolyBasisFunc {K : Type} [Field K] (order basis : Nat) (xLocVal : Nat → K)
    (xval : K) : K :=
  let denominator := (List.range (order + 1)).foldl
    (fun (d : K) i => if i ≠ basis then d * (xLocVal basis - xLocVal i) else d) 1
  let numerator := (List.range (order + 1)).foldl
    (fun (num : K) j =>
      if j ≠ basis then
        num + (List.range (order + 1)).foldl
          (fun (numtmp : K) i =>
            if i ≠ basis ∧ j ≠ i then numtmp * (xval - xLocVal i) else numtmp) 1
      else num) 0
  numerator / denominator

/-! ## One-dimensional element mass matrix (lines 225–239) -/

/-- Lines 225–239, `Form1DElementMass`: for `j`, `i` in `0 .. P`, with
`indx = j * (P + 1) + i`, the store `Me1D[indx] = 0.0` followed by the loop over
`k = 0 .. P` of
`Me1D[indx] += H * gqw[k] * polyBasisFunc(P, i, gqn, gqn[k]) * polyBasisFunc(P, j, gqn, gqn[k])`. -/
def Form1DElementMass {K : Type} [Field K] (H : K) (P : Nat) (gqn gqw : Nat → K)
    (Me1D : Nat → K) : Nat → K :=
  (List.range (P + 1)).foldl (fun Me j =>
    (List.range (P + 1)).foldl (fun Me i =>
      (List.range (P + 1)).foldl (fun Me k =>
          Function.update Me (j * (P + 1) + i)
            (Me (j * (P + 1) + i)
              + H * gqw k * polyBasisFunc P i gqn (gqn k) * polyBasisFunc P j gqn (gqn k)))
        (Function.update Me (j * (P + 1) + i) 0)) Me) Me1D

/-! ## One-dimensional element stiffness matrix (lines 244–258) -/

/-- Lines 244–258, `Form1DElementStiffness`: for `j`, `i` in `0 .. P`, with
`indx = j * (P + 1) + i`, the store `Ke1D[indx] = 0.0` followed by the loop over
`k = 0 .. P` of `Ke1D[indx] += (1. / H) * gqw[k] *`
`derivPolyBasisFunc(P, i, gqn, gqn[k]) * derivPolyBasisFunc(P, j, gqn, gqn[k])`. -/
def Form1DElementStiffness {K : Type} [Field K] (H : K) (P : Nat) (gqn gqw : Nat → K)
    (Ke1D : Nat → K) : Nat → K :=
  (List.range (P + 1)).foldl (fun Ke j =>
    (List.range (P + 1)).foldl (fun Ke i =>
      (List.range (P + 1)).foldl (fun Ke k =>
          Function.update Ke (j * (P + 1) + i)
            (Ke (j * (P + 1) + i)
              + (1 / H) * gqw k * derivPolyBasisFunc P i gqn (gqn k)
                * derivPolyBasisFunc P j gqn (gqn k)))
        (Function.update Ke (j * (P + 1) + i) 0)) Ke) Ke1D

/-! ## Two-dimensional element matrices (lines 263–306) -/

/-- A store `a[c] = v` on a buffer paired with the list of slots stored to so
far (most recent first).  The list is a ghost record; the program does not read
it. -/
def storeLog {K : Type} (st : (Nat → K) × List Nat) (c : Nat) (v : K) : (Nat → K) × List Nat :=
  (Function.update st.1 c v, c :: st.2)

/-- Lines 263–282, `Form2DElementMass`: for `j2`, `i2`, `j1`, `i1` in `0 .. P`, with
`indx1 = j1 * (P + 1) + i1`, `indx2 = j2 * (P + 1) + i2` and
`indx3 = (j2 * (P + 1) + j1) * (P + 1) * (P + 1) + (i2 * (P + 1) + i1)`, the store
`Me2D[indx3] = Me1D[indx1] * Me1D[indx2]`.  Returns the buffer `Me2D` and the
record of the slots stored to. -/
def Form2DElementMass {K : Type} [Field K] (P : Nat) (Me1D : Nat → K) (Me2D : Nat → K) :
    (Nat → K) × List Nat :=
  (List.range (P + 1)).foldl (fun st j2 =>
    (List.range (P + 1)).foldl (fun st i2 =>
      (List.range (P + 1)).foldl (fun st j1 =>
        (List.range (P + 1)).foldl (fun st i1 =>
          storeLog st ((j2 * (P + 1) + j1) * (P + 1) * (P + 1) + (i2 * (P + 1) + i1))
            (Me1D (j1 * (P + 1) + i1) * Me1D (j2 * (P + 1) + i2))) st) st) st) (Me2D, [])

/-- Lines 287–306, `Form2DElementStiffness`: the same loops and indices as
`Form2DElementMass`, with the store
`Ke2D[indx3] = Ke1D[indx1] * Me1D[indx2] + Me1D[indx1] * Ke1D[indx2]`. -/
def Form2DElementStiffness {K : Type} [Field K] (P : Nat) (Ke1D Me1D : Nat → K)
    (Ke2D : Nat → K) : (Nat → K) × List Nat :=
  (List.range (P + 1)).foldl (fun st j2 =>
    (List.range (P + 1)).foldl (fun st i2 =>
      (List.range (P + 1)).foldl (fun st j1 =>
        (List.range (P + 1)).foldl (fun st i1 =>
          storeLog st ((j2 * (P + 1) + j1) * (P + 1) * (P + 1) + (i2 * (P + 1) + i1))
            (Ke1D (j1 * (P + 1) + i1) * Me1D (j2 * (P + 1) + i2)
              + Me1D (j1 * (P + 1) + i1) * Ke1D (j2 * (P + 1) + i2))) st) st) st) (Ke2D, [])

/-- Performing a list of `(slot, value)` stores in order. -/
def applyStores {K : Type} (st : (Nat → K) × List Nat) (evs : List (Nat × K)) :
    (Nat → K) × List Nat :=
  evs.foldl (fun s ev => storeLog s ev.1 ev.2) st

/-- The stores of the four nested loops of lines 269–279 and 293–303, in program
order, for a value `val j2 i2 j1 i1`. -/
def tensorStores {K : Type} (N : Nat) (val : Nat → Nat → Nat → Nat → K) : List (Nat × K) :=
  (List.range N).flatMap fun j2 => (List.range N).flatMap fun i2 =>
    (List.range N).flatMap fun j1 => (List.range N).map fun i1 =>
      ((j2 * N + j1) * N * N + (i2 * N + i1), val j2 i2 j1 i1)

/-! ## Gauss–Lobatto–Legendre nodes and weights (lines 399–481) -/

/-- Lines 448–481, `qAndLEvaluation`, returning `(q, qp, Ln)`.  The loop state is
`(Lnm1, Ln, Lnm1p, Lnp)`; one pass for `k` performs
`Lnm2 = Lnm1; Lnm1 = Ln; Lnm2p = Lnm1p; Lnm1p = Lnp;`
`Ln = (2k-1)/k * x * Lnm1 - (k-1)/k * Lnm2; Lnp = Lnm2p + (2k-1) * Lnm1`.
The loop `for (k = 2; k <= n; ++k)` runs over `List.range' 2 (n - 1)`. -/
def qAndLEvaluation {K : Type} [Field K] (n : Nat) (x : K) : K × K × K :=
  let s := (List.range' 2 (n - 1)).foldl
    (fun (s : K × K × K × K) (k : Nat) =>
      (s.2.1,
       (2 * (k : K) - 1) / (1 * (k : K)) * x * s.2.1 - ((k : K) - 1) / (1 * (k : K)) * s.1,
       s.2.2.2,
       s.2.2.1 + (2 * (k : K) - 1) * s.2.1))
    (1, x, 0, 1)
  let k := n + 1
  let Lnp1 := (2 * (k : K) - 1) / (1 * (k : K)) * x * s.2.1 - ((k : K) - 1) / (1 * (k : K)) * s.1
  let Lnp1p := s.2.2.1 + (2 * (k : K) - 1) * s.2.1
  (Lnp1 - s.1, Lnp1p - s.2.2.1, s.2.1)

/-- Lines 425–429: the Newton refinement `do { ...; z1 = z; z = z1 - q / qp; }
while (PetscAbsReal(z - z1) > 3.0e-11);`.  The first argument bounds the
number of passes; `none` means it was used up. -/
def newtonLoop {K : Type} [LinearOrderedField K] (n : Nat) : Nat → K → Option K
  | 0, _ => none
  | fuel + 1, z =>
    let z1 := z
    let z' := z1 - (qAndLEvaluation n z).1 / (qAndLEvaluation n z).2.1
    if |z' - z1| > 3 / 10 ^ 11 then newtonLoop n fuel z' else some z'

/-- Lines 421–435: one pass of the loop over the interior roots `j`, on the pair
of buffers `(x, w)`.  `cosR` and `piR` stand for `PetscCosReal` and `PETSC_PI`. -/
def leggaulobRoot {K : Type} [LinearOrderedField K] (cosR : K → K) (piR : K) (fuel : Nat)
    (n : Nat) (xm xl : K) (xw : (Nat → K) × (Nat → K)) (j : Nat) :
    Option ((Nat → K) × (Nat → K)) :=
  (newtonLoop n fuel
    (-1 * cosR ((piR * ((j : K) + 1 / 4) / (n : K))
      - (3 / (8 * (n : K) * piR)) * (1 / ((j : K) + 1 / 4))))).map fun z =>
    let Ln := (qAndLEvaluation n z).2.2
    let x' := Function.update (Function.update xw.1 j (xm + xl * z)) (n - j) (xm - xl * z)
    let w' := Function.update xw.2 j (2 / (((n * (n + 1) : Nat) : K) * Ln * Ln))
    (x', Function.update w' (n - j) (w' j))

/-- Lines 399–445, `leggaulob(x1, x2, x, w, n)`, returning the buffers `(x, w)`.
The loop `for (j = 1; j <= (m - 1); j++)` runs over `List.range' 1 (m - 1)`. -/
def leggaulob {K : Type} [LinearOrderedField K] (cosR : K → K) (piR : K) (fuel : Nat)
    (x1 x2 : K) (x w : Nat → K) (n : Nat) : Option ((Nat → K) × (Nat → K)) :=
  let stage1 : Option ((Nat → K) × (Nat → K)) :=
    if n = 1 then
      some (Function.update (Function.update x 0 x1) 1 x2,
            Function.update (Function.update w 0 1) 1 1)
    else
      let xa := Function.update (Function.update x 0 x1) n x2
      let wa := Function.update (Function.update w 0 (2 / ((n * (n + 1) : Nat) : K))) n
        (2 / ((n * (n + 1) : Nat) : K))
      let m := (n + 1) / 2
      let xm := 1 / 2 * (x2 + x1)
      let xl := 1 / 2 * (x2 - x1)
      (List.range' 1 (m - 1)).foldlM (leggaulobRoot cosR piR fuel n xm xl) (xa, wa)
  stage1.map fun xw =>
    let xw2 : (Nat → K) × (Nat → K) :=
      if n % 2 = 0 then
        let Ln := (qAndLEvaluation n (0 : K)).2.2
        (Function.update xw.1 (n / 2) ((x2 - x1) / 2),
         Function.update xw.2 (n / 2) (2 / (((n * (n + 1) : Nat) : K) * Ln * Ln)))
      else xw
    let scale := (x2 - x1) / 2
    (xw2.1, (List.range (n + 1)).foldl (fun w j => Function.update w j (w j * scale)) xw2.2)


/-- The starting value of the Newton iteration for root `j` (line 422). -/
def rootGuess {K : Type} [LinearOrderedField K] (cosR : K → K) (piR : K) (n j : Nat) : K :=
  -1 * cosR ((piR * ((j : K) + 1 / 4) / (n : K))
    - (3 / (8 * (n : K) * piR)) * (1 / ((j : K) + 1 / 4)))

/-- The stores of lines 430–434 for root `j`, given the value `z` at which the
Newton loop stopped. -/
def rootStore {K : Type} [Field K] (n : Nat) (xm xl : K) (xw : (Nat → K) × (Nat → K))
    (j : Nat) (z : K) : (Nat → K) × (Nat → K) :=
  let Ln := (qAndLEvaluation n z).2.2
  let x' := Function.update (Function.update xw.1 j (xm + xl * z)) (n - j) (xm - xl * z)
  let w' := Function.update xw.2 j (2 / (((n * (n + 1) : Nat) : K) * Ln * Ln))
  (x', Function.update w' (n - j) (w' j))

/-- The weight `2.0 / (n * (n + 1) * Ln * Ln)` of lines 433 and 440 at the point `z`. -/
def gllWeightAt {K : Type} [Field K] (n : Nat) (z : K) : K :=
  2 / (((n * (n + 1) : Nat) : K) * (qAndLEvaluation n z).2.2 * (qAndLEvaluation n z).2.2)

/-- Closed form of node `i` of `leggaulob(x1, x2, x, w, n)`, given the values
`zs j` at which the Newton loops stop. -/
def gllNodeClosed {K : Type} [Field K] (n : Nat) (x1 x2 : K) (zs : Nat → K) (i : Nat) : K :=
  if i = 0 then x1 else if i = n then x2
  else if n % 2 = 0 ∧ i = n / 2 then (x2 - x1) / 2
  else if i < (n + 1) / 2 then 1 / 2 * (x2 + x1) + 1 / 2 * (x2 - x1) * zs i
  else 1 / 2 * (x2 + x1) - 1 / 2 * (x2 - x1) * zs (n - i)

/-- Closed form of weight `i` of `leggaulob(x1, x2, x, w, n)`, given the values
`zs j` at which the Newton loops stop. -/
def gllWeightClosed {K : Type} [Field K] (n : Nat) (x1 x2 : K) (zs : Nat → K) (i : Nat) : K :=
  (if i = 0 then 2 / ((n * (n + 1) : Nat) : K) else if i = n then 2 / ((n * (n + 1) : Nat) : K)
   else if n % 2 = 0 ∧ i = n / 2 then gllWeightAt n 0
   else if i < (n + 1) / 2 then gllWeightAt n (zs i)
   else gllWeightAt n (zs (n - i))) * ((x2 - x1) / 2)

/-! ## Legendre polynomials, as worded in the specification -/


/-- The Legendre polynomials as the claim words them: `L_0 = 1`, `L_1 = x` and
`k * L_k = (2k-1) * x * L_{k-1} - (k-1) * L_{k-2}`, evaluated at `x`. -/
def legendreSpec {K : Type} [Field K] (x : K) : Nat → K
  | 0 => 1
  | 1 => x
  | k + 2 => ((2 * ((k + 2 : Nat) : K) - 1) * x * legendreSpec x (k + 1)
      - (((k + 2 : Nat) : K) - 1) * legendreSpec x k) / ((k + 2 : Nat) : K)

/-- The derivatives of the Legendre polynomials, obtained by differentiating the
recurrence of `legendreSpec` term by term. -/
def legendreSpecDeriv {K : Type} [Field K] (x : K) : Nat → K
  | 0 => 0
  | 1 => 1
  | k + 2 => ((2 * ((k + 2 : Nat) : K) - 1)
        * (legendreSpec x (k + 1) + x * legendreSpecDeriv x (k + 1))
      - (((k + 2 : Nat) : K) - 1) * legendreSpecDeriv x k) / ((k + 2 : Nat) : K)

/-! ## Manufactured solution and nodal samples (lines 310–340, 388–396) -/

/-- Lines 388–391: `ubdy(x, y) = x * x * y * y`. -/
def ubdy {K : Type} [Field K] (x y : K) : K := x * x * y * y

/-- Lines 393–396: `src(x, y) = -2. * y * y - 2. * x * x`. -/
def src {K : Type} [Field K] (x y : K) : K := -2 * y * y - 2 * x * x

/-- Lines 327–340, `FormNodalSoln`: `indx = 0;` then for `j`, `i` in `0..P` the
store `u[indx] = ubdy(x + H * nds[i], y + H * nds[j]); indx++;`. -/
def FormNodalSoln {K : Type} [Field K] (P : Nat) (x y H : K) (nds : Nat → K)
    (u : Nat → K) : Nat → K :=
  ((List.range (P + 1)).foldl (fun s j => (List.range (P + 1)).foldl
    (fun s i => (Function.update s.1 s.2 (ubdy (x + H * nds i) (y + H * nds j)), s.2 + 1)) s)
    (u, 0)).1

/-- Lines 310–323, `FormNodalRhs`: as `FormNodalSoln`, with `src` in place of
`ubdy`. -/
def FormNodalRhs {K : Type} [Field K] (P : Nat) (x y H : K) (nds : Nat → K)
    (r : Nat → K) : Nat → K :=
  ((List.range (P + 1)).foldl (fun s j => (List.range (P + 1)).foldl
    (fun s i => (Function.update s.1 s.2 (src (x + H * nds i) (y + H * nds j)), s.2 + 1)) s)
    (r, 0)).1

/-! ## Dirichlet boundary rows (`main`, lines 150–176) -/

/-- Line 52: `h = 1.0 / m`. -/
def meshWidth {K : Type} [Field K] (m : Nat) : K := 1 / (m : K)

/-- The three boundary buffers `rows`, `rowsx`, `rowsy`, together with the list
of slots of `rows` stored to so far (most recent first).  The last field is a
ghost record of the stores; the program does not read it. -/
structure BdyState (K : Type) where
  /-- Global indices of the boundary degrees of freedom. -/
  rows : Nat → Nat
  /-- Their x coordinates. -/
  rowsx : Nat → K
  /-- Their y coordinates. -/
  rowsy : Nat → K
  /-- Slots of `rows` stored to so far. -/
  written : List Nat

/-- The stores `rows[c] = v; rowsx[c] = x; rowsy[c] = y;`. -/
def bdyStore {K : Type} (st : BdyState K) (c v : Nat) (x y : K) : BdyState K :=
  { rows := Function.update st.rows c v
    rowsx := Function.update st.rowsx c x
    rowsy := Function.update st.rowsy c y
    written := c :: st.written }

/-- The coordinate expression `(i / p) * h + gllNode[i % p] * h` of lines 155,
158, 166 and 174; `i / p` is an integer quotient converted to a real. -/
def edgeCoord {K : Type} [Field K] (p : Nat) (h : K) (gllNode : Nat → K) (i : Nat) : K :=
  ((i / p : Nat) : K) * h + gllNode (i % p) * h

/-- Body of the loop of lines 153–160 (bottom and top edges). -/
def bdyBottomTopStep {K : Type} [Field K] (p m : Nat) (h : K) (gllNode : Nat → K)
    (st : BdyState K) (i : Nat) : BdyState K :=
  bdyStore (bdyStore st i i (edgeCoord p h gllNode i) 0)
    (3 * p * m - 1 + i) ((p * m) * (p * m + 1) + i) (edgeCoord p h gllNode i) 1

/-- The loops of lines 163–168 and 171–176 (left and right sides), which differ
only in the initial `i`, the initial `count` and the constant stored to `rowsx`:
`for (i = i0; i < (p*m)*(p*m+1); i += (p*m+1)) { ...; count++; indx++; }`.
The first argument bounds the number of loop tests; `none` means it was used up. -/
def bdySideLoop {K : Type} [Field K] (p m : Nat) (h : K) (gllNode : Nat → K) (xval : K) :
    Nat → Nat → Nat → Nat → BdyState K → Option (BdyState K)
  | 0, _, _, _, _ => none
  | fuel + 1, i, count, indx, st =>
    if i < (p * m) * (p * m + 1) then
      bdySideLoop p m h gllNode xval fuel (i + (p * m + 1)) (count + 1) (indx + 1)
        (bdyStore st count i xval (edgeCoord p h gllNode indx))
    else some st

/-- Lines 153–176: the bottom/top loop, then the left-side loop
(`count = p*m+1; indx = 1; i = p*m+1`), then the right-side loop
(`count = 2*p*m; indx = 1; i = 2*p*m+1`), starting from arbitrary buffer
contents. -/
def boundaryRows {K : Type} [Field K] (p m : Nat) (h : K) (gllNode : Nat → K)
    (rows0 : Nat → Nat) (rowsx0 rowsy0 : Nat → K) : Option (BdyState K) :=
  let st1 := (List.range (p * m + 1)).foldl (bdyBottomTopStep p m h gllNode)
    { rows := rows0, rowsx := rowsx0, rowsy := rowsy0, written := [] }
  (bdySideLoop p m h gllNode 0 ((p * m) * (p * m + 1) + 1) (p * m + 1) (p * m + 1) 1 st1).bind
    fun st2 =>
      bdySideLoop p m h gllNode 1 ((p * m) * (p * m + 1) + 1) (2 * p * m + 1) (2 * p * m) 1 st2

/-- A store event: slot, value for `rows`, value for `rowsx`, value for `rowsy`. -/
structure BdyEvent (K : Type) where
  /-- Slot stored to. -/
  slot : Nat
  /-- Value stored to `rows`. -/
  val : Nat
  /-- Value stored to `rowsx`. -/
  x : K
  /-- Value stored to `rowsy`. -/
  y : K

/-- Performing a list of store events in order. -/
def applyEvents {K : Type} (st : BdyState K) (evs : List (BdyEvent K)) : BdyState K :=
  evs.foldl (fun s ev => bdyStore s ev.slot ev.val ev.x ev.y) st

/-- All store events of lines 153–176, in program order. -/
def bdyEvents {K : Type} [Field K] (p m : Nat) (h : K) (g : Nat → K) : List (BdyEvent K) :=
  ((List.range (p * m + 1)).flatMap fun i =>
      [⟨i, i, edgeCoord p h g i, 0⟩,
       ⟨3 * p * m - 1 + i, (p * m) * (p * m + 1) + i, edgeCoord p h g i, 1⟩]) ++
  ((List.range (p * m - 1)).map fun j =>
      ⟨p * m + 1 + j, p * m + 1 + j * (p * m + 1), 0, edgeCoord p h g (1 + j)⟩) ++
  ((List.range (p * m - 1)).map fun j =>
      ⟨2 * p * m + j, 2 * p * m + 1 + j * (p * m + 1), 1, edgeCoord p h g (1 + j)⟩)

/-! ## Owned element range (`main`, lines 67–68) -/

/-- Line 67: `start = rank * (M / size) + ((M % size) < rank ? (M % size) : rank);` -/
def rangeStart (M size rank : Nat) : Nat :=
  rank * (M / size) + (if M % size < rank then M % size else rank)

/-- Line 68: `end = start + M / size + ((M % size) > rank);` where the C
comparison yields `1` or `0`. -/
def rangeEnd (M size rank : Nat) : Nat :=
  rangeStart M size rank + M / size + (if M % size > rank then 1 else 0)


/-! ## Option handling and the order check (`main`, lines 27–220) -/

/-- How the driver ends: normal completion, or failure with the error class
`PETSC_ERR_USER` raised by the check of line 49. -/
inductive DriverResult
  | success
  | userError
  deriving DecidableEq

/-- The matrices, vectors, scratch buffers and solver the driver creates. -/
inductive DriverEvent
  | matCreate (name : String)
  | malloc (name : String)
  | vecCreate (name : String)
  | kspCreate
  deriving DecidableEq

/-- The statements of `main` that matter for the order of events: start-up, the
two option reads, the check of the order, and the creation calls. -/
inductive DriverStmt
  | startup
  | optionM
  | optionP
  | checkOrder
  | create (ev : DriverEvent)
  deriving DecidableEq

/-- The statements of `main` in source order: `PetscInitialize` (line 44), the
options `-m` and `-p` (lines 46–47), `PetscCheck(p > 0, …)` (line 49), `MatCreate`
for `A` and `Mass` (lines 57, 63), the `PetscMalloc1` calls of lines 74–84, the
vectors of lines 111–119, the boundary buffers of lines 150–152 and `KSPCreate`
(line 195). -/
def driverProgram : List DriverStmt :=
  [.startup, .optionM, .optionP, .checkOrder,
   .create (.matCreate "A"), .create (.matCreate "Mass"),
   .create (.malloc "Me1D"), .create (.malloc "Ke1D"), .create (.malloc "Me2D"),
   .create (.malloc "Ke2D"), .create (.malloc "idx"), .create (.malloc "r"),
   .create (.malloc "ue"), .create (.malloc "gllNode"), .create (.malloc "gllWgts"),
   .create (.vecCreate "u"), .create (.vecCreate "b"), .create (.vecCreate "q"),
   .create (.vecCreate "ustar"),
   .create (.malloc "rows"), .create (.malloc "rowsx"), .create (.malloc "rowsy"),
   .create .kspCreate]

/-- State of the driver while it runs: the values of `m` and `p` and the creation
calls made so far, in order. -/
structure DriverState where
  /-- Mesh size `m`. -/
  m : Int
  /-- Polynomial order `p`. -/
  p : Int
  /-- Creation calls made so far. -/
  created : List DriverEvent

/-- Modelled from the spec: the macro `PetscCheck(cond, comm, ierr, …)`, declared in
the PETSc headers and not under `src/`: if the condition fails, the enclosing function
returns the error `ierr` at once ("fatal, reported immediately"); otherwise execution
continues (`none`). -/
def PetscCheck (cond : Bool) (ierr : DriverResult) : Option DriverResult :=
  if cond then none else some ierr

/-- Runs the statements of the driver in order.  `optM`, `optP` are the values given
on the command line, if any: `PetscOptionsInt` leaves the variable at its default
when the option is absent.  All calls into the library are taken to succeed. -/
def runDriver (optM optP : Option Int) : List DriverStmt → DriverState → DriverState × DriverResult
  | [], st => (st, .success)
  | .startup :: rest, st => runDriver optM optP rest st
  | .optionM :: rest, st => runDriver optM optP rest { st with m := optM.getD st.m }
  | .optionP :: rest, st => runDriver optM optP rest { st with p := optP.getD st.p }
  | .checkOrder :: rest, st =>
    match PetscCheck (decide (st.p > 0)) .userError with
    | some err => (st, err)
    | none => runDriver optM optP rest st
  | .create ev :: rest, st =>
    runDriver optM optP rest { st with created := st.created ++ [ev] }

/-- The driver: `PetscInt p = 2, m = 5;` (line 29) followed by `driverProgram`. -/
def driverMain (optM optP : Option Int) : DriverState × DriverResult :=
  runDriver optM optP driverProgram { m := 5, p := 2, created := [] }


/-! ## The traceback error handler (`errtrace.c`, lines 144–267) -/

/-- The error type `p` passed to the handler.  The enumeration is declared in the
PETSc headers; the handler distinguishes `PETSC_ERROR_INITIAL`,
`PETSC_ERROR_REPEAT` and any other value. -/
inductive PetscErrorType
  | INITIAL
  | REPEAT
  | other (code : Int)
  deriving DecidableEq

/-- The calls that produce output, one constructor per call site of lines
200–243.  `notice` stands for the six lines of 205–210. -/
inductive TBOut
  | hilight
  | normal
  | header
  | notice
  | memoryMessage (n : Int)
  | errorText (n : Int)
  | mess (text : String)
  | optionsLeft
  | faq
  | version
  | onA
  | configureOptions
  | stackLine (cnt : Int) (funName : String) (file : Option String) (line : Int)
  | stackLineNoFun (cnt : Int) (file : String) (line : Int)
  | outOfRange (n : Int)
  | optionsView
  | endOfMessage
  deriving DecidableEq

/-- The process-wide values the handler reads: `PetscCIEnabledPortableErrorOutput`,
`PetscGlobalRank`, `PetscGlobalSize`, `PetscErrorPrintfInitializeCalled`, the
constants `PETSC_ERR_MEM`, `PETSC_ERR_MEM_LEAK`, `PETSC_ERR_MIN_VALUE`,
`PETSC_ERR_MAX_VALUE`, and whether `PetscErrorMessage(n, &text, NULL)` yields a
text. -/
structure TBEnv where
  /-- `PetscCIEnabledPortableErrorOutput`. -/
  ciPortable : Bool
  /-- `PetscGlobalRank`. -/
  globalRank : Int
  /-- `PetscGlobalSize`. -/
  globalSize : Int
  /-- `PetscErrorPrintfInitializeCalled`. -/
  printfReady : Bool
  /-- `PETSC_ERR_MEM`. -/
  errMem : Int
  /-- `PETSC_ERR_MEM_LEAK`. -/
  errMemLeak : Int
  /-- `PETSC_ERR_MIN_VALUE`. -/
  errMinValue : Int
  /-- `PETSC_ERR_MAX_VALUE`. -/
  errMaxValue : Int
  /-- Whether `PetscErrorMessage` finds a text for the code. -/
  hasText : Int → Bool

/-- The arguments of one call, with what the MPI queries on `comm` return. -/
structure TBCall where
  /-- `comm == PETSC_COMM_SELF`. -/
  commIsSelf : Bool
  /-- `comm == MPI_COMM_NULL`. -/
  commIsNull : Bool
  /-- The rank `MPI_Comm_rank(comm, &rank)` stores. -/
  commRank : Int
  /-- The size `MPI_Comm_size(comm, &size)` stores. -/
  commSize : Int
  /-- Argument `line`. -/
  line : Int
  /-- Argument `fun`, `none` for `NULL`. -/
  funName : Option String
  /-- Argument `file`, `none` for `NULL`. -/
  file : Option String
  /-- Argument `n`. -/
  n : Int
  /-- Argument `p`. -/
  p : PetscErrorType
  /-- Argument `mess`, `none` for `NULL`. -/
  mess : Option String

/-- The variables that persist between calls: `petsc_traceback_error_silent`
(line 144), the static `cnt` (line 198) and `petscabortmpifinalize`. -/
structure TBState where
  /-- `petsc_traceback_error_silent`. -/
  silent : Bool
  /-- `cnt`. -/
  cnt : Int
  /-- `petscabortmpifinalize`. -/
  abortmpifinalize : Bool

/-- What one call does: the new state, the output calls made in order, whether
`PetscSleep(10.0)` was called, and the value returned. -/
structure TBResult where
  /-- State after the call. -/
  state : TBState
  /-- Output calls made, in order. -/
  printed : List TBOut
  /-- Whether line 261 slept. -/
  slept : Bool
  /-- Returned error code. -/
  ret : Int

/-- Lines 181 and 184: `rank = 0; if (comm != PETSC_COMM_SELF) MPI_Comm_rank(comm, &rank);`. -/
def tbRank (c : TBCall) : Int := if c.commIsSelf then 0 else c.commRank

/-- Lines 236 and 251: `PetscStrncmp(fun, "main", 4, &ismain)`. -/
def tbIsMain (f : String) : Bool := f.take 4 == "main"

/-- Lines 187–195: a call that is not a repeat clears the flag (and, under CI
output, sets `petscabortmpifinalize`). -/
def tbReset (env : TBEnv) (st : TBState) (c : TBCall) : TBState :=
  if c.p ≠ PetscErrorType.REPEAT then
    { silent := false
      cnt := st.cnt
      abortmpifinalize :=
        if env.ciPortable then
          decide ((if c.commIsNull then 1 else c.commSize) = env.globalSize)
        else st.abortmpifinalize }
  else st

/-- Lines 198–244: the branch that prints. -/
def tbPrint (env : TBEnv) (st1 : TBState) (c : TBCall) : TBResult :=
  let out1 : List TBOut :=
    if c.p = PetscErrorType.INITIAL then
      [TBOut.hilight, TBOut.header, TBOut.normal]
        ++ (if st1.cnt > 1 then [TBOut.notice] else [])
    else []
  let cnt1 : Int := if c.p = PetscErrorType.INITIAL ∧ st1.cnt > 1 then 1 else st1.cnt
  let out2 : List TBOut :=
    if cnt1 = 1 then
      (if c.n = env.errMem ∨ c.n = env.errMemLeak then [TBOut.memoryMessage c.n]
        else if env.hasText c.n then [TBOut.errorText c.n] else [])
      ++ (match c.mess with
          | some t => [TBOut.mess t]
          | none => [])
      ++ [TBOut.optionsLeft, TBOut.faq]
      ++ (if env.ciPortable then []
          else [TBOut.version] ++ (if env.printfReady then [TBOut.onA] else [])
            ++ [TBOut.configureOptions])
    else []
  let out3 : List TBOut :=
    match c.funName, c.file with
    | some f, fl => [TBOut.stackLine cnt1 f fl c.line]
    | none, some fl => [TBOut.stackLineNoFun cnt1 fl c.line]
    | none, none => []
  let cnt2 : Int :=
    match c.funName, c.file with
    | none, none => cnt1
    | _, _ => cnt1 + 1
  let out4 : List TBOut :=
    match c.funName with
    | some f =>
      if tbIsMain f then
        (if c.n ≤ env.errMinValue ∨ c.n ≥ env.errMaxValue then [TBOut.outOfRange c.n] else [])
          ++ [TBOut.optionsView, TBOut.hilight, TBOut.endOfMessage, TBOut.normal]
      else []
    | none => []
  { state := { silent := st1.silent, cnt := cnt2, abortmpifinalize := st1.abortmpifinalize }
    printed := out1 ++ out2 ++ out3 ++ out4
    slept := false
    ret := c.n }

/-- Lines 246–263: the branch that does not print. -/
def tbQuiet (env : TBEnv) (st1 : TBState) (c : TBCall) : TBResult :=
  let st2 : TBState :=
    if c.p ≠ PetscErrorType.REPEAT ∧ tbRank c ≠ 0 then
      { silent := true, cnt := st1.cnt, abortmpifinalize := st1.abortmpifinalize }
    else st1
  let slept : Bool :=
    match c.funName with
    | some f => tbIsMain f && st2.silent && !env.ciPortable
    | none => false
  { state := st2, printed := [], slept := slept, ret := c.n }

/-- Lines 178–267, `PetscTraceBackErrorHandler`, as a step on `TBState`: the reset
of lines 187–195, then the test of line 197 between printing and not printing;
the value returned is `n` (line 266). -/
def PetscTraceBackErrorHandler (env : TBEnv) (st : TBState) (c : TBCall) : TBResult :=
  if tbRank c = 0 ∧ (env.ciPortable = false ∨ env.globalRank = 0)
      ∧ (c.p ≠ PetscErrorType.REPEAT ∨ (tbReset env st c).silent = false) then
    tbPrint env (tbReset env st c) c
  else
    tbQuiet env (tbReset env st c) c

/-- A sequence of calls on one thread: the results of the calls, in order. -/
def tbRun (env : TBEnv) : TBState → List TBCall → List TBResult
  | _, [] => []
  | st, c :: cs =>
    PetscTraceBackErrorHandler env st c
      :: tbRun env (PetscTraceBackErrorHandler env st c).state cs

/-- A sample environment for the handler: no CI output, four processes. -/
def tbSampleEnv : TBEnv :=
  { ciPortable := false, globalRank := 1, globalSize := 4, printfReady := true,
    errMem := 55, errMemLeak := 85, errMinValue := 54, errMaxValue := 100,
    hasText := fun _ => true }

/-- A sample call: error code `n`, type `p`, on a communicator where this process
has rank `rank`, raised in function `f`. -/
def tbSampleCall (n : Int) (p : PetscErrorType) (rank : Int) (f : String) : TBCall :=
  { commIsSelf := false, commIsNull := false, commRank := rank, commSize := 4, line := 97,
    funName := some f, file := some "ex51.c", n := n, p := p, mess := some "message" }

/-! # Theorems -/

/-! ## Helper lemmas on sequential stores -/

/-- A loop of stores `a[indx++] = v j` fills consecutive slots. -/
theorem seqStore_fold {α : Type} (v : Nat → α) (n : Nat) (st : (Nat → α) × Nat) :
    ((List.range n).foldl (fun s j => (Function.update s.1 s.2 (v j), s.2 + 1)) st).2
        = st.2 + n ∧
    (∀ j, j < n →
      ((List.range n).foldl (fun s j => (Function.update s.1 s.2 (v j), s.2 + 1)) st).1
        (st.2 + j) = v j) ∧
    (∀ x, x < st.2 →
      ((List.range n).foldl (fun s j => (Function.update s.1 s.2 (v j), s.2 + 1)) st).1 x
        = st.1 x) := by
  induction n with
  | zero => simp
  | succ n ih =>
    obtain ⟨h1, h2, h3⟩ := ih
    rw [List.range_succ, List.foldl_append]
    simp only [List.foldl_cons, List.foldl_nil]
    refine ⟨by rw [h1]; omega, ?_, ?_⟩
    · intro j hj
      rw [h1]
      by_cases hjn : j = n
      · subst hjn; simp
      · rw [Function.update_noteq (by omega)]
        exact h2 j (by omega)
    · intro x hx
      rw [h1, Function.update_noteq (by omega)]
      exact h3 x hx

/-- Two nested loops of stores `a[indx++] = v k j` fill the buffer row by row. -/
theorem seqStore_fold2 {α : Type} (v : Nat → Nat → α) (w n : Nat) (st : (Nat → α) × Nat) :
    ((List.range n).foldl (fun s k => (List.range w).foldl
        (fun s j => (Function.update s.1 s.2 (v k j), s.2 + 1)) s) st).2 = st.2 + n * w ∧
    (∀ k j, k < n → j < w →
      ((List.range n).foldl (fun s k => (List.range w).foldl
        (fun s j => (Function.update s.1 s.2 (v k j), s.2 + 1)) s) st).1 (st.2 + k * w + j)
          = v k j) ∧
    (∀ x, x < st.2 →
      ((List.range n).foldl (fun s k => (List.range w).foldl
        (fun s j => (Function.update s.1 s.2 (v k j), s.2 + 1)) s) st).1 x = st.1 x) := by
  induction n with
  | zero => simp
  | succ n ih =>
    obtain ⟨h1, h2, h3⟩ := ih
    rw [List.range_succ, List.foldl_append]
    simp only [List.foldl_cons, List.foldl_nil]
    obtain ⟨g1, g2, g3⟩ := seqStore_fold (v n) w
      ((List.range n).foldl (fun s k => (List.range w).foldl
        (fun s j => (Function.update s.1 s.2 (v k j), s.2 + 1)) s) st)
    refine ⟨?_, ?_, ?_⟩
    · rw [g1, h1]; ring
    · intro k j hk hj
      by_cases hkn : k = n
      · subst hkn
        have := g2 j hj
        rw [h1] at this
        exact this
      · have hlt : k < n := by omega
        have hb : st.2 + k * w + j < st.2 + n * w := by
          have : (k + 1) * w ≤ n * w := Nat.mul_le_mul_right _ hlt
          have e : (k + 1) * w = k * w + w := by ring
          omega
        rw [g3 _ (by rw [h1]; exact hb)]
        exact h2 k j hlt hj
    · intro x hx
      rw [g3 x (by rw [h1]; omega)]
      exact h3 x hx

/-- Reading the finished index list of an element. -/
theorem elementIdx_apply (p m i : Nat) (idx : Nat → Nat) (k j : Nat)
    (hk : k < p + 1) (hj : j < p + 1) :
    elementIdx p m i idx (k * (p + 1) + j) = idxValue p m i k j := by
  have := (seqStore_fold2 (fun k j => idxValue p m i k j) (p + 1) (p + 1) (idx, 0)).2.1
    k j hk hj
  simpa [elementIdx, idxInner, idxStore] using this

/-! ## C1, C2: the local-to-global map of one element -/

theorem div_lt_of_lt_sq {m e : Nat} (he : e < m * m) : e / m < m :=
  Nat.div_lt_of_lt_mul he

theorem mod_lt_of_lt_sq {m e : Nat} (he : e < m * m) : e % m < m := by
  have hm : 0 < m := by
    rcases Nat.eq_zero_or_pos m with h | h
    · subst h; simp at he
    · exact h
  exact Nat.mod_lt _ hm

theorem mul_add_le_of_lt {p m a l : Nat} (ha : a < m) (hl : l ≤ p) : p * a + l ≤ p * m := by
  have h1 : p * (a + 1) ≤ p * m := Nat.mul_le_mul_left p ha
  have h2 : p * (a + 1) = p * a + p := by ring
  omega

theorem idxValue_eq_rowcol (p m e k l : Nat) :
    idxValue p m e l k = (p * (e / m) + l) * (p * m + 1) + (p * (e % m) + k) := by
  unfold idxValue; ring

/-- Row-major positions with columns below the row length determine row and column. -/
theorem rowcol_inj {n R C R' C' : Nat} (hC : C < n) (hC' : C' < n)
    (h : R * n + C = R' * n + C') : R = R' ∧ C = C' := by
  have hn : 0 < n := by omega
  have e1 : (R * n + C) / n = R := by
    rw [Nat.add_comm, Nat.add_mul_div_right _ _ hn, Nat.div_eq_of_lt hC, Nat.zero_add]
  have e2 : (R' * n + C') / n = R' := by
    rw [Nat.add_comm, Nat.add_mul_div_right _ _ hn, Nat.div_eq_of_lt hC', Nat.zero_add]
  have hR : R = R' := by rw [← e1, ← e2, h]
  subst hR
  exact ⟨rfl, by omega⟩

/-- C1: the entry `idx[l*(p+1)+k]` built by the assembly loop for element `e` is
`p*(p*m+1)*(e div m) + p*(e mod m) + l*(p*m+1) + k`, the row-major position of the
global node in row `p*(e div m)+l` and column `p*(e mod m)+k`; row and column are
at most `p*m`, so the index lies in `[0, (p*m+1)^2)`. -/
theorem C1_elementIdx_global (m p e k l : Nat) (idx0 : Nat → Nat)
    (hm : 1 ≤ m) (hp : 1 ≤ p) (he : e < m * m) (hk : k ≤ p) (hl : l ≤ p) :
    elementIdx p m e idx0 (l * (p + 1) + k)
        = p * (p * m + 1) * (e / m) + p * (e % m) + l * (p * m + 1) + k ∧
    elementIdx p m e idx0 (l * (p + 1) + k)
        = (p * (e / m) + l) * (p * m + 1) + (p * (e % m) + k) ∧
    p * (e / m) + l ≤ p * m ∧ p * (e % m) + k ≤ p * m ∧
    elementIdx p m e idx0 (l * (p + 1) + k) < (p * m + 1) ^ 2 := by
  have hval := elementIdx_apply p m e idx0 l k (by omega) (by omega)
  have hR := mul_add_le_of_lt (p := p) (div_lt_of_lt_sq he) hl
  have hC := mul_add_le_of_lt (p := p) (mod_lt_of_lt_sq he) hk
  refine ⟨hval, ?_, hR, hC, ?_⟩
  · rw [hval, idxValue_eq_rowcol]
  · rw [hval, idxValue_eq_rowcol]
    have h1 : (p * (e / m) + l) * (p * m + 1) ≤ p * m * (p * m + 1) :=
      Nat.mul_le_mul_right _ hR
    have h2 : (p * m + 1) ^ 2 = p * m * (p * m + 1) + (p * m + 1) := by ring
    omega

theorem C1_elementIdx_global_witness :
    elementIdx 2 5 7 (fun _ => 0) (1 * (2 + 1) + 2)
        = 2 * (2 * 5 + 1) * (7 / 5) + 2 * (7 % 5) + 1 * (2 * 5 + 1) + 2 ∧
    elementIdx 2 5 7 (fun _ => 0) (1 * (2 + 1) + 2)
        = (2 * (7 / 5) + 1) * (2 * 5 + 1) + (2 * (7 % 5) + 2) ∧
    2 * (7 / 5) + 1 ≤ 2 * 5 ∧ 2 * (7 % 5) + 2 ≤ 2 * 5 ∧
    elementIdx 2 5 7 (fun _ => 0) (1 * (2 + 1) + 2) < (2 * 5 + 1) ^ 2 :=
  C1_elementIdx_global 5 2 7 2 1 (fun _ => 0) (by decide) (by decide) (by decide)
    (by decide) (by decide)

/-- C2: for one element the map `(k,l) ↦ idx[l*(p+1)+k]` is injective on
`[0,p] × [0,p]`; equivalently the `(p+1)^2` entries of the element's index list
are pairwise distinct. -/
theorem C2_elementIdx_injective (m p e : Nat) (idx0 : Nat → Nat)
    (hm : 1 ≤ m) (hp : 1 ≤ p) (he : e < m * m) :
    (∀ k l k' l', k ≤ p → l ≤ p → k' ≤ p → l' ≤ p →
      elementIdx p m e idx0 (l * (p + 1) + k) = elementIdx p m e idx0 (l' * (p + 1) + k') →
      k = k' ∧ l = l') ∧
    ((List.range ((p + 1) * (p + 1))).map (elementIdx p m e idx0)).Nodup := by
  have hpm : p ≤ p * m := Nat.le_mul_of_pos_right p hm
  have key : ∀ k l k' l', k ≤ p → l ≤ p → k' ≤ p → l' ≤ p →
      elementIdx p m e idx0 (l * (p + 1) + k) = elementIdx p m e idx0 (l' * (p + 1) + k') →
      k = k' ∧ l = l' := by
    intro k l k' l' hk hl hk' hl' h
    rw [elementIdx_apply p m e idx0 l k (by omega) (by omega),
      elementIdx_apply p m e idx0 l' k' (by omega) (by omega)] at h
    unfold idxValue at h
    have h' : l * (p * m + 1) + k = l' * (p * m + 1) + k' := by omega
    have := rowcol_inj (n := p * m + 1) (by omega) (by omega) h'
    exact ⟨this.2, this.1⟩
  refine ⟨key, ?_⟩
  refine (List.nodup_map_iff_inj_on (List.nodup_range _)).2 ?_
  intro s hs t ht hst
  rw [List.mem_range] at hs ht
  have hs1 : s / (p + 1) < p + 1 := Nat.div_lt_of_lt_mul hs
  have ht1 : t / (p + 1) < p + 1 := Nat.div_lt_of_lt_mul ht
  have hs2 : s % (p + 1) < p + 1 := Nat.mod_lt _ (by omega)
  have ht2 : t % (p + 1) < p + 1 := Nat.mod_lt _ (by omega)
  have es : s / (p + 1) * (p + 1) + s % (p + 1) = s := Nat.div_add_mod' s (p + 1)
  have et : t / (p + 1) * (p + 1) + t % (p + 1) = t := Nat.div_add_mod' t (p + 1)
  rw [← es, ← et] at hst
  have := key _ _ _ _ (by omega) (by omega) (by omega) (by omega) hst
  rw [← es, ← et, this.1, this.2]

theorem C2_elementIdx_injective_witness :
    (∀ k l k' l', k ≤ 2 → l ≤ 2 → k' ≤ 2 → l' ≤ 2 →
      elementIdx 2 5 7 (fun _ => 0) (l * (2 + 1) + k)
        = elementIdx 2 5 7 (fun _ => 0) (l' * (2 + 1) + k') →
      k = k' ∧ l = l') ∧
    ((List.range ((2 + 1) * (2 + 1))).map (elementIdx 2 5 7 (fun _ => 0))).Nodup :=
  C2_elementIdx_injective 5 2 7 (fun _ => 0) (by decide) (by decide) (by decide)

/-! ## C3: overlap counts -/

theorem mem_lineSols (p m t a l : Nat) :
    (a, l) ∈ lineSols p m t ↔ a < m ∧ l ≤ p ∧ p * a + l = t := by
  simp [lineSols, Nat.lt_succ_iff, and_assoc]

/-- Decomposing a multiple of `p` as `p*a + l` with `l ≤ p`. -/
theorem mul_add_eq_mul {p a l c : Nat} (hp : 1 ≤ p) (hl : l ≤ p) (h : p * a + l = p * c) :
    (a = c ∧ l = 0) ∨ (a + 1 = c ∧ l = p) := by
  rcases Nat.lt_trichotomy a c with hac | hac | hac
  · rcases Nat.lt_or_ge (a + 1) c with h2 | h2
    · have : p * (a + 2) ≤ p * c := Nat.mul_le_mul_left p h2
      have e : p * (a + 2) = p * a + 2 * p := by ring
      omega
    · have hc : c = a + 1 := by omega
      subst hc
      have e : p * (a + 1) = p * a + p := by ring
      right; omega
  · subst hac; left; omega
  · have : p * (c + 1) ≤ p * a := Nat.mul_le_mul_left p hac
    have e : p * (c + 1) = p * c + p := by ring
    omega

theorem card_lineSols (p m t : Nat) (hm : 1 ≤ m) (hp : 1 ≤ p) (ht : t ≤ p * m) :
    (lineSols p m t).card = overlapFactor p m t := by
  by_cases hd : p ∣ t
  · obtain ⟨c, rfl⟩ := hd
    have hcm : c ≤ m := Nat.le_of_mul_le_mul_left ht (by omega)
    rcases Nat.eq_zero_or_pos c with hc0 | hcpos
    · subst hc0
      have : lineSols p m (p * 0) = {(0, 0)} := by
        ext ⟨a, l⟩
        rw [mem_lineSols, Finset.mem_singleton, Prod.mk.injEq]
        constructor
        · rintro ⟨_, hl, h⟩
          rcases mul_add_eq_mul hp hl h with h | h <;> omega
        · rintro ⟨rfl, rfl⟩; exact ⟨by omega, by omega, by simp⟩
      rw [this]; simp [overlapFactor]
    · rcases Nat.lt_or_ge c m with hlt | hge
      · have : lineSols p m (p * c) = {(c, 0), (c - 1, p)} := by
          ext ⟨a, l⟩
          rw [mem_lineSols, Finset.mem_insert, Finset.mem_singleton, Prod.mk.injEq,
            Prod.mk.injEq]
          constructor
          · rintro ⟨_, hl, h⟩
            rcases mul_add_eq_mul hp hl h with h | h
            · left; exact h
            · right; omega
          · rintro (⟨ha, hl⟩ | ⟨ha, hl⟩)
            · rw [ha, hl]; exact ⟨hlt, by omega, by simp⟩
            · rw [ha, hl]
              refine ⟨by omega, le_refl _, ?_⟩
              have : p * (c - 1 + 1) = p * (c - 1) + p := by ring
              rw [← this, Nat.sub_add_cancel hcpos]
        rw [this, Finset.card_pair (by intro h; rw [Prod.mk.injEq] at h; omega)]
        have h1 : 0 < p * c := Nat.mul_pos (by omega) hcpos
        have h2 : p * c < p * m := Nat.mul_lt_mul_of_pos_left hlt (by omega)
        simp [overlapFactor, h1, h2]
      · have hc : c = m := by omega
        subst hc
        have : lineSols p c (p * c) = {(c - 1, p)} := by
          ext ⟨a, l⟩
          rw [mem_lineSols, Finset.mem_singleton, Prod.mk.injEq]
          constructor
          · rintro ⟨ha, hl, h⟩
            rcases mul_add_eq_mul hp hl h with h | h <;> omega
          · rintro ⟨ha, hl⟩
            rw [ha, hl]
            refine ⟨by omega, le_refl _, ?_⟩
            have : p * (c - 1 + 1) = p * (c - 1) + p := by ring
            rw [← this, Nat.sub_add_cancel hcpos]
        rw [this]; simp [overlapFactor]
  · have hpos : 0 < p := by omega
    have htlt : t < p * m := by
      rcases Nat.lt_or_ge t (p * m) with h | h
      · exact h
      · exact absurd ⟨m, by omega⟩ hd
    have hmod : t % p ≠ 0 := fun h => hd (Nat.dvd_of_mod_eq_zero h)
    have hmodlt : t % p < p := Nat.mod_lt _ hpos
    have hdm : p * (t / p) + t % p = t := Nat.div_add_mod t p
    have : lineSols p m t = {(t / p, t % p)} := by
      ext ⟨a, l⟩
      rw [mem_lineSols, Finset.mem_singleton, Prod.mk.injEq]
      constructor
      · rintro ⟨_, hl, h⟩
        have hlp : l < p := by
          rcases Nat.lt_or_ge l p with h' | h'
          · exact h'
          · exfalso; apply hd
            have : l = p := by omega
            subst this
            exact ⟨a + 1, by rw [← h]; ring⟩
        have h1 : t / p = a := by
          rw [← h, Nat.add_comm, Nat.add_mul_div_left _ _ hpos, Nat.div_eq_of_lt hlp,
            Nat.zero_add]
        have h2 : t % p = l := by
          rw [← h, Nat.add_comm, Nat.add_mul_mod_self_left, Nat.mod_eq_of_lt hlp]
        exact ⟨h1.symm, h2.symm⟩
      · rintro ⟨rfl, rfl⟩
        exact ⟨(Nat.div_lt_iff_lt_mul hpos).2 (by rw [Nat.mul_comm]; exact htlt), by omega, hdm⟩
    rw [this]; simp [overlapFactor, hd]

theorem coverCount_eq_mul (p m R C : Nat) (idx0 : Nat → Nat) (hm : 1 ≤ m)
    (hC : C ≤ p * m) :
    coverCount p m idx0 (R * (p * m + 1) + C)
      = (lineSols p m R).card * (lineSols p m C).card := by
  rw [← Finset.card_product]
  unfold coverCount
  refine Finset.card_nbij'
    (fun x => ((x.1 / m, x.2.2), (x.1 % m, x.2.1)))
    (fun y => (y.1.1 * m + y.2.1, (y.2.2, y.1.2))) ?_ ?_ ?_ ?_
  · rintro ⟨e, k, l⟩ hx
    simp only [Finset.mem_filter, Finset.mem_product, Finset.mem_range] at hx
    obtain ⟨⟨he, hk, hl⟩, h⟩ := hx
    rw [elementIdx_apply p m e idx0 l k hl hk, idxValue_eq_rowcol] at h
    have hcol := mul_add_le_of_lt (p := p) (mod_lt_of_lt_sq he) (Nat.lt_succ_iff.1 hk)
    have := rowcol_inj (n := p * m + 1) (by omega) (by omega) h
    simp only [Finset.mem_product, mem_lineSols]
    exact ⟨⟨div_lt_of_lt_sq he, Nat.lt_succ_iff.1 hl, this.1⟩,
      ⟨mod_lt_of_lt_sq he, Nat.lt_succ_iff.1 hk, this.2⟩⟩
  · rintro ⟨⟨a, l⟩, ⟨b, k⟩⟩ hy
    simp only [Finset.mem_product, mem_lineSols] at hy
    obtain ⟨⟨ha, hl, hR⟩, ⟨hb, hk, hC'⟩⟩ := hy
    simp only [Finset.mem_filter, Finset.mem_product, Finset.mem_range]
    have hdiv : (a * m + b) / m = a := by
      rw [Nat.add_comm, Nat.add_mul_div_right _ _ (by omega), Nat.div_eq_of_lt hb,
        Nat.zero_add]
    have hmod : (a * m + b) % m = b := by
      rw [Nat.add_comm, Nat.add_mul_mod_self_right, Nat.mod_eq_of_lt hb]
    refine ⟨⟨?_, by omega, by omega⟩, ?_⟩
    · have : (a + 1) * m ≤ m * m := Nat.mul_le_mul_right m ha
      have e : (a + 1) * m = a * m + m := by ring
      omega
    · rw [elementIdx_apply p m _ idx0 l k (by omega) (by omega), idxValue_eq_rowcol,
        hdiv, hmod, hR, hC']
  · rintro ⟨e, k, l⟩ _
    simp only [Prod.mk.injEq, and_true]
    exact Nat.div_add_mod' e m
  · rintro ⟨⟨a, l⟩, ⟨b, k⟩⟩ hy
    simp only [Finset.mem_product, mem_lineSols] at hy
    obtain ⟨⟨ha, hl, hR⟩, ⟨hb, hk, hC'⟩⟩ := hy
    have hdiv : (a * m + b) / m = a := by
      rw [Nat.add_comm, Nat.add_mul_div_right _ _ (by omega), Nat.div_eq_of_lt hb,
        Nat.zero_add]
    have hmod : (a * m + b) % m = b := by
      rw [Nat.add_comm, Nat.add_mul_mod_self_right, Nat.mod_eq_of_lt hb]
    simp only [hdiv, hmod]

/-- C3: for a global grid node `(R, C)` the number of (element, local pair)
contributions whose global index is `R*(p*m+1)+C` equals `a(R) * a(C)`, where
`a(t) = 2` at a multiple of `p` strictly between `0` and `p*m` and `a(t) = 1`
otherwise.  So every node is covered at least once, a node strictly inside an
interior shared edge exactly twice, and an interior shared corner exactly four
times. -/
theorem C3_cover_count (m p R C : Nat) (idx0 : Nat → Nat)
    (hm : 1 ≤ m) (hp : 1 ≤ p) (hR : R ≤ p * m) (hC : C ≤ p * m) :
    coverCount p m idx0 (R * (p * m + 1) + C) = overlapFactor p m R * overlapFactor p m C ∧
    1 ≤ coverCount p m idx0 (R * (p * m + 1) + C) ∧
    ((p ∣ R ∧ 0 < R ∧ R < p * m) → ¬ p ∣ C →
      coverCount p m idx0 (R * (p * m + 1) + C) = 2) ∧
    (¬ p ∣ R → (p ∣ C ∧ 0 < C ∧ C < p * m) →
      coverCount p m idx0 (R * (p * m + 1) + C) = 2) ∧
    ((p ∣ R ∧ 0 < R ∧ R < p * m) → (p ∣ C ∧ 0 < C ∧ C < p * m) →
      coverCount p m idx0 (R * (p * m + 1) + C) = 4) := by
  have h : coverCount p m idx0 (R * (p * m + 1) + C)
      = overlapFactor p m R * overlapFactor p m C := by
    rw [coverCount_eq_mul p m R C idx0 hm hC, card_lineSols p m R hm hp hR,
      card_lineSols p m C hm hp hC]
  have h1 : 1 ≤ overlapFactor p m R := by unfold overlapFactor; split_ifs <;> omega
  have h2 : 1 ≤ overlapFactor p m C := by unfold overlapFactor; split_ifs <;> omega
  refine ⟨h, ?_, ?_, ?_, ?_⟩
  · rw [h]; exact Nat.mul_le_mul h1 h2
  · intro hRi hCn
    rw [h]; unfold overlapFactor
    rw [if_pos hRi, if_neg (fun hc => hCn hc.1)]
  · intro hRn hCi
    rw [h]; unfold overlapFactor
    rw [if_neg (fun hc => hRn hc.1), if_pos hCi]
  · intro hRi hCi
    rw [h]; unfold overlapFactor
    rw [if_pos hRi, if_pos hCi]

theorem C3_cover_count_witness :
    coverCount 2 5 (fun _ => 0) (2 * (2 * 5 + 1) + 4)
      = overlapFactor 2 5 2 * overlapFactor 2 5 4 ∧
    1 ≤ coverCount 2 5 (fun _ => 0) (2 * (2 * 5 + 1) + 4) ∧
    ((2 ∣ 2 ∧ 0 < 2 ∧ 2 < 2 * 5) → ¬ 2 ∣ 4 →
      coverCount 2 5 (fun _ => 0) (2 * (2 * 5 + 1) + 4) = 2) ∧
    (¬ 2 ∣ 2 → (2 ∣ 4 ∧ 0 < 4 ∧ 4 < 2 * 5) →
      coverCount 2 5 (fun _ => 0) (2 * (2 * 5 + 1) + 4) = 2) ∧
    ((2 ∣ 2 ∧ 0 < 2 ∧ 2 < 2 * 5) → (2 ∣ 4 ∧ 0 < 4 ∧ 4 < 2 * 5) →
      coverCount 2 5 (fun _ => 0) (2 * (2 * 5 + 1) + 4) = 4) :=
  C3_cover_count 5 2 2 4 (fun _ => 0) (by decide) (by decide) (by decide) (by decide)

/-! ## C4, C5: the owned element ranges -/

theorem rangeEnd_eq_start_succ (M size r : Nat) :
    rangeEnd M size r = rangeStart M size (r + 1) := by
  unfold rangeEnd rangeStart
  have e : (r + 1) * (M / size) = r * (M / size) + M / size := by ring
  rw [e]
  split_ifs <;> omega

theorem rangeStart_le_end (M size r : Nat) : rangeStart M size r ≤ rangeEnd M size r := by
  unfold rangeEnd
  exact Nat.le_trans (Nat.le_add_right _ _) (Nat.le_add_right _ _)

theorem rangeStart_mono (M size : Nat) : Monotone (rangeStart M size) := by
  refine monotone_nat_of_le_succ ?_
  intro r
  rw [← rangeEnd_eq_start_succ]
  exact rangeStart_le_end M size r

theorem rangeEnd_last (M size : Nat) (hs : 1 ≤ size) : rangeEnd M size (size - 1) = M := by
  have hlt : M % size < size := Nat.mod_lt _ (by omega)
  have hdm : size * (M / size) + M % size = M := Nat.div_add_mod M size
  unfold rangeEnd rangeStart
  have e : size * (M / size) = (size - 1) * (M / size) + M / size := by
    have : size = (size - 1) + 1 := by omega
    generalize M / size = q
    generalize size - 1 = s at this ⊢
    subst this
    ring
  generalize M / size = q at *
  generalize (size - 1) * q = a at *
  generalize size * q = b at *
  split_ifs <;> omega

/-- C4: the ranges `[start(r), end(r))` of ranks `0 .. size-1` tile `[0, M)`:
`start(0) = 0`, `end(r) = start(r+1)`, `end(size-1) = M`, `start(r) ≤ end(r)`, and
every element of `[0, M)` lies in the range of exactly one rank. -/
theorem C4_ranges_tile (M size : Nat) (hs : 1 ≤ size) :
    rangeStart M size 0 = 0 ∧
    (∀ r, r + 1 < size → rangeEnd M size r = rangeStart M size (r + 1)) ∧
    rangeEnd M size (size - 1) = M ∧
    (∀ r, r < size → rangeStart M size r ≤ rangeEnd M size r) ∧
    (∀ e, e < M → ∃! r, r < size ∧ rangeStart M size r ≤ e ∧ e < rangeEnd M size r) := by
  refine ⟨by simp [rangeStart], fun r _ => rangeEnd_eq_start_succ M size r,
    rangeEnd_last M size hs, fun r _ => rangeStart_le_end M size r, ?_⟩
  intro e he
  have hex : ∃ r, e < rangeEnd M size r := ⟨size - 1, by rw [rangeEnd_last M size hs]; exact he⟩
  classical
  refine ⟨Nat.find hex, ⟨?_, ?_, Nat.find_spec hex⟩, ?_⟩
  · have : Nat.find hex ≤ size - 1 :=
      Nat.find_min' hex (by rw [rangeEnd_last M size hs]; exact he)
    omega
  · rcases Nat.eq_zero_or_pos (Nat.find hex) with h0 | hpos
    · rw [h0]; simp [rangeStart]
    · have hmin := Nat.find_min hex (m := Nat.find hex - 1) (by omega)
      rw [rangeEnd_eq_start_succ, Nat.sub_add_cancel hpos] at hmin
      omega
  · rintro r ⟨_, hr1, hr2⟩
    have hle : Nat.find hex ≤ r := Nat.find_min' hex hr2
    rcases Nat.lt_or_ge (Nat.find hex) r with hlt | hge
    · have h1 := Nat.find_spec hex
      rw [rangeEnd_eq_start_succ] at h1
      have h2 := rangeStart_mono M size (show Nat.find hex + 1 ≤ r from hlt)
      omega
    · omega

theorem C4_ranges_tile_witness :
    rangeStart 25 2 0 = 0 ∧
    (∀ r, r + 1 < 2 → rangeEnd 25 2 r = rangeStart 25 2 (r + 1)) ∧
    rangeEnd 25 2 (2 - 1) = 25 ∧
    (∀ r, r < 2 → rangeStart 25 2 r ≤ rangeEnd 25 2 r) ∧
    (∀ e, e < 25 → ∃! r, r < 2 ∧ rangeStart 25 2 r ≤ e ∧ e < rangeEnd 25 2 r) :=
  C4_ranges_tile 25 2 (by decide)

/-- C5: the owned range of rank `r` has length `M div size`, plus one when
`r < M mod size`. -/
theorem C5_range_length (M size r : Nat) (hs : 1 ≤ size) (hr : r < size) :
    rangeEnd M size r - rangeStart M size r
      = M / size + (if r < M % size then 1 else 0) := by
  unfold rangeEnd
  have : (if M % size > r then 1 else 0) = (if r < M % size then 1 else 0) := rfl
  rw [this, Nat.add_assoc, Nat.add_sub_cancel_left]

theorem C5_range_length_witness :
    rangeEnd 25 2 0 - rangeStart 25 2 0 = 25 / 2 + (if 0 < 25 % 2 then 1 else 0) :=
  C5_range_length 25 2 0 (by decide) (by decide)

/-! ## C6, C7: the Dirichlet boundary rows -/

section Events
variable {K : Type}

theorem applyEvents_nil (st : BdyState K) : applyEvents st [] = st := rfl

theorem applyEvents_cons (st : BdyState K) (ev : BdyEvent K) (evs : List (BdyEvent K)) :
    applyEvents st (ev :: evs) = applyEvents (bdyStore st ev.slot ev.val ev.x ev.y) evs := rfl

theorem applyEvents_append (st : BdyState K) (e1 e2 : List (BdyEvent K)) :
    applyEvents st (e1 ++ e2) = applyEvents (applyEvents st e1) e2 := by
  unfold applyEvents; rw [List.foldl_append]

theorem applyEvents_written (st : BdyState K) (evs : List (BdyEvent K)) :
    (applyEvents st evs).written = (evs.map BdyEvent.slot).reverse ++ st.written := by
  induction evs generalizing st with
  | nil => simp [applyEvents_nil]
  | cons ev evs ih =>
    rw [applyEvents_cons, ih]
    simp [bdyStore]

theorem applyEvents_frame (st : BdyState K) (evs : List (BdyEvent K)) (s : Nat)
    (hs : s ∉ evs.map BdyEvent.slot) :
    (applyEvents st evs).rows s = st.rows s ∧ (applyEvents st evs).rowsx s = st.rowsx s ∧
    (applyEvents st evs).rowsy s = st.rowsy s := by
  induction evs generalizing st with
  | nil => simp [applyEvents_nil]
  | cons ev evs ih =>
    rw [List.map_cons, List.mem_cons, not_or] at hs
    rw [applyEvents_cons]
    obtain ⟨h1, h2, h3⟩ := ih (bdyStore st ev.slot ev.val ev.x ev.y) hs.2
    rw [h1, h2, h3]
    simp [bdyStore, Function.update_noteq hs.1]

theorem applyEvents_get (st : BdyState K) (evs : List (BdyEvent K))
    (hnd : (evs.map BdyEvent.slot).Nodup) (ev : BdyEvent K) (hev : ev ∈ evs) :
    (applyEvents st evs).rows ev.slot = ev.val ∧ (applyEvents st evs).rowsx ev.slot = ev.x ∧
    (applyEvents st evs).rowsy ev.slot = ev.y := by
  induction evs generalizing st with
  | nil => simp at hev
  | cons e evs ih =>
    rw [List.map_cons, List.nodup_cons] at hnd
    rw [applyEvents_cons]
    rcases List.mem_cons.1 hev with h | h
    · subst h
      obtain ⟨h1, h2, h3⟩ := applyEvents_frame (bdyStore st ev.slot ev.val ev.x ev.y) evs
        ev.slot hnd.1
      rw [h1, h2, h3]
      simp [bdyStore]
    · exact ih _ hnd.2 h

end Events

section Loops
variable {K : Type} [Field K]

/-- The two store events of iteration `i` of the bottom/top loop. -/
theorem bdyBottomTopStep_eq (p m : Nat) (h : K) (g : Nat → K) (st : BdyState K) (i : Nat) :
    bdyBottomTopStep p m h g st i = applyEvents st
      [⟨i, i, edgeCoord p h g i, 0⟩,
       ⟨3 * p * m - 1 + i, (p * m) * (p * m + 1) + i, edgeCoord p h g i, 1⟩] := rfl

theorem bottomTop_fold (p m : Nat) (h : K) (g : Nat → K) (st : BdyState K) (n : Nat) :
    (List.range n).foldl (bdyBottomTopStep p m h g) st = applyEvents st
      ((List.range n).flatMap fun i =>
        [⟨i, i, edgeCoord p h g i, 0⟩,
         ⟨3 * p * m - 1 + i, (p * m) * (p * m + 1) + i, edgeCoord p h g i, 1⟩]) := by
  induction n with
  | zero => rfl
  | succ n ih =>
    rw [List.range_succ, List.foldl_append, List.flatMap_append, applyEvents_append, ← ih]
    simp [bdyBottomTopStep_eq]

theorem sideLoop_eq (p m : Nat) (h : K) (g : Nat → K) (xval : K) (n : Nat) :
    ∀ (fuel i count indx : Nat) (st : BdyState K), n < fuel →
      (p * m) * (p * m + 1) ≤ i + n * (p * m + 1) →
      (∀ j, j < n → i + j * (p * m + 1) < (p * m) * (p * m + 1)) →
      bdySideLoop p m h g xval fuel i count indx st = some (applyEvents st
        ((List.range n).map fun j =>
          ⟨count + j, i + j * (p * m + 1), xval, edgeCoord p h g (indx + j)⟩)) := by
  induction n with
  | zero =>
    intro fuel i count indx st hf hb _
    obtain ⟨f, rfl⟩ : ∃ f, fuel = f + 1 := ⟨fuel - 1, by omega⟩
    have : ¬ i < (p * m) * (p * m + 1) := by omega
    simp [bdySideLoop, this, applyEvents_nil]
  | succ n ih =>
    intro fuel i count indx st hf hb hlt
    obtain ⟨f, rfl⟩ : ∃ f, fuel = f + 1 := ⟨fuel - 1, by omega⟩
    have h0 : i < (p * m) * (p * m + 1) := by simpa using hlt 0 (by omega)
    have e1 : ∀ j, i + (j + 1) * (p * m + 1) = i + (p * m + 1) + j * (p * m + 1) := by
      intro j; ring
    rw [bdySideLoop, if_pos h0,
      ih f (i + (p * m + 1)) (count + 1) (indx + 1) _ (by omega)
        (by rw [← e1]; exact hb) (fun j hj => by rw [← e1]; exact hlt (j + 1) (by omega))]
    rw [List.range_succ_eq_map, List.map_cons, applyEvents_cons, List.map_map]
    have hl : ((List.range n).map fun j => (⟨count + 1 + j, i + (p * m + 1) + j * (p * m + 1),
          xval, edgeCoord p h g (indx + 1 + j)⟩ : BdyEvent K))
        = (List.range n).map ((fun j => (⟨count + j, i + j * (p * m + 1), xval,
          edgeCoord p h g (indx + j)⟩ : BdyEvent K)) ∘ Nat.succ) := by
      apply List.map_congr_left
      intro j _
      simp only [Function.comp, Nat.succ_eq_add_one, e1]
      rw [Nat.add_right_comm count 1 j, Nat.add_right_comm indx 1 j, Nat.add_assoc count,
        Nat.add_assoc indx]
    rw [hl]
    simp only [Nat.add_zero, Nat.zero_mul]

theorem boundaryRows_eq (p m : Nat) (h : K) (g : Nat → K) (rows0 : Nat → Nat)
    (rowsx0 rowsy0 : Nat → K) (hN : 1 ≤ p * m) :
    boundaryRows p m h g rows0 rowsx0 rowsy0
      = some (applyEvents ⟨rows0, rowsx0, rowsy0, []⟩ (bdyEvents p m h g)) := by
  have h2 : 2 * p * m = 2 * (p * m) := Nat.mul_assoc 2 p m
  have key : (p * m - 1 + 1) * (p * m + 1) = p * m * (p * m + 1) := by
    rw [Nat.sub_add_cancel hN]
  have stepj : ∀ j, j < p * m - 1 → (j + 2) * (p * m + 1) ≤ p * m * (p * m + 1) := by
    intro j hj
    exact Nat.mul_le_mul_right _ (by omega)
  have hfuel : p * m - 1 < p * m * (p * m + 1) + 1 := by
    have : p * m ≤ p * m * (p * m + 1) := Nat.le_mul_of_pos_right _ (by omega)
    omega
  unfold boundaryRows bdyEvents
  simp only []
  rw [bottomTop_fold,
    sideLoop_eq p m h g 0 (p * m - 1) _ (p * m + 1) (p * m + 1) 1 _ hfuel ?_ ?_,
    Option.some_bind,
    sideLoop_eq p m h g 1 (p * m - 1) _ (2 * p * m + 1) (2 * p * m) 1 _ hfuel ?_ ?_,
    applyEvents_append, applyEvents_append]
  · rw [h2]
    have e : (p * m - 1 + 1) * (p * m + 1) = (p * m - 1) * (p * m + 1) + (p * m + 1) := by ring
    omega
  · intro j hj
    have := stepj j hj
    have e : (j + 2) * (p * m + 1) = j * (p * m + 1) + 2 * (p * m + 1) := by ring
    rw [h2]; omega
  · have e : (p * m - 1 + 1) * (p * m + 1) = (p * m - 1) * (p * m + 1) + (p * m + 1) := by ring
    omega
  · intro j hj
    have := stepj j hj
    have e : (j + 2) * (p * m + 1) = j * (p * m + 1) + 2 * (p * m + 1) := by ring
    omega

theorem bdyEvents_slots_length (p m : Nat) (h : K) (g : Nat → K) (hN : 1 ≤ p * m) :
    ((bdyEvents p m h g).map BdyEvent.slot).length = 4 * (p * m) := by
  simp [bdyEvents, List.length_flatMap, Function.comp_def]
  omega

theorem bdyEvents_bottom (p m : Nat) (h : K) (g : Nat → K) (c : Nat) (hc : c ≤ p * m) :
    (⟨c, c, edgeCoord p h g c, 0⟩ : BdyEvent K) ∈ bdyEvents p m h g := by
  unfold bdyEvents
  refine List.mem_append_left _ (List.mem_append_left _ ?_)
  rw [List.mem_flatMap]
  exact ⟨c, List.mem_range.2 (by omega), by simp⟩

theorem bdyEvents_top (p m : Nat) (h : K) (g : Nat → K) (c : Nat) (hc : c ≤ p * m) :
    (⟨3 * (p * m) - 1 + c, (p * m) * (p * m + 1) + c, edgeCoord p h g c, 1⟩ : BdyEvent K)
      ∈ bdyEvents p m h g := by
  unfold bdyEvents
  refine List.mem_append_left _ (List.mem_append_left _ ?_)
  rw [List.mem_flatMap]
  exact ⟨c, List.mem_range.2 (by omega), by simp [Nat.mul_assoc]⟩

theorem bdyEvents_left (p m : Nat) (h : K) (g : Nat → K) (t : Nat) (h1 : 1 ≤ t)
    (ht : t < p * m) :
    (⟨p * m + t, t * (p * m + 1), 0, edgeCoord p h g t⟩ : BdyEvent K) ∈ bdyEvents p m h g := by
  unfold bdyEvents
  refine List.mem_append_left _ (List.mem_append_right _ ?_)
  rw [List.mem_map]
  refine ⟨t - 1, List.mem_range.2 (by omega), ?_⟩
  have e : (t - 1 + 1) * (p * m + 1) = (t - 1) * (p * m + 1) + (p * m + 1) := by ring
  rw [Nat.sub_add_cancel h1] at e
  congr 1
  · omega
  · omega
  · congr 1; omega

theorem bdyEvents_right (p m : Nat) (h : K) (g : Nat → K) (t : Nat) (h1 : 1 ≤ t)
    (ht : t < p * m) :
    (⟨2 * (p * m) + t - 1, t * (p * m + 1) + p * m, 1, edgeCoord p h g t⟩ : BdyEvent K)
      ∈ bdyEvents p m h g := by
  unfold bdyEvents
  refine List.mem_append_right _ ?_
  rw [List.mem_map]
  refine ⟨t - 1, List.mem_range.2 (by omega), ?_⟩
  have e : (t - 1 + 1) * (p * m + 1) = (t - 1) * (p * m + 1) + (p * m + 1) := by ring
  rw [Nat.sub_add_cancel h1] at e
  have h2 : 2 * p * m = 2 * (p * m) := Nat.mul_assoc 2 p m
  congr 1
  · omega
  · omega
  · congr 1; omega

theorem bdyEvents_slots_perm (p m : Nat) (h : K) (g : Nat → K) (hN : 1 ≤ p * m) :
    ((bdyEvents p m h g).map BdyEvent.slot).Perm (List.range (4 * (p * m))) := by
  have hsub : List.range (4 * (p * m)) ⊆ (bdyEvents p m h g).map BdyEvent.slot := by
    intro s hs
    rw [List.mem_range] at hs
    rw [List.mem_map]
    rcases Nat.lt_or_ge s (p * m + 1) with h1 | h1
    · exact ⟨_, bdyEvents_bottom p m h g s (by omega), rfl⟩
    rcases Nat.lt_or_ge s (2 * (p * m)) with h2 | h2
    · exact ⟨_, bdyEvents_left p m h g (s - p * m) (by omega) (by omega), by simp; omega⟩
    rcases Nat.lt_or_ge s (3 * (p * m) - 1) with h3 | h3
    · exact ⟨_, bdyEvents_right p m h g (s + 1 - 2 * (p * m)) (by omega) (by omega),
        by simp; omega⟩
    · exact ⟨_, bdyEvents_top p m h g (s - (3 * (p * m) - 1)) (by omega), by simp; omega⟩
  have hsp := List.subperm_of_subset (List.nodup_range _) hsub
  exact (hsp.perm_of_length_le (by
    rw [bdyEvents_slots_length p m h g hN, List.length_range])).symm

end Loops
section
variable {K : Type} [Field K]

/-- The final contents of the boundary buffers, edge by edge. -/
theorem boundaryRows_spec (p m : Nat) (h : K) (g : Nat → K) (rows0 : Nat → Nat)
    (rowsx0 rowsy0 : Nat → K) (hN : 1 ≤ p * m) :
    ∃ st, boundaryRows p m h g rows0 rowsx0 rowsy0 = some st ∧
      st.written.Perm (List.range (4 * (p * m))) ∧
      (∀ c, c ≤ p * m → st.rows c = c ∧ st.rowsx c = edgeCoord p h g c ∧ st.rowsy c = 0) ∧
      (∀ t, 1 ≤ t → t < p * m → st.rows (p * m + t) = t * (p * m + 1) ∧
        st.rowsx (p * m + t) = 0 ∧ st.rowsy (p * m + t) = edgeCoord p h g t) ∧
      (∀ t, 1 ≤ t → t < p * m → st.rows (2 * (p * m) + t - 1) = t * (p * m + 1) + p * m ∧
        st.rowsx (2 * (p * m) + t - 1) = 1 ∧
        st.rowsy (2 * (p * m) + t - 1) = edgeCoord p h g t) ∧
      (∀ c, c ≤ p * m → st.rows (3 * (p * m) - 1 + c) = (p * m) * (p * m + 1) + c ∧
        st.rowsx (3 * (p * m) - 1 + c) = edgeCoord p h g c ∧
        st.rowsy (3 * (p * m) - 1 + c) = 1) := by
  have hperm := bdyEvents_slots_perm p m h g hN
  have hnd : ((bdyEvents p m h g).map BdyEvent.slot).Nodup :=
    hperm.nodup_iff.2 (List.nodup_range _)
  refine ⟨_, boundaryRows_eq p m h g rows0 rowsx0 rowsy0 hN, ?_, ?_, ?_, ?_, ?_⟩
  · rw [applyEvents_written, List.append_nil]
    exact (List.reverse_perm _).trans hperm
  · intro c hc
    exact applyEvents_get _ _ hnd _ (bdyEvents_bottom p m h g c hc)
  · intro t h1 ht
    exact applyEvents_get _ _ hnd _ (bdyEvents_left p m h g t h1 ht)
  · intro t h1 ht
    exact applyEvents_get _ _ hnd _ (bdyEvents_right p m h g t h1 ht)
  · intro c hc
    exact applyEvents_get _ _ hnd _ (bdyEvents_top p m h g c hc)

/-- Every slot below `4*p*m` holds the row-major index of a perimeter node, and
the slot is determined by that node. -/
theorem boundary_slot_node (N : Nat) (hN : 1 ≤ N) (rows : Nat → Nat)
    (hB : ∀ c, c ≤ N → rows c = c)
    (hL : ∀ t, 1 ≤ t → t < N → rows (N + t) = t * (N + 1))
    (hR : ∀ t, 1 ≤ t → t < N → rows (2 * N + t - 1) = t * (N + 1) + N)
    (hT : ∀ c, c ≤ N → rows (3 * N - 1 + c) = N * (N + 1) + c)
    (s : Nat) (hs : s < 4 * N) :
    ∃ R C, R ≤ N ∧ C ≤ N ∧ (R = 0 ∨ R = N ∨ C = 0 ∨ C = N) ∧ rows s = R * (N + 1) + C ∧
      s = (if R = 0 then C else if R = N then 3 * N - 1 + C else
        if C = 0 then N + R else 2 * N + R - 1) := by
  rcases Nat.lt_or_ge s (N + 1) with h1 | h1
  · refine ⟨0, s, by omega, by omega, Or.inl rfl, ?_, by simp⟩
    rw [hB s (by omega)]; simp
  rcases Nat.lt_or_ge s (2 * N) with h2 | h2
  · refine ⟨s - N, 0, by omega, by omega, Or.inr (Or.inr (Or.inl rfl)), ?_, ?_⟩
    · have := hL (s - N) (by omega) (by omega)
      rw [show N + (s - N) = s by omega] at this
      rw [this]; simp
    · rw [if_neg (by omega), if_neg (by omega), if_pos rfl]; omega
  rcases Nat.lt_or_ge s (3 * N - 1) with h3 | h3
  · refine ⟨s + 1 - 2 * N, N, by omega, le_refl _, Or.inr (Or.inr (Or.inr rfl)), ?_, ?_⟩
    · have := hR (s + 1 - 2 * N) (by omega) (by omega)
      rw [show 2 * N + (s + 1 - 2 * N) - 1 = s by omega] at this
      exact this
    · rw [if_neg (by omega), if_neg (by omega), if_neg (by omega)]; omega
  · refine ⟨N, s - (3 * N - 1), le_refl _, by omega, Or.inr (Or.inl rfl), ?_, ?_⟩
    · have := hT (s - (3 * N - 1)) (by omega)
      rw [show 3 * N - 1 + (s - (3 * N - 1)) = s by omega] at this
      exact this
    · rw [if_neg (by omega), if_pos rfl]; omega

/-- C6: the boundary loops store to each slot `0 .. 4*p*m-1` of `rows` exactly once
and to no other slot; the `4*p*m` resulting entries are pairwise distinct and are
exactly the global indices `R*(p*m+1)+C` of the perimeter nodes. -/
theorem C6_boundary_rows (m p : Nat) (hm : 1 ≤ m) (hp : 1 ≤ p) (h : K) (gllNode : Nat → K)
    (rows0 : Nat → Nat) (rowsx0 rowsy0 : Nat → K) :
    ∃ st, boundaryRows p m h gllNode rows0 rowsx0 rowsy0 = some st ∧
      st.written.Perm (List.range (4 * p * m)) ∧
      ((List.range (4 * p * m)).map st.rows).Nodup ∧
      ∀ v, v ∈ (List.range (4 * p * m)).map st.rows ↔
        ∃ R C, R ≤ p * m ∧ C ≤ p * m ∧ (R = 0 ∨ R = p * m ∨ C = 0 ∨ C = p * m) ∧
          v = R * (p * m + 1) + C := by
  have hN : 1 ≤ p * m := Nat.mul_pos hp hm
  obtain ⟨st, hst, hw, hB, hL, hR, hT⟩ :=
    boundaryRows_spec p m h gllNode rows0 rowsx0 rowsy0 hN
  have h4 : 4 * p * m = 4 * (p * m) := Nat.mul_assoc 4 p m
  rw [h4]
  have node := boundary_slot_node (p * m) hN st.rows (fun c hc => (hB c hc).1)
    (fun t h1 ht => (hL t h1 ht).1) (fun t h1 ht => (hR t h1 ht).1) (fun c hc => (hT c hc).1)
  refine ⟨st, hst, hw, ?_, ?_⟩
  · refine List.Nodup.map_on ?_ (List.nodup_range _)
    intro s hs s' hs' heq
    rw [List.mem_range] at hs hs'
    obtain ⟨R, C, hR1, hC1, _, e1, e2⟩ := node s hs
    obtain ⟨R', C', hR2, hC2, _, e1', e2'⟩ := node s' hs'
    rw [e1, e1'] at heq
    obtain ⟨rfl, rfl⟩ := rowcol_inj (n := p * m + 1) (by omega) (by omega) heq
    rw [e2, e2']
  · intro v
    rw [List.mem_map]
    constructor
    · rintro ⟨s, hs, rfl⟩
      rw [List.mem_range] at hs
      obtain ⟨R, C, hR1, hC1, hper, e1, _⟩ := node s hs
      exact ⟨R, C, hR1, hC1, hper, e1⟩
    · rintro ⟨R, C, hR1, hC1, hper, rfl⟩
      by_cases hR0 : R = 0
      · subst hR0
        exact ⟨C, List.mem_range.2 (by omega), by rw [(hB C hC1).1]; simp⟩
      by_cases hRN : R = p * m
      · subst hRN
        exact ⟨3 * (p * m) - 1 + C, List.mem_range.2 (by omega), (hT C hC1).1⟩
      by_cases hC0 : C = 0
      · subst hC0
        exact ⟨p * m + R, List.mem_range.2 (by omega), (hL R (by omega) (by omega)).1⟩
      · have hCN : C = p * m := by
          rcases hper with h | h | h | h
          · exact absurd h hR0
          · exact absurd h hRN
          · exact absurd h hC0
          · exact h
        subst hCN
        exact ⟨2 * (p * m) + R - 1, List.mem_range.2 (by omega),
          (hR R (by omega) (by omega)).1⟩

theorem C6_boundary_rows_witness :
    ∃ st, boundaryRows (K := ℚ) 2 5 (1 / 5) (fun i => if i = 0 then 0 else if i = 1 then 1 / 2 else 1)
        (fun _ => 0) (fun _ => 0) (fun _ => 0) = some st ∧
      st.written.Perm (List.range (4 * 2 * 5)) ∧
      ((List.range (4 * 2 * 5)).map st.rows).Nodup ∧
      ∀ v, v ∈ (List.range (4 * 2 * 5)).map st.rows ↔
        ∃ R C, R ≤ 2 * 5 ∧ C ≤ 2 * 5 ∧ (R = 0 ∨ R = 2 * 5 ∨ C = 0 ∨ C = 2 * 5) ∧
          v = R * (2 * 5 + 1) + C :=
  C6_boundary_rows 5 2 (by decide) (by decide) _ _ _ _ _

theorem edgeCoord_node (p : Nat) (hp : 1 ≤ p) (h : K) (node : Nat → K)
    (h0 : node 0 = 0) (h1 : node p = 1) (a k : Nat) (hk : k ≤ p) :
    edgeCoord p h node (p * a + k) = h * (a : K) + h * node k := by
  unfold edgeCoord
  rcases Nat.lt_or_ge k p with hlt | hge
  · have e1 : (p * a + k) / p = a := by
      rw [Nat.add_comm, Nat.add_mul_div_left _ _ (by omega), Nat.div_eq_of_lt hlt,
        Nat.zero_add]
    have e2 : (p * a + k) % p = k := by
      rw [Nat.add_comm, Nat.add_mul_mod_self_left, Nat.mod_eq_of_lt hlt]
    rw [e1, e2]; ring
  · have hkp : k = p := by omega
    have e0 : p * a + k = p * (a + 1) := by rw [hkp]; ring
    have e1 : (p * a + k) / p = a + 1 := by
      rw [e0, Nat.mul_div_cancel_left _ (by omega)]
    have e2 : (p * a + k) % p = 0 := by rw [e0, Nat.mul_mod_right]
    rw [e1, e2, h0, hkp, h1]
    push_cast; ring

theorem coord_zero (p : Nat) (hp : 1 ≤ p) (h : K) (node : Nat → K) (h0 : node 0 = 0)
    (a k : Nat) (e : p * a + k = 0) : h * (a : K) + h * node k = 0 := by
  have hk : k = 0 := by omega
  have ha : a = 0 := by
    rcases Nat.eq_zero_or_pos a with h | h
    · exact h
    · have : 0 < p * a := Nat.mul_pos (by omega) h
      omega
  rw [hk, ha, h0]; simp

theorem coord_one [CharZero K] (p m : Nat) (hp : 1 ≤ p) (node : Nat → K)
    (h1 : node p = 1) (a k : Nat) (ha : a < m) (hk : k ≤ p) (e : p * a + k = p * m) :
    meshWidth m * (a : K) + meshWidth m * node k = 1 := by
  rcases mul_add_eq_mul hp hk e with ⟨h, _⟩ | ⟨h, hkp⟩
  · omega
  · have hm : (m : K) ≠ 0 := by
      have : m ≠ 0 := by omega
      exact_mod_cast this
    rw [hkp, h1, ← h]
    rw [← h] at hm
    unfold meshWidth
    rw [Nat.cast_add, Nat.cast_one] at hm ⊢
    rw [mul_one]
    field_simp

theorem FormNodalSoln_apply (P : Nat) (x y H : K) (nds : Nat → K) (u : Nat → K) (j i : Nat)
    (hj : j < P + 1) (hi : i < P + 1) :
    FormNodalSoln P x y H nds u (j * (P + 1) + i) = ubdy (x + H * nds i) (y + H * nds j) := by
  have := (seqStore_fold2 (fun j i => ubdy (x + H * nds i) (y + H * nds j)) (P + 1) (P + 1)
    (u, 0)).2.1 j i hj hi
  simpa [FormNodalSoln] using this

/-- C7: with `h = 1/m`, `node[0] = 0` and `node[p] = 1`, every boundary slot carries
the coordinate of its node: whenever the global index of local node `(k, l)` of
element `e` equals `rows[s]`, the pair `(rowsx[s], rowsy[s])` is
`(h*(e mod m) + h*node[k], h*(e div m) + h*node[l])`, and `ubdy` there is the value
`FormNodalSoln` stores for that local node.  Stated for any field of characteristic
zero, in particular the reals. -/
theorem C7_boundary_coords [CharZero K] (m p : Nat) (hm : 1 ≤ m) (hp : 1 ≤ p)
    (gllNode : Nat → K) (h0 : gllNode 0 = 0) (h1 : gllNode p = 1)
    (rows0 idx0 : Nat → Nat) (rowsx0 rowsy0 ue0 : Nat → K) :
    ∃ st, boundaryRows p m (meshWidth m) gllNode rows0 rowsx0 rowsy0 = some st ∧
      ∀ s e k l, s < 4 * p * m → e < m * m → k ≤ p → l ≤ p →
        elementIdx p m e idx0 (l * (p + 1) + k) = st.rows s →
        st.rowsx s = meshWidth m * ((e % m : Nat) : K) + meshWidth m * gllNode k ∧
        st.rowsy s = meshWidth m * ((e / m : Nat) : K) + meshWidth m * gllNode l ∧
        ubdy (st.rowsx s) (st.rowsy s) =
          FormNodalSoln p (meshWidth m * ((e % m : Nat) : K)) (meshWidth m * ((e / m : Nat) : K))
            (meshWidth m) gllNode ue0 (l * (p + 1) + k) := by
  have hN : 1 ≤ p * m := Nat.mul_pos hp hm
  obtain ⟨st, hst, _, hB, hL, hR, hT⟩ :=
    boundaryRows_spec p m (meshWidth m) gllNode rows0 rowsx0 rowsy0 hN
  have h4 : 4 * p * m = 4 * (p * m) := Nat.mul_assoc 4 p m
  have node := boundary_slot_node (p * m) hN st.rows (fun c hc => (hB c hc).1)
    (fun t h1 ht => (hL t h1 ht).1) (fun t h1 ht => (hR t h1 ht).1) (fun c hc => (hT c hc).1)
  refine ⟨st, hst, ?_⟩
  intro s e k l hs he hk hl hidx
  rw [h4] at hs
  have hxy : st.rowsx s = meshWidth m * ((e % m : Nat) : K) + meshWidth m * gllNode k ∧
      st.rowsy s = meshWidth m * ((e / m : Nat) : K) + meshWidth m * gllNode l := by
    obtain ⟨R, C, hR1, hC1, hper, e1, e2⟩ := node s hs
    rw [elementIdx_apply p m e idx0 l k (by omega) (by omega), idxValue_eq_rowcol, e1] at hidx
    have hcol := mul_add_le_of_lt (p := p) (mod_lt_of_lt_sq he) hk
    obtain ⟨hRe, hCe⟩ := rowcol_inj (n := p * m + 1) (by omega) (by omega) hidx
    have hdiv := div_lt_of_lt_sq he
    have hmod := mod_lt_of_lt_sq he
    have ecC := edgeCoord_node p hp (meshWidth m) gllNode h0 h1 (e % m) k hk
    have ecR := edgeCoord_node p hp (meshWidth m) gllNode h0 h1 (e / m) l hl
    rw [hCe] at ecC
    rw [hRe] at ecR
    by_cases hR0 : R = 0
    · rw [if_pos hR0] at e2
      obtain ⟨_, hx, hy⟩ := hB C hC1
      rw [e2, hx, hy, ecC]
      exact ⟨rfl, (coord_zero p hp _ gllNode h0 _ _ (by omega)).symm⟩
    rw [if_neg hR0] at e2
    by_cases hRN : R = p * m
    · rw [if_pos hRN] at e2
      obtain ⟨_, hx, hy⟩ := hT C hC1
      rw [e2, hx, hy, ecC]
      exact ⟨rfl, (coord_one p m hp gllNode h1 _ _ hdiv hl (by omega)).symm⟩
    rw [if_neg hRN] at e2
    by_cases hC0 : C = 0
    · rw [if_pos hC0] at e2
      obtain ⟨_, hx, hy⟩ := hL R (by omega) (by omega)
      rw [e2, hx, hy, ecR]
      exact ⟨(coord_zero p hp _ gllNode h0 _ _ (by omega)).symm, rfl⟩
    · rw [if_neg hC0] at e2
      have hCN : C = p * m := by
        rcases hper with h | h | h | h
        · exact absurd h hR0
        · exact absurd h hRN
        · exact absurd h hC0
        · exact h
      obtain ⟨_, hx, hy⟩ := hR R (by omega) (by omega)
      rw [e2, hx, hy, ecR]
      exact ⟨(coord_one p m hp gllNode h1 _ _ hmod hk (by omega)).symm, rfl⟩
  refine ⟨hxy.1, hxy.2, ?_⟩
  rw [FormNodalSoln_apply p _ _ _ gllNode ue0 l k (by omega) (by omega), hxy.1, hxy.2]

theorem C7_boundary_coords_witness :
    ∃ st, boundaryRows (K := ℚ) 1 2 (meshWidth 2) (fun i => if i = 0 then 0 else 1)
        (fun _ => 0) (fun _ => 0) (fun _ => 0) = some st ∧
      ∀ s e k l, s < 4 * 1 * 2 → e < 2 * 2 → k ≤ 1 → l ≤ 1 →
        elementIdx 1 2 e (fun _ => 0) (l * (1 + 1) + k) = st.rows s →
        st.rowsx s = meshWidth 2 * ((e % 2 : Nat) : ℚ)
          + meshWidth 2 * (fun i => if i = 0 then (0 : ℚ) else 1) k ∧
        st.rowsy s = meshWidth 2 * ((e / 2 : Nat) : ℚ)
          + meshWidth 2 * (fun i => if i = 0 then (0 : ℚ) else 1) l ∧
        ubdy (st.rowsx s) (st.rowsy s) =
          FormNodalSoln 1 (meshWidth 2 * ((e % 2 : Nat) : ℚ)) (meshWidth 2 * ((e / 2 : Nat) : ℚ))
            (meshWidth 2) (fun i => if i = 0 then (0 : ℚ) else 1) (fun _ => 0) (l * (1 + 1) + k) :=
  C7_boundary_coords 2 1 (by decide) (by decide) (fun i => if i = 0 then 0 else 1)
    (by simp) (by simp) (fun _ => 0) (fun _ => 0) (fun _ => 0) (fun _ => 0) (fun _ => 0)

end

/-! ## C8, C9: the Lagrange basis and its derivative -/
section
variable {K : Type} [Field K]

/-- A loop multiplying an accumulator by `f i` whenever `c i` holds. -/
theorem foldl_ite_mul (c : Nat → Prop) [DecidablePred c] (f : Nat → K) (n : Nat) (a : K) :
    (List.range n).foldl (fun acc i => if c i then acc * f i else acc) a
      = a * ∏ i ∈ (Finset.range n).filter c, f i := by
  induction n with
  | zero => simp
  | succ n ih =>
    rw [List.range_succ, List.foldl_append, ih, Finset.range_succ, Finset.filter_insert]
    simp only [List.foldl_cons, List.foldl_nil]
    by_cases h : c n
    · rw [if_pos h, if_pos h, Finset.prod_insert (by simp), mul_assoc, mul_comm (f n)]
    · rw [if_neg h, if_neg h]

/-- A loop adding `f j` to an accumulator whenever `c j` holds. -/
theorem foldl_ite_add (c : Nat → Prop) [DecidablePred c] (f : Nat → K) (n : Nat) (a : K) :
    (List.range n).foldl (fun acc j => if c j then acc + f j else acc) a
      = a + ∑ j ∈ (Finset.range n).filter c, f j := by
  induction n with
  | zero => simp
  | succ n ih =>
    rw [List.range_succ, List.foldl_append, ih, Finset.range_succ, Finset.filter_insert]
    simp only [List.foldl_cons, List.foldl_nil]
    by_cases h : c n
    · rw [if_pos h, if_pos h, Finset.sum_insert (by simp), add_assoc, add_comm (f n)]
    · rw [if_neg h, if_neg h]

/-- The pair loop of `polyBasisFunc`. -/
theorem foldl_pair_mul (c : Nat → Prop) [DecidablePred c] (f g : Nat → K) (n : Nat) (s : K × K) :
    (List.range n).foldl (fun (s : K × K) i => if c i then (s.1 * f i, s.2 * g i) else s) s
      = (s.1 * ∏ i ∈ (Finset.range n).filter c, f i,
         s.2 * ∏ i ∈ (Finset.range n).filter c, g i) := by
  induction n with
  | zero => simp
  | succ n ih =>
    rw [List.range_succ, List.foldl_append, ih, Finset.range_succ, Finset.filter_insert]
    simp only [List.foldl_cons, List.foldl_nil]
    by_cases h : c n
    · rw [if_pos h, if_pos h, Finset.prod_insert (by simp), Finset.prod_insert (by simp),
        mul_assoc, mul_comm (f n), mul_assoc, mul_comm (g n)]
    · rw [if_neg h, if_neg h]

theorem polyBasisFunc_eq (p b : Nat) (x : Nat → K) (t : K) :
    polyBasisFunc p b x t = (∏ i ∈ (Finset.range (p + 1)).erase b, (t - x i))
      / (∏ i ∈ (Finset.range (p + 1)).erase b, (x b - x i)) := by
  unfold polyBasisFunc
  simp only []
  rw [foldl_pair_mul (fun i => i ≠ b), Finset.filter_ne', one_mul, one_mul]

theorem derivPolyBasisFunc_eq (p b : Nat) (x : Nat → K) (t : K) :
    derivPolyBasisFunc p b x t
      = (∑ j ∈ (Finset.range (p + 1)).erase b,
          ∏ i in ((Finset.range (p + 1)).erase b).erase j, (t - x i))
        / (∏ i ∈ (Finset.range (p + 1)).erase b, (x b - x i)) := by
  unfold derivPolyBasisFunc
  simp only []
  rw [foldl_ite_mul (fun i => i ≠ b), foldl_ite_add (fun j => j ≠ b), Finset.filter_ne',
    one_mul, zero_add]
  congr 1
  apply Finset.sum_congr rfl
  intro j _
  rw [foldl_ite_mul (fun i => i ≠ b ∧ j ≠ i), one_mul]
  apply Finset.prod_congr _ (fun _ _ => rfl)
  ext i
  simp only [Finset.mem_filter, Finset.mem_erase, Finset.mem_range]
  constructor
  · rintro ⟨h1, h2, h3⟩; exact ⟨fun h => h3 h.symm, h2, h1⟩
  · rintro ⟨h1, h2, h3⟩; exact ⟨h3, h2, fun h => h1 h.symm⟩

/-- For pairwise distinct nodes the denominator of the basis functions is not zero. -/
theorem basis_denominator_ne_zero (p b : Nat) (x : Nat → K) (hb : b ≤ p)
    (hx : ∀ i j, i ≤ p → j ≤ p → i ≠ j → x i ≠ x j) :
    ∏ i ∈ (Finset.range (p + 1)).erase b, (x b - x i) ≠ 0 := by
  rw [Finset.prod_ne_zero_iff]
  intro i hi
  rw [Finset.mem_erase, Finset.mem_range] at hi
  exact sub_ne_zero.2 (hx b i hb (by omega) (fun e => hi.1 e.symm))

/-- A Lagrange basis function at a node: `1` at its own node, `0` at the others. -/
theorem polyBasisFunc_node (p b k : Nat) (x : Nat → K) (hb : b ≤ p) (hk : k ≤ p)
    (hx : ∀ i j, i ≤ p → j ≤ p → i ≠ j → x i ≠ x j) :
    polyBasisFunc p b x (x k) = if k = b then 1 else 0 := by
  rw [polyBasisFunc_eq]
  by_cases h : k = b
  · subst h
    rw [if_pos rfl]
    exact div_self (basis_denominator_ne_zero p k x hk hx)
  · rw [if_neg h]
    have : ∏ i ∈ (Finset.range (p + 1)).erase b, (x k - x i) = 0 := by
      apply Finset.prod_eq_zero (i := k)
      · rw [Finset.mem_erase, Finset.mem_range]; exact ⟨h, by omega⟩
      · exact sub_self _
    rw [this, zero_div]

end

/-- C8: for pairwise distinct real nodes, `polyBasisFunc(p, b, x, t)` is the Lagrange
basis value `∏_{i ≠ b} (t - x[i]) / (x[b] - x[i])`; the denominator the function
divides by is not zero. -/
theorem C8_polyBasisFunc_lagrange (p b : Nat) (x : Nat → ℝ) (t : ℝ) (hp : 1 ≤ p) (hb : b ≤ p)
    (hx : ∀ i j, i ≤ p → j ≤ p → i ≠ j → x i ≠ x j) :
    polyBasisFunc p b x t = ∏ i ∈ (Finset.range (p + 1)).erase b, (t - x i) / (x b - x i) ∧
    ∏ i ∈ (Finset.range (p + 1)).erase b, (x b - x i) ≠ 0 := by
  refine ⟨?_, basis_denominator_ne_zero p b x hb hx⟩
  rw [polyBasisFunc_eq, Finset.prod_div_distrib]

theorem C8_polyBasisFunc_lagrange_witness :
    polyBasisFunc 2 1 (fun i => (i : ℝ)) (1 / 2)
      = ∏ i ∈ (Finset.range (2 + 1)).erase 1,
          ((1 / 2 : ℝ) - (i : ℝ)) / (((1 : Nat) : ℝ) - (i : ℝ)) ∧
    ∏ i ∈ (Finset.range (2 + 1)).erase 1, ((((1 : Nat) : ℝ)) - (i : ℝ)) ≠ 0 :=
  C8_polyBasisFunc_lagrange 2 1 (fun i => (i : ℝ)) (1 / 2) (by decide) (by decide)
    (fun _ _ _ _ h => fun e => h (Nat.cast_injective e))

/-- C9: for pairwise distinct real nodes, `derivPolyBasisFunc(p, b, x, t)` is the
derivative at `t` of `t ↦ polyBasisFunc(p, b, x, t)`; the denominator the function
divides by is not zero. -/
theorem C9_derivPolyBasisFunc_deriv (p b : Nat) (x : Nat → ℝ) (t : ℝ) (hp : 1 ≤ p) (hb : b ≤ p)
    (hx : ∀ i j, i ≤ p → j ≤ p → i ≠ j → x i ≠ x j) :
    HasDerivAt (fun s => polyBasisFunc p b x s) (derivPolyBasisFunc p b x t) t ∧
    ∏ i ∈ (Finset.range (p + 1)).erase b, (x b - x i) ≠ 0 := by
  refine ⟨?_, basis_denominator_ne_zero p b x hb hx⟩
  have hfun : (fun s => polyBasisFunc p b x s)
      = fun s => (∏ i ∈ (Finset.range (p + 1)).erase b, (s - x i))
        / (∏ i ∈ (Finset.range (p + 1)).erase b, (x b - x i)) := by
    funext s; exact polyBasisFunc_eq p b x s
  rw [hfun, derivPolyBasisFunc_eq]
  apply HasDerivAt.div_const
  have hprod : HasDerivAt (fun s => ∏ i ∈ (Finset.range (p + 1)).erase b, (s - x i))
      (∑ j ∈ (Finset.range (p + 1)).erase b,
        (∏ i ∈ ((Finset.range (p + 1)).erase b).erase j, (t - x i)) • (1 : ℝ)) t :=
    HasDerivAt.finset_prod (fun i _ => (hasDerivAt_id t).sub_const (x i))
  simpa using hprod

theorem C9_derivPolyBasisFunc_deriv_witness :
    HasDerivAt (fun s => polyBasisFunc 2 1 (fun i => (i : ℝ)) s)
      (derivPolyBasisFunc 2 1 (fun i => (i : ℝ)) (1 / 2)) (1 / 2) ∧
    ∏ i ∈ (Finset.range (2 + 1)).erase 1, ((((1 : Nat) : ℝ)) - (i : ℝ)) ≠ 0 :=
  C9_derivPolyBasisFunc_deriv 2 1 (fun i => (i : ℝ)) (1 / 2) (by decide) (by decide)
    (fun _ _ _ _ h => fun e => h (Nat.cast_injective e))

/-! ## C10: row sums of the 1D mass matrix -/
section
variable {K : Type} [Field K]

/-- A loop of accumulations `a[c] += g k` adds the sum of the `g k` to `a[c]`. -/
theorem foldl_accum (c : Nat) (g : Nat → K) (n : Nat) (M : Nat → K) :
    (List.range n).foldl (fun Me k => Function.update Me c (Me c + g k)) M
      = Function.update M c (M c + ∑ k ∈ Finset.range n, g k) := by
  induction n with
  | zero => simp
  | succ n ih =>
    rw [List.range_succ, List.foldl_append, ih, Finset.sum_range_succ]
    simp only [List.foldl_cons, List.foldl_nil, Function.update_same, Function.update_idem]
    rw [add_assoc]

/-- A loop of stores `a[base + i] = v i`. -/
theorem gridStore_fold {α : Type} (v : Nat → α) (base n : Nat) (M : Nat → α) :
    (∀ i, i < n →
      ((List.range n).foldl (fun Me i => Function.update Me (base + i) (v i)) M) (base + i)
        = v i) ∧
    (∀ x, (x < base ∨ base + n ≤ x) →
      ((List.range n).foldl (fun Me i => Function.update Me (base + i) (v i)) M) x = M x) := by
  induction n with
  | zero => simp
  | succ n ih =>
    obtain ⟨h1, h2⟩ := ih
    rw [List.range_succ, List.foldl_append]
    simp only [List.foldl_cons, List.foldl_nil]
    refine ⟨?_, ?_⟩
    · intro i hi
      by_cases hin : i = n
      · subst hin; simp
      · rw [Function.update_noteq (by omega)]
        exact h1 i (by omega)
    · intro x hx
      rw [Function.update_noteq (by omega)]
      exact h2 x (by omega)

/-- Two nested loops of stores `a[j * w + i] = v j i`. -/
theorem gridStore_fold2 {α : Type} (v : Nat → Nat → α) (w n : Nat) (M : Nat → α) :
    (∀ j i, j < n → i < w →
      ((List.range n).foldl (fun Me j => (List.range w).foldl
        (fun Me i => Function.update Me (j * w + i) (v j i)) Me) M) (j * w + i) = v j i) ∧
    (∀ x, n * w ≤ x →
      ((List.range n).foldl (fun Me j => (List.range w).foldl
        (fun Me i => Function.update Me (j * w + i) (v j i)) Me) M) x = M x) := by
  induction n with
  | zero => simp
  | succ n ih =>
    obtain ⟨h1, h2⟩ := ih
    rw [List.range_succ, List.foldl_append]
    simp only [List.foldl_cons, List.foldl_nil]
    obtain ⟨g1, g2⟩ := gridStore_fold (v n) (n * w) w
      ((List.range n).foldl (fun Me j => (List.range w).foldl
        (fun Me i => Function.update Me (j * w + i) (v j i)) Me) M)
    have e : (n + 1) * w = n * w + w := by ring
    refine ⟨?_, ?_⟩
    · intro j i hj hi
      by_cases hjn : j = n
      · subst hjn; exact g1 i hi
      · have hlt : j < n := by omega
        have hb : j * w + i < n * w := by
          have : (j + 1) * w ≤ n * w := Nat.mul_le_mul_right _ hlt
          have e' : (j + 1) * w = j * w + w := by ring
          omega
        rw [g2 _ (Or.inl hb)]
        exact h1 j i hlt hi
    · intro x hx
      rw [g2 x (Or.inr (by omega))]
      exact h2 x (by omega)

/-- Entry `(j, i)` of the matrix built by `Form1DElementMass` is the quadrature sum. -/
theorem Form1DElementMass_apply (H : K) (P : Nat) (gqn gqw Me1D : Nat → K) (j i : Nat)
    (hj : j ≤ P) (hi : i ≤ P) :
    Form1DElementMass H P gqn gqw Me1D (j * (P + 1) + i)
      = ∑ k ∈ Finset.range (P + 1),
          H * gqw k * polyBasisFunc P i gqn (gqn k) * polyBasisFunc P j gqn (gqn k) := by
  have hbody : ∀ (Me : Nat → K) (j i : Nat),
      (List.range (P + 1)).foldl (fun Me k =>
          Function.update Me (j * (P + 1) + i)
            (Me (j * (P + 1) + i)
              + H * gqw k * polyBasisFunc P i gqn (gqn k) * polyBasisFunc P j gqn (gqn k)))
        (Function.update Me (j * (P + 1) + i) 0)
      = Function.update Me (j * (P + 1) + i) (∑ k ∈ Finset.range (P + 1),
          H * gqw k * polyBasisFunc P i gqn (gqn k) * polyBasisFunc P j gqn (gqn k)) := by
    intro Me j i
    rw [foldl_accum]
    simp
  unfold Form1DElementMass
  simp only [hbody]
  exact (gridStore_fold2 (fun j i => ∑ k ∈ Finset.range (P + 1),
      H * gqw k * polyBasisFunc P i gqn (gqn k) * polyBasisFunc P j gqn (gqn k))
    (P + 1) (P + 1) Me1D).1 j i (by omega) (by omega)

/-- With the basis nodes as quadrature nodes the mass matrix is diagonal. -/
theorem Form1DElementMass_entry (H : K) (P : Nat) (gqn gqw Me1D : Nat → K) (j i : Nat)
    (hj : j ≤ P) (hi : i ≤ P) (hx : ∀ a b, a ≤ P → b ≤ P → a ≠ b → gqn a ≠ gqn b) :
    Form1DElementMass H P gqn gqw Me1D (j * (P + 1) + i) = if i = j then H * gqw i else 0 := by
  rw [Form1DElementMass_apply H P gqn gqw Me1D j i hj hi]
  have hterm : ∀ k ∈ Finset.range (P + 1),
      H * gqw k * polyBasisFunc P i gqn (gqn k) * polyBasisFunc P j gqn (gqn k)
        = if k = i then (if i = j then H * gqw i else 0) else 0 := by
    intro k hk
    rw [Finset.mem_range] at hk
    rw [polyBasisFunc_node P i k gqn hi (by omega) hx,
      polyBasisFunc_node P j k gqn hj (by omega) hx]
    by_cases h1 : k = i
    · subst h1
      by_cases h2 : k = j
      · simp [h2]
      · simp [h2]
    · simp [h1]
  rw [Finset.sum_congr rfl hterm, Finset.sum_ite_eq']
  simp only [Finset.mem_range]
  rw [if_pos (by omega)]

/-- Row sums of the mass matrix: row `i` sums to `H * gqw[i]`. -/
theorem Form1DElementMass_rowsum (H : K) (P : Nat) (gqn gqw Me1D : Nat → K) (i : Nat)
    (hi : i ≤ P) (hx : ∀ a b, a ≤ P → b ≤ P → a ≠ b → gqn a ≠ gqn b) :
    ∑ j ∈ Finset.range (P + 1), Form1DElementMass H P gqn gqw Me1D (j * (P + 1) + i)
      = H * gqw i := by
  have hterm : ∀ j ∈ Finset.range (P + 1),
      Form1DElementMass H P gqn gqw Me1D (j * (P + 1) + i) = if i = j then H * gqw i else 0 := by
    intro j hj
    rw [Finset.mem_range] at hj
    exact Form1DElementMass_entry H P gqn gqw Me1D j i (by omega) hi hx
  rw [Finset.sum_congr rfl hterm, Finset.sum_ite_eq]
  simp only [Finset.mem_range]
  rw [if_pos (by omega)]

end

section
variable {K : Type} [LinearOrderedField K]

/-- The two-point rule: `leggaulob` for `n = 1`. -/
theorem leggaulob_one (cosR : K → K) (piR : K) (fuel : Nat) (x1 x2 : K) (x w : Nat → K) :
    ∃ X W, leggaulob cosR piR fuel x1 x2 x w 1 = some (X, W) ∧
      X 0 = x1 ∧ X 1 = x2 ∧ W 0 = (x2 - x1) / 2 ∧ W 1 = (x2 - x1) / 2 := by
  refine ⟨_, _, by simp [leggaulob]; exact ⟨rfl, rfl⟩, ?_, ?_, ?_, ?_⟩
  · simp
  · simp
  · simp [List.range_succ, Function.update]
  · simp [List.range_succ, Function.update]

end

/-- C10, as amended: for pairwise distinct nodes (as the GLL nodes are) and any
weights, row `i` of the 1D mass matrix built by `Form1DElementMass` sums to
`H * gqw[i]`, not to `H`; summed over all rows this gives `H` times the sum of the
weights, which is `H` when the weights sum to `1`. -/
theorem C10_mass_row_sum (H : ℝ) (p i : Nat) (gqn gqw Me1D : Nat → ℝ) (hp : 1 ≤ p)
    (hi : i ≤ p) (hx : ∀ a b, a ≤ p → b ≤ p → a ≠ b → gqn a ≠ gqn b) :
    ∑ j ∈ Finset.range (p + 1), Form1DElementMass H p gqn gqw Me1D (j * (p + 1) + i)
      = H * gqw i ∧
    ∑ r ∈ Finset.range (p + 1), ∑ j ∈ Finset.range (p + 1),
        Form1DElementMass H p gqn gqw Me1D (j * (p + 1) + r)
      = H * ∑ k ∈ Finset.range (p + 1), gqw k := by
  refine ⟨Form1DElementMass_rowsum H p gqn gqw Me1D i hi hx, ?_⟩
  rw [Finset.mul_sum]
  apply Finset.sum_congr rfl
  intro r hr
  rw [Finset.mem_range] at hr
  exact Form1DElementMass_rowsum H p gqn gqw Me1D r (by omega) hx

theorem C10_mass_row_sum_witness :
    ∑ j ∈ Finset.range (1 + 1),
        Form1DElementMass (1 : ℝ) 1 (fun i => (i : ℝ)) (fun _ => 1 / 2) (fun _ => 0)
          (j * (1 + 1) + 0)
      = 1 * (fun _ => (1 / 2 : ℝ)) 0 ∧
    ∑ r ∈ Finset.range (1 + 1), ∑ j ∈ Finset.range (1 + 1),
        Form1DElementMass (1 : ℝ) 1 (fun i => (i : ℝ)) (fun _ => 1 / 2) (fun _ => 0)
          (j * (1 + 1) + r)
      = 1 * ∑ k ∈ Finset.range (1 + 1), (fun _ => (1 / 2 : ℝ)) k :=
  C10_mass_row_sum 1 1 0 (fun i => (i : ℝ)) (fun _ => 1 / 2) (fun _ => 0) (by decide)
    (by decide) (fun _ _ _ _ h => fun e => h (Nat.cast_injective e))

/-- C10 as stated fails: for `p = 1`, `H = 1` and the nodes and weights returned
by `leggaulob(0, 1, x, w, 1)`, row `0` of the mass matrix sums to `1/2`, not to
`H = 1`. -/
theorem C10_row_sum_counterexample :
    (leggaulob Real.cos Real.pi 100 (0 : ℝ) 1 (fun _ => 0) (fun _ => 0) 1).map
      (fun xw => ∑ j ∈ Finset.range (1 + 1),
        Form1DElementMass (1 : ℝ) 1 xw.1 xw.2 (fun _ => 0) (j * (1 + 1) + 0)) = some (1 / 2) ∧
    (1 / 2 : ℝ) ≠ 1 := by
  obtain ⟨X, W, h, hx0, hx1, hw0, _⟩ :=
    leggaulob_one Real.cos Real.pi 100 (0 : ℝ) 1 (fun _ => 0) (fun _ => 0)
  refine ⟨?_, by norm_num⟩
  rw [h, Option.map_some']
  have hx : ∀ a b, a ≤ 1 → b ≤ 1 → a ≠ b → X a ≠ X b := by
    intro a b ha hb hab
    interval_cases a <;> interval_cases b <;> simp_all
  simp only []
  rw [Form1DElementMass_rowsum 1 1 X W _ 0 (by omega) hx, hw0]
  norm_num

/-! ## C11: row sums of the 1D stiffness matrix -/

section
variable {K : Type} [Field K]

/-- Entry `(j, i)` of the matrix built by `Form1DElementStiffness` is the quadrature sum. -/
theorem Form1DElementStiffness_apply (H : K) (P : Nat) (gqn gqw Ke1D : Nat → K) (j i : Nat)
    (hj : j ≤ P) (hi : i ≤ P) :
    Form1DElementStiffness H P gqn gqw Ke1D (j * (P + 1) + i)
      = ∑ k ∈ Finset.range (P + 1),
          (1 / H) * gqw k * derivPolyBasisFunc P i gqn (gqn k)
            * derivPolyBasisFunc P j gqn (gqn k) := by
  have hbody : ∀ (Ke : Nat → K) (j i : Nat),
      (List.range (P + 1)).foldl (fun Ke k =>
          Function.update Ke (j * (P + 1) + i)
            (Ke (j * (P + 1) + i)
              + (1 / H) * gqw k * derivPolyBasisFunc P i gqn (gqn k)
                * derivPolyBasisFunc P j gqn (gqn k)))
        (Function.update Ke (j * (P + 1) + i) 0)
      = Function.update Ke (j * (P + 1) + i) (∑ k ∈ Finset.range (P + 1),
          (1 / H) * gqw k * derivPolyBasisFunc P i gqn (gqn k)
            * derivPolyBasisFunc P j gqn (gqn k)) := by
    intro Ke j i
    rw [foldl_accum]
    simp
  unfold Form1DElementStiffness
  simp only [hbody]
  exact (gridStore_fold2 (fun j i => ∑ k ∈ Finset.range (P + 1),
      (1 / H) * gqw k * derivPolyBasisFunc P i gqn (gqn k)
        * derivPolyBasisFunc P j gqn (gqn k))
    (P + 1) (P + 1) Ke1D).1 j i (by omega) (by omega)

/-- `polyBasisFunc` is the evaluation of Mathlib's Lagrange basis polynomial. -/
theorem polyBasisFunc_eq_eval (p b : Nat) (x : Nat → K) (t : K) :
    polyBasisFunc p b x t
      = Polynomial.eval t (Lagrange.basis (Finset.range (p + 1)) x b) := by
  rw [polyBasisFunc_eq, Lagrange.basis, Polynomial.eval_prod, ← Finset.prod_div_distrib]
  apply Finset.prod_congr rfl
  intro i _
  simp [Lagrange.basisDivisor, div_eq_inv_mul]

/-- For pairwise distinct nodes the basis functions sum to one. -/
theorem polyBasisFunc_sum (p : Nat) (x : Nat → K)
    (hx : ∀ i j, i ≤ p → j ≤ p → i ≠ j → x i ≠ x j) (t : K) :
    ∑ b ∈ Finset.range (p + 1), polyBasisFunc p b x t = 1 := by
  have hinj : Set.InjOn x (Finset.range (p + 1) : Set Nat) := by
    intro a ha b hb hab
    simp only [Finset.coe_range, Set.mem_Iio] at ha hb
    by_contra hne
    exact hx a b (by omega) (by omega) hne hab
  have h := Lagrange.sum_basis hinj ⟨0, Finset.mem_range.2 (by omega)⟩
  have h2 := congrArg (Polynomial.eval t) h
  rw [Polynomial.eval_finset_sum, Polynomial.eval_one] at h2
  rw [← h2]
  exact Finset.sum_congr rfl (fun b _ => polyBasisFunc_eq_eval p b x t)

end

/-- The derivative of a basis function, as a derivative in the sense of analysis. -/
theorem hasDerivAt_polyBasisFunc (p b : Nat) (x : Nat → ℝ) (t : ℝ) :
    HasDerivAt (fun s => polyBasisFunc p b x s) (derivPolyBasisFunc p b x t) t := by
  have hfun : (fun s => polyBasisFunc p b x s)
      = fun s => (∏ i ∈ (Finset.range (p + 1)).erase b, (s - x i))
        / (∏ i ∈ (Finset.range (p + 1)).erase b, (x b - x i)) := by
    funext s; exact polyBasisFunc_eq p b x s
  rw [hfun, derivPolyBasisFunc_eq]
  apply HasDerivAt.div_const
  have hprod : HasDerivAt (fun s => ∏ i ∈ (Finset.range (p + 1)).erase b, (s - x i))
      (∑ j ∈ (Finset.range (p + 1)).erase b,
        (∏ i ∈ ((Finset.range (p + 1)).erase b).erase j, (t - x i)) • (1 : ℝ)) t :=
    HasDerivAt.finset_prod (fun i _ => (hasDerivAt_id t).sub_const (x i))
  simpa using hprod

/-- For pairwise distinct nodes the derivatives of the basis functions sum to zero. -/
theorem derivPolyBasisFunc_sum (p : Nat) (x : Nat → ℝ)
    (hx : ∀ i j, i ≤ p → j ≤ p → i ≠ j → x i ≠ x j) (t : ℝ) :
    ∑ b ∈ Finset.range (p + 1), derivPolyBasisFunc p b x t = 0 := by
  have h1 : HasDerivAt (fun s => ∑ b ∈ Finset.range (p + 1), polyBasisFunc p b x s)
      (∑ b ∈ Finset.range (p + 1), derivPolyBasisFunc p b x t) t :=
    HasDerivAt.sum (fun b _ => hasDerivAt_polyBasisFunc p b x t)
  have hconst : (fun s => ∑ b ∈ Finset.range (p + 1), polyBasisFunc p b x s)
      = fun _ => (1 : ℝ) := by
    funext s; exact polyBasisFunc_sum p x hx s
  rw [hconst] at h1
  exact h1.unique (hasDerivAt_const t (1 : ℝ))

/-- The 1D stiffness matrix is symmetric. -/
theorem Form1DElementStiffness_symm {K : Type} [Field K] (H : K) (P : Nat)
    (gqn gqw Ke1D : Nat → K) (j i : Nat) (hj : j ≤ P) (hi : i ≤ P) :
    Form1DElementStiffness H P gqn gqw Ke1D (j * (P + 1) + i)
      = Form1DElementStiffness H P gqn gqw Ke1D (i * (P + 1) + j) := by
  rw [Form1DElementStiffness_apply H P gqn gqw Ke1D j i hj hi,
    Form1DElementStiffness_apply H P gqn gqw Ke1D i j hi hj]
  exact Finset.sum_congr rfl (fun k _ => by ring)

/-- The 1D mass matrix is symmetric. -/
theorem Form1DElementMass_symm {K : Type} [Field K] (H : K) (P : Nat)
    (gqn gqw Me1D : Nat → K) (j i : Nat) (hj : j ≤ P) (hi : i ≤ P) :
    Form1DElementMass H P gqn gqw Me1D (j * (P + 1) + i)
      = Form1DElementMass H P gqn gqw Me1D (i * (P + 1) + j) := by
  rw [Form1DElementMass_apply H P gqn gqw Me1D j i hj hi,
    Form1DElementMass_apply H P gqn gqw Me1D i j hi hj]
  exact Finset.sum_congr rfl (fun k _ => by ring)

/-- Column sums of the 1D stiffness matrix vanish. -/
theorem Form1DElementStiffness_colsum (H : ℝ) (P : Nat) (gqn gqw Ke1D : Nat → ℝ) (i : Nat)
    (hi : i ≤ P) (hx : ∀ a b, a ≤ P → b ≤ P → a ≠ b → gqn a ≠ gqn b) :
    ∑ j ∈ Finset.range (P + 1), Form1DElementStiffness H P gqn gqw Ke1D (j * (P + 1) + i)
      = 0 := by
  have hterm : ∀ j ∈ Finset.range (P + 1),
      Form1DElementStiffness H P gqn gqw Ke1D (j * (P + 1) + i)
        = ∑ k ∈ Finset.range (P + 1), (1 / H) * gqw k * derivPolyBasisFunc P i gqn (gqn k)
            * derivPolyBasisFunc P j gqn (gqn k) := by
    intro j hj
    rw [Finset.mem_range] at hj
    exact Form1DElementStiffness_apply H P gqn gqw Ke1D j i (by omega) hi
  rw [Finset.sum_congr rfl hterm, Finset.sum_comm]
  apply Finset.sum_eq_zero
  intro k _
  rw [← Finset.mul_sum, derivPolyBasisFunc_sum P gqn hx (gqn k), mul_zero]

/-- Row sums of the 1D stiffness matrix vanish. -/
theorem Form1DElementStiffness_rowsum (H : ℝ) (P : Nat) (gqn gqw Ke1D : Nat → ℝ) (j : Nat)
    (hj : j ≤ P) (hx : ∀ a b, a ≤ P → b ≤ P → a ≠ b → gqn a ≠ gqn b) :
    ∑ i ∈ Finset.range (P + 1), Form1DElementStiffness H P gqn gqw Ke1D (j * (P + 1) + i)
      = 0 := by
  rw [← Form1DElementStiffness_colsum H P gqn gqw Ke1D j hj hx]
  apply Finset.sum_congr rfl
  intro i hi
  rw [Finset.mem_range] at hi
  exact Form1DElementStiffness_symm H P gqn gqw Ke1D j i hj (by omega)

/-- C11: for pairwise distinct real nodes and arbitrary weights, every row sum of
the 1D stiffness matrix built by `Form1DElementStiffness` is zero: the sum over
`j` of `Ke1D[j*(p+1)+i]` vanishes for every `i` in `[0, p]`. -/
theorem C11_stiffness_row_sum (H : ℝ) (p i : Nat) (gqn gqw Ke1D : Nat → ℝ) (hp : 1 ≤ p)
    (hi : i ≤ p) (hx : ∀ a b, a ≤ p → b ≤ p → a ≠ b → gqn a ≠ gqn b) :
    ∑ j ∈ Finset.range (p + 1), Form1DElementStiffness H p gqn gqw Ke1D (j * (p + 1) + i)
      = 0 :=
  Form1DElementStiffness_colsum H p gqn gqw Ke1D i hi hx

theorem C11_stiffness_row_sum_witness :
    ∑ j ∈ Finset.range (2 + 1),
        Form1DElementStiffness (3 : ℝ) 2 (fun i => (i : ℝ)) (fun i => (i : ℝ) + 1) (fun _ => 0)
          (j * (2 + 1) + 1)
      = 0 :=
  C11_stiffness_row_sum 3 2 1 (fun i => (i : ℝ)) (fun i => (i : ℝ) + 1) (fun _ => 0)
    (by decide) (by decide) (fun _ _ _ _ h => fun e => h (Nat.cast_injective e))

/-! ## C12, C13: the tensor-product element matrices -/

section Stores
variable {K : Type}

theorem applyStores_nil (st : (Nat → K) × List Nat) : applyStores st [] = st := rfl

theorem applyStores_cons (st : (Nat → K) × List Nat) (ev : Nat × K) (evs : List (Nat × K)) :
    applyStores st (ev :: evs) = applyStores (storeLog st ev.1 ev.2) evs := rfl

theorem applyStores_append (st : (Nat → K) × List Nat) (e1 e2 : List (Nat × K)) :
    applyStores st (e1 ++ e2) = applyStores (applyStores st e1) e2 := by
  unfold applyStores; rw [List.foldl_append]

theorem applyStores_written (st : (Nat → K) × List Nat) (evs : List (Nat × K)) :
    (applyStores st evs).2 = (evs.map Prod.fst).reverse ++ st.2 := by
  induction evs generalizing st with
  | nil => simp [applyStores_nil]
  | cons ev evs ih =>
    rw [applyStores_cons, ih]
    simp [storeLog]

theorem applyStores_frame (st : (Nat → K) × List Nat) (evs : List (Nat × K)) (s : Nat)
    (hs : s ∉ evs.map Prod.fst) : (applyStores st evs).1 s = st.1 s := by
  induction evs generalizing st with
  | nil => simp [applyStores_nil]
  | cons ev evs ih =>
    rw [List.map_cons, List.mem_cons, not_or] at hs
    rw [applyStores_cons, ih _ hs.2]
    simp [storeLog, Function.update_noteq hs.1]

theorem applyStores_get (st : (Nat → K) × List Nat) (evs : List (Nat × K))
    (hnd : (evs.map Prod.fst).Nodup) (ev : Nat × K) (hev : ev ∈ evs) :
    (applyStores st evs).1 ev.1 = ev.2 := by
  induction evs generalizing st with
  | nil => simp at hev
  | cons e evs ih =>
    rw [List.map_cons, List.nodup_cons] at hnd
    rw [applyStores_cons]
    rcases List.mem_cons.1 hev with h | h
    · subst h
      rw [applyStores_frame _ evs ev.1 hnd.1]
      simp [storeLog]
    · exact ih _ hnd.2 h

/-- A loop whose body performs a list of stores performs their concatenation. -/
theorem foldl_applyStores (l : List Nat) (f : Nat → List (Nat × K))
    (st : (Nat → K) × List Nat) :
    l.foldl (fun s a => applyStores s (f a)) st = applyStores st (l.flatMap f) := by
  induction l generalizing st with
  | nil => rfl
  | cons a l ih =>
    rw [List.foldl_cons, ih, List.flatMap_cons, applyStores_append]

/-- A loop of single stores performs the list of those stores. -/
theorem foldl_storeLog (l : List Nat) (c : Nat → Nat) (v : Nat → K)
    (st : (Nat → K) × List Nat) :
    l.foldl (fun s a => storeLog s (c a) (v a)) st
      = applyStores st (l.map fun a => (c a, v a)) := by
  induction l generalizing st with
  | nil => rfl
  | cons a l ih =>
    rw [List.foldl_cons, ih, List.map_cons, applyStores_cons]

/-- The four nested loops of the 2D element routines perform `tensorStores`. -/
theorem tensorLoops_eq (N : Nat) (val : Nat → Nat → Nat → Nat → K)
    (st : (Nat → K) × List Nat) :
    (List.range N).foldl (fun st j2 =>
      (List.range N).foldl (fun st i2 =>
        (List.range N).foldl (fun st j1 =>
          (List.range N).foldl (fun st i1 =>
            storeLog st ((j2 * N + j1) * N * N + (i2 * N + i1)) (val j2 i2 j1 i1))
            st) st) st) st
      = applyStores st (tensorStores N val) := by
  simp only [foldl_storeLog, foldl_applyStores]
  rfl

theorem tensorStores_length (N : Nat) (val : Nat → Nat → Nat → Nat → K) :
    ((tensorStores N val).map Prod.fst).length = N * N * (N * N) := by
  simp [tensorStores, List.length_flatMap, Function.comp_def]
  ring

theorem mem_tensorStores (N : Nat) (val : Nat → Nat → Nat → Nat → K) (j2 i2 j1 i1 : Nat)
    (h1 : j2 < N) (h2 : i2 < N) (h3 : j1 < N) (h4 : i1 < N) :
    ((j2 * N + j1) * N * N + (i2 * N + i1), val j2 i2 j1 i1) ∈ tensorStores N val := by
  unfold tensorStores
  simp only [List.mem_flatMap, List.mem_map, List.mem_range]
  exact ⟨j2, h1, i2, h2, j1, h3, i1, h4, rfl⟩

/-- Splitting an offset below `N*N` into two digits below `N`. -/
theorem digits_lt {N s : Nat} (hs : s < N * N) : s / N < N ∧ s % N < N ∧ s / N * N + s % N = s := by
  have hN : 0 < N := by
    rcases Nat.eq_zero_or_pos N with h | h
    · subst h; simp at hs
    · exact h
  exact ⟨Nat.div_lt_of_lt_mul hs, Nat.mod_lt _ hN, Nat.div_add_mod' s N⟩

theorem tensorStores_slots_perm (N : Nat) (val : Nat → Nat → Nat → Nat → K) :
    ((tensorStores N val).map Prod.fst).Perm (List.range (N * N * (N * N))) := by
  have hsub : List.range (N * N * (N * N)) ⊆ (tensorStores N val).map Prod.fst := by
    intro s hs
    rw [List.mem_range] at hs
    have hNN : 0 < N * N := by
      rcases Nat.eq_zero_or_pos (N * N) with h | h
      · rw [h] at hs; simp at hs
      · exact h
    have hrow : s / (N * N) < N * N := Nat.div_lt_of_lt_mul hs
    have hcol : s % (N * N) < N * N := Nat.mod_lt _ hNN
    obtain ⟨r1, r2, r3⟩ := digits_lt hrow
    obtain ⟨c1, c2, c3⟩ := digits_lt hcol
    rw [List.mem_map]
    refine ⟨_, mem_tensorStores N val _ _ _ _ r1 c1 r2 c2, ?_⟩
    show (s / (N * N) / N * N + s / (N * N) % N) * N * N
      + (s % (N * N) / N * N + s % (N * N) % N) = s
    rw [r3, c3, Nat.mul_assoc]
    exact Nat.div_add_mod' s (N * N)
  have hsp := List.subperm_of_subset (List.nodup_range _) hsub
  exact (hsp.perm_of_length_le (by
    rw [tensorStores_length, List.length_range])).symm

/-- Result of the four nested loops: each slot below `N^4` is stored to exactly
once, and the entry of row `j2*N+j1`, column `i2*N+i1` is `val j2 i2 j1 i1`. -/
theorem tensorStores_spec (N : Nat) (val : Nat → Nat → Nat → Nat → K) (A : Nat → K) :
    (applyStores (A, []) (tensorStores N val)).2.Perm (List.range (N * N * (N * N))) ∧
    ∀ j2 i2 j1 i1, j2 < N → i2 < N → j1 < N → i1 < N →
      (applyStores (A, []) (tensorStores N val)).1 ((j2 * N + j1) * N * N + (i2 * N + i1))
        = val j2 i2 j1 i1 := by
  have hperm := tensorStores_slots_perm N val
  have hnd : ((tensorStores N val).map Prod.fst).Nodup :=
    hperm.nodup_iff.2 (List.nodup_range _)
  refine ⟨?_, ?_⟩
  · rw [applyStores_written, List.append_nil]
    exact (List.reverse_perm _).trans hperm
  · intro j2 i2 j1 i1 h1 h2 h3 h4
    exact applyStores_get _ _ hnd _ (mem_tensorStores N val j2 i2 j1 i1 h1 h2 h3 h4)

end Stores

section
variable {K : Type} [Field K]

theorem Form2DElementMass_eq (P : Nat) (Me1D Me2D : Nat → K) :
    Form2DElementMass P Me1D Me2D = applyStores (Me2D, []) (tensorStores (P + 1)
      fun j2 i2 j1 i1 => Me1D (j1 * (P + 1) + i1) * Me1D (j2 * (P + 1) + i2)) := by
  unfold Form2DElementMass
  exact tensorLoops_eq (P + 1) _ _

theorem Form2DElementStiffness_eq (P : Nat) (Ke1D Me1D Ke2D : Nat → K) :
    Form2DElementStiffness P Ke1D Me1D Ke2D = applyStores (Ke2D, []) (tensorStores (P + 1)
      fun j2 i2 j1 i1 => Ke1D (j1 * (P + 1) + i1) * Me1D (j2 * (P + 1) + i2)
        + Me1D (j1 * (P + 1) + i1) * Ke1D (j2 * (P + 1) + i2)) := by
  unfold Form2DElementStiffness
  exact tensorLoops_eq (P + 1) _ _

/-- C12: `Form2DElementMass` stores to every one of the `(p+1)^4` slots of `Me2D`
exactly once and to no other slot, and the entry at row `j2*(p+1)+j1`, column
`i2*(p+1)+i1` is `Me1D[j1*(p+1)+i1] * Me1D[j2*(p+1)+i2]`. -/
theorem C12_Form2DElementMass_kron (p : Nat) (hp : 1 ≤ p) (Me1D Me2D : Nat → K) :
    (Form2DElementMass p Me1D Me2D).2.Perm (List.range ((p + 1) ^ 4)) ∧
    ∀ i1 i2 j1 j2, i1 ≤ p → i2 ≤ p → j1 ≤ p → j2 ≤ p →
      (Form2DElementMass p Me1D Me2D).1
          ((j2 * (p + 1) + j1) * (p + 1) ^ 2 + (i2 * (p + 1) + i1))
        = Me1D (j1 * (p + 1) + i1) * Me1D (j2 * (p + 1) + i2) := by
  have e4 : (p + 1) ^ 4 = (p + 1) * (p + 1) * ((p + 1) * (p + 1)) := by ring
  obtain ⟨h1, h2⟩ := tensorStores_spec (p + 1)
    (fun j2 i2 j1 i1 => Me1D (j1 * (p + 1) + i1) * Me1D (j2 * (p + 1) + i2)) Me2D
  rw [Form2DElementMass_eq, e4]
  refine ⟨h1, ?_⟩
  intro i1 i2 j1 j2 hi1 hi2 hj1 hj2
  have e2 : (j2 * (p + 1) + j1) * (p + 1) ^ 2 = (j2 * (p + 1) + j1) * (p + 1) * (p + 1) := by
    ring
  rw [e2]
  exact h2 j2 i2 j1 i1 (by omega) (by omega) (by omega) (by omega)

theorem C12_Form2DElementMass_kron_witness :
    (Form2DElementMass 1 (fun (i : Nat) => (i : ℚ) + 1) (fun _ => 0)).2.Perm
      (List.range ((1 + 1) ^ 4)) ∧
    ∀ i1 i2 j1 j2, i1 ≤ 1 → i2 ≤ 1 → j1 ≤ 1 → j2 ≤ 1 →
      (Form2DElementMass 1 (fun (i : Nat) => (i : ℚ) + 1) (fun _ => 0)).1
          ((j2 * (1 + 1) + j1) * (1 + 1) ^ 2 + (i2 * (1 + 1) + i1))
        = (fun (i : Nat) => (i : ℚ) + 1) (j1 * (1 + 1) + i1)
          * (fun (i : Nat) => (i : ℚ) + 1) (j2 * (1 + 1) + i2) :=
  C12_Form2DElementMass_kron 1 (by decide) (fun (i : Nat) => (i : ℚ) + 1) (fun _ => 0)

/-- C13: `Form2DElementStiffness` sets the entry of `Ke2D` at row `j2*(p+1)+j1`,
column `i2*(p+1)+i1` to
`Ke1D[j1*(p+1)+i1]*Me1D[j2*(p+1)+i2] + Me1D[j1*(p+1)+i1]*Ke1D[j2*(p+1)+i2]`, and
its stores cover every one of the `(p+1)^4` slots, each exactly once. -/
theorem C13_Form2DElementStiffness_entries (p : Nat) (hp : 1 ≤ p)
    (Ke1D Me1D Ke2D : Nat → K) :
    (Form2DElementStiffness p Ke1D Me1D Ke2D).2.Perm (List.range ((p + 1) ^ 4)) ∧
    ∀ i1 i2 j1 j2, i1 ≤ p → i2 ≤ p → j1 ≤ p → j2 ≤ p →
      (Form2DElementStiffness p Ke1D Me1D Ke2D).1
          ((j2 * (p + 1) + j1) * (p + 1) ^ 2 + (i2 * (p + 1) + i1))
        = Ke1D (j1 * (p + 1) + i1) * Me1D (j2 * (p + 1) + i2)
          + Me1D (j1 * (p + 1) + i1) * Ke1D (j2 * (p + 1) + i2) := by
  have e4 : (p + 1) ^ 4 = (p + 1) * (p + 1) * ((p + 1) * (p + 1)) := by ring
  obtain ⟨h1, h2⟩ := tensorStores_spec (p + 1)
    (fun j2 i2 j1 i1 => Ke1D (j1 * (p + 1) + i1) * Me1D (j2 * (p + 1) + i2)
      + Me1D (j1 * (p + 1) + i1) * Ke1D (j2 * (p + 1) + i2)) Ke2D
  rw [Form2DElementStiffness_eq, e4]
  refine ⟨h1, ?_⟩
  intro i1 i2 j1 j2 hi1 hi2 hj1 hj2
  have e2 : (j2 * (p + 1) + j1) * (p + 1) ^ 2 = (j2 * (p + 1) + j1) * (p + 1) * (p + 1) := by
    ring
  rw [e2]
  exact h2 j2 i2 j1 i1 (by omega) (by omega) (by omega) (by omega)

theorem C13_Form2DElementStiffness_entries_witness :
    (Form2DElementStiffness 1 (fun (i : Nat) => (i : ℚ) + 1) (fun (i : Nat) => 2 * (i : ℚ)) (fun _ => 0)).2.Perm
      (List.range ((1 + 1) ^ 4)) ∧
    ∀ i1 i2 j1 j2, i1 ≤ 1 → i2 ≤ 1 → j1 ≤ 1 → j2 ≤ 1 →
      (Form2DElementStiffness 1 (fun (i : Nat) => (i : ℚ) + 1) (fun (i : Nat) => 2 * (i : ℚ)) (fun _ => 0)).1
          ((j2 * (1 + 1) + j1) * (1 + 1) ^ 2 + (i2 * (1 + 1) + i1))
        = (fun (i : Nat) => (i : ℚ) + 1) (j1 * (1 + 1) + i1) * (fun (i : Nat) => 2 * (i : ℚ)) (j2 * (1 + 1) + i2)
          + (fun (i : Nat) => 2 * (i : ℚ)) (j1 * (1 + 1) + i1)
            * (fun (i : Nat) => (i : ℚ) + 1) (j2 * (1 + 1) + i2) :=
  C13_Form2DElementStiffness_entries 1 (by decide) (fun (i : Nat) => (i : ℚ) + 1)
    (fun (i : Nat) => 2 * (i : ℚ)) (fun _ => 0)

end

/-! ## C14, C15: symmetry and row sums of the 2D element matrices -/

/-- A sum over `range (n * N)` as a double sum over rows and columns. -/
theorem sum_range_mul {M : Type} [AddCommMonoid M] (f : Nat → M) (n N : Nat) :
    ∑ x ∈ Finset.range (n * N), f x
      = ∑ a ∈ Finset.range n, ∑ b ∈ Finset.range N, f (a * N + b) := by
  induction n with
  | zero => simp
  | succ n ih =>
    rw [Finset.sum_range_succ, ← ih, show (n + 1) * N = n * N + N by ring,
      Finset.sum_range_add]

section
variable {K : Type} [Field K]

/-- Entry `(r, c)` of the 2D mass matrix in terms of the digits of `r` and `c`. -/
theorem Form2DElementMass_entry (P : Nat) (Me1D Me2D : Nat → K) (j2 i2 j1 i1 : Nat)
    (h1 : j2 ≤ P) (h2 : i2 ≤ P) (h3 : j1 ≤ P) (h4 : i1 ≤ P) :
    (Form2DElementMass P Me1D Me2D).1
        ((j2 * (P + 1) + j1) * (P + 1) * (P + 1) + (i2 * (P + 1) + i1))
      = Me1D (j1 * (P + 1) + i1) * Me1D (j2 * (P + 1) + i2) := by
  rw [Form2DElementMass_eq]
  exact (tensorStores_spec (P + 1) _ Me2D).2 j2 i2 j1 i1 (by omega) (by omega) (by omega)
    (by omega)

theorem Form2DElementStiffness_entry (P : Nat) (Ke1D Me1D Ke2D : Nat → K) (j2 i2 j1 i1 : Nat)
    (h1 : j2 ≤ P) (h2 : i2 ≤ P) (h3 : j1 ≤ P) (h4 : i1 ≤ P) :
    (Form2DElementStiffness P Ke1D Me1D Ke2D).1
        ((j2 * (P + 1) + j1) * (P + 1) * (P + 1) + (i2 * (P + 1) + i1))
      = Ke1D (j1 * (P + 1) + i1) * Me1D (j2 * (P + 1) + i2)
        + Me1D (j1 * (P + 1) + i1) * Ke1D (j2 * (P + 1) + i2) := by
  rw [Form2DElementStiffness_eq]
  exact (tensorStores_spec (P + 1) _ Ke2D).2 j2 i2 j1 i1 (by omega) (by omega) (by omega)
    (by omega)

/-- C14: the 2D element mass and stiffness matrices obtained from
`Form1DElementMass`, `Form1DElementStiffness`, `Form2DElementMass` and
`Form2DElementStiffness` are symmetric: entry `(r, c)` equals entry `(c, r)` for
all `r, c < (p+1)^2`. -/
theorem C14_element_matrices_symmetric (H : K) (p : Nat) (hp : 1 ≤ p)
    (gqn gqw Me1D0 Ke1D0 Me2D0 Ke2D0 : Nat → K) (r c : Nat)
    (hr : r < (p + 1) ^ 2) (hc : c < (p + 1) ^ 2) :
    (Form2DElementMass p (Form1DElementMass H p gqn gqw Me1D0) Me2D0).1 (r * (p + 1) ^ 2 + c)
      = (Form2DElementMass p (Form1DElementMass H p gqn gqw Me1D0) Me2D0).1
          (c * (p + 1) ^ 2 + r) ∧
    (Form2DElementStiffness p (Form1DElementStiffness H p gqn gqw Ke1D0)
        (Form1DElementMass H p gqn gqw Me1D0) Ke2D0).1 (r * (p + 1) ^ 2 + c)
      = (Form2DElementStiffness p (Form1DElementStiffness H p gqn gqw Ke1D0)
          (Form1DElementMass H p gqn gqw Me1D0) Ke2D0).1 (c * (p + 1) ^ 2 + r) := by
  rw [sq] at hr hc
  obtain ⟨r1, r2, r3⟩ := digits_lt hr
  obtain ⟨c1, c2, c3⟩ := digits_lt hc
  have er : r * (p + 1) ^ 2 + c = (r / (p + 1) * (p + 1) + r % (p + 1)) * (p + 1) * (p + 1)
      + (c / (p + 1) * (p + 1) + c % (p + 1)) := by rw [r3, c3]; ring
  have ec : c * (p + 1) ^ 2 + r = (c / (p + 1) * (p + 1) + c % (p + 1)) * (p + 1) * (p + 1)
      + (r / (p + 1) * (p + 1) + r % (p + 1)) := by rw [r3, c3]; ring
  rw [er, ec]
  rw [Form2DElementMass_entry p _ _ _ _ _ _ (by omega) (by omega) (by omega) (by omega),
    Form2DElementMass_entry p _ _ _ _ _ _ (by omega) (by omega) (by omega) (by omega),
    Form2DElementStiffness_entry p _ _ _ _ _ _ _ (by omega) (by omega) (by omega) (by omega),
    Form2DElementStiffness_entry p _ _ _ _ _ _ _ (by omega) (by omega) (by omega) (by omega)]
  rw [Form1DElementMass_symm H p gqn gqw Me1D0 (r % (p + 1)) (c % (p + 1)) (by omega) (by omega),
    Form1DElementMass_symm H p gqn gqw Me1D0 (r / (p + 1)) (c / (p + 1)) (by omega) (by omega),
    Form1DElementStiffness_symm H p gqn gqw Ke1D0 (r % (p + 1)) (c % (p + 1)) (by omega)
      (by omega),
    Form1DElementStiffness_symm H p gqn gqw Ke1D0 (r / (p + 1)) (c / (p + 1)) (by omega)
      (by omega)]
  exact ⟨rfl, rfl⟩

theorem C14_element_matrices_symmetric_witness :
    (Form2DElementMass 1 (Form1DElementMass (3 : ℚ) 1 (fun i => (i : ℚ)) (fun _ => 1 / 2)
        (fun _ => 0)) (fun _ => 0)).1 (1 * (1 + 1) ^ 2 + 2)
      = (Form2DElementMass 1 (Form1DElementMass (3 : ℚ) 1 (fun i => (i : ℚ)) (fun _ => 1 / 2)
          (fun _ => 0)) (fun _ => 0)).1 (2 * (1 + 1) ^ 2 + 1) ∧
    (Form2DElementStiffness 1
        (Form1DElementStiffness (3 : ℚ) 1 (fun i => (i : ℚ)) (fun _ => 1 / 2) (fun _ => 0))
        (Form1DElementMass (3 : ℚ) 1 (fun i => (i : ℚ)) (fun _ => 1 / 2) (fun _ => 0))
        (fun _ => 0)).1 (1 * (1 + 1) ^ 2 + 2)
      = (Form2DElementStiffness 1
          (Form1DElementStiffness (3 : ℚ) 1 (fun i => (i : ℚ)) (fun _ => 1 / 2) (fun _ => 0))
          (Form1DElementMass (3 : ℚ) 1 (fun i => (i : ℚ)) (fun _ => 1 / 2) (fun _ => 0))
          (fun _ => 0)).1 (2 * (1 + 1) ^ 2 + 1) :=
  C14_element_matrices_symmetric 3 1 (by decide) (fun i => (i : ℚ)) (fun _ => 1 / 2)
    (fun _ => 0) (fun _ => 0) (fun _ => 0) (fun _ => 0) 1 2 (by decide) (by decide)

end

/-- C15: for pairwise distinct real nodes, every row sum of the 2D element
stiffness matrix over its `(p+1)^2` columns is zero. -/
theorem C15_stiffness2D_row_sum (H : ℝ) (p : Nat) (hp : 1 ≤ p)
    (gqn gqw Me1D0 Ke1D0 Ke2D0 : Nat → ℝ)
    (hx : ∀ a b, a ≤ p → b ≤ p → a ≠ b → gqn a ≠ gqn b) (r : Nat) (hr : r < (p + 1) ^ 2) :
    ∑ c ∈ Finset.range ((p + 1) ^ 2),
      (Form2DElementStiffness p (Form1DElementStiffness H p gqn gqw Ke1D0)
        (Form1DElementMass H p gqn gqw Me1D0) Ke2D0).1 (r * (p + 1) ^ 2 + c) = 0 := by
  rw [sq] at hr
  obtain ⟨r1, r2, r3⟩ := digits_lt hr
  rw [sq, sum_range_mul]
  have hterm : ∀ a ∈ Finset.range (p + 1), ∀ b ∈ Finset.range (p + 1),
      (Form2DElementStiffness p (Form1DElementStiffness H p gqn gqw Ke1D0)
        (Form1DElementMass H p gqn gqw Me1D0) Ke2D0).1
          (r * ((p + 1) * (p + 1)) + (a * (p + 1) + b))
      = Form1DElementStiffness H p gqn gqw Ke1D0 (r % (p + 1) * (p + 1) + b)
          * Form1DElementMass H p gqn gqw Me1D0 (r / (p + 1) * (p + 1) + a)
        + Form1DElementMass H p gqn gqw Me1D0 (r % (p + 1) * (p + 1) + b)
          * Form1DElementStiffness H p gqn gqw Ke1D0 (r / (p + 1) * (p + 1) + a) := by
    intro a ha b hb
    rw [Finset.mem_range] at ha hb
    have e : r * ((p + 1) * (p + 1)) + (a * (p + 1) + b)
        = (r / (p + 1) * (p + 1) + r % (p + 1)) * (p + 1) * (p + 1) + (a * (p + 1) + b) := by
      rw [r3]; ring
    rw [e]
    exact Form2DElementStiffness_entry p _ _ _ _ _ _ _ (by omega) (by omega) (by omega)
      (by omega)
  rw [Finset.sum_congr rfl (fun a ha => Finset.sum_congr rfl (hterm a ha))]
  simp only [Finset.sum_add_distrib, ← Finset.sum_mul, ← Finset.mul_sum]
  rw [Form1DElementStiffness_rowsum H p gqn gqw Ke1D0 (r % (p + 1)) (by omega) hx,
    Form1DElementStiffness_rowsum H p gqn gqw Ke1D0 (r / (p + 1)) (by omega) hx]
  simp

theorem C15_stiffness2D_row_sum_witness :
    ∑ c ∈ Finset.range ((1 + 1) ^ 2),
      (Form2DElementStiffness 1
        (Form1DElementStiffness (3 : ℝ) 1 (fun i => (i : ℝ)) (fun _ => 1 / 2) (fun _ => 0))
        (Form1DElementMass (3 : ℝ) 1 (fun i => (i : ℝ)) (fun _ => 1 / 2) (fun _ => 0))
        (fun _ => 0)).1 (1 * (1 + 1) ^ 2 + c) = 0 :=
  C15_stiffness2D_row_sum 3 1 (by decide) (fun i => (i : ℝ)) (fun _ => 1 / 2) (fun _ => 0)
    (fun _ => 0) (fun _ => 0) (fun _ _ _ _ h => fun e => h (Nat.cast_injective e)) 1
    (by decide)

/-! ## C16: positive semidefiniteness of the 2D element matrices -/

/-- Moving one summation outwards past four others. -/
theorem sum_comm5 (S T : Finset Nat) (f : Nat → Nat → Nat → Nat → Nat → ℝ) :
    ∑ a ∈ S, ∑ b ∈ S, ∑ c ∈ S, ∑ d ∈ S, ∑ k ∈ T, f a b c d k
      = ∑ k ∈ T, ∑ a ∈ S, ∑ b ∈ S, ∑ c ∈ S, ∑ d ∈ S, f a b c d k := by
  calc ∑ a ∈ S, ∑ b ∈ S, ∑ c ∈ S, ∑ d ∈ S, ∑ k ∈ T, f a b c d k
      = ∑ a ∈ S, ∑ b ∈ S, ∑ c ∈ S, ∑ k ∈ T, ∑ d ∈ S, f a b c d k :=
        Finset.sum_congr rfl fun _ _ => Finset.sum_congr rfl fun _ _ =>
          Finset.sum_congr rfl fun _ _ => Finset.sum_comm
    _ = ∑ a ∈ S, ∑ b ∈ S, ∑ k ∈ T, ∑ c ∈ S, ∑ d ∈ S, f a b c d k :=
        Finset.sum_congr rfl fun _ _ => Finset.sum_congr rfl fun _ _ => Finset.sum_comm
    _ = ∑ a ∈ S, ∑ k ∈ T, ∑ b ∈ S, ∑ c ∈ S, ∑ d ∈ S, f a b c d k :=
        Finset.sum_congr rfl fun _ _ => Finset.sum_comm
    _ = ∑ k ∈ T, ∑ a ∈ S, ∑ b ∈ S, ∑ c ∈ S, ∑ d ∈ S, f a b c d k := Finset.sum_comm

/-- The quadratic form of a tensor product of two weighted Gram matrices is a
non-negative combination of squares. -/
theorem gram_kron_nonneg (N : Nat) (al be : Nat → ℝ) (a b : Nat → Nat → ℝ) (v : Nat → ℝ)
    (hal : ∀ k ∈ Finset.range N, 0 ≤ al k) (hbe : ∀ k ∈ Finset.range N, 0 ≤ be k) :
    0 ≤ ∑ j2 ∈ Finset.range N, ∑ j1 ∈ Finset.range N, ∑ i2 ∈ Finset.range N,
      ∑ i1 ∈ Finset.range N,
        v (j2 * N + j1)
          * ((∑ k ∈ Finset.range N, al k * a i1 k * a j1 k)
            * (∑ k ∈ Finset.range N, be k * b i2 k * b j2 k))
          * v (i2 * N + i1) := by
  have key : ∑ j2 ∈ Finset.range N, ∑ j1 ∈ Finset.range N, ∑ i2 ∈ Finset.range N,
      ∑ i1 ∈ Finset.range N,
        v (j2 * N + j1)
          * ((∑ k ∈ Finset.range N, al k * a i1 k * a j1 k)
            * (∑ k ∈ Finset.range N, be k * b i2 k * b j2 k))
          * v (i2 * N + i1)
      = ∑ k ∈ Finset.range N, ∑ l ∈ Finset.range N, al k * be l
          * (∑ j2 ∈ Finset.range N, ∑ j1 ∈ Finset.range N,
              v (j2 * N + j1) * a j1 k * b j2 l) ^ 2 := by
    have hL : ∀ j2 j1 i2 i1 : Nat,
        v (j2 * N + j1)
          * ((∑ k ∈ Finset.range N, al k * a i1 k * a j1 k)
            * (∑ k ∈ Finset.range N, be k * b i2 k * b j2 k))
          * v (i2 * N + i1)
        = ∑ k ∈ Finset.range N, ∑ l ∈ Finset.range N,
            al k * be l * ((v (j2 * N + j1) * a j1 k * b j2 l)
              * (v (i2 * N + i1) * a i1 k * b i2 l)) := by
      intro j2 j1 i2 i1
      rw [Finset.sum_mul_sum, Finset.mul_sum, Finset.sum_mul]
      refine Finset.sum_congr rfl fun k _ => ?_
      rw [Finset.mul_sum, Finset.sum_mul]
      refine Finset.sum_congr rfl fun l _ => ?_
      ring
    have hR : ∀ k l : Nat,
        al k * be l * (∑ j2 ∈ Finset.range N, ∑ j1 ∈ Finset.range N,
            v (j2 * N + j1) * a j1 k * b j2 l) ^ 2
        = ∑ j2 ∈ Finset.range N, ∑ j1 ∈ Finset.range N, ∑ i2 ∈ Finset.range N,
            ∑ i1 ∈ Finset.range N,
            al k * be l * ((v (j2 * N + j1) * a j1 k * b j2 l)
              * (v (i2 * N + i1) * a i1 k * b i2 l)) := by
      intro k l
      rw [sq, Finset.sum_mul, Finset.mul_sum]
      refine Finset.sum_congr rfl fun j2 _ => ?_
      rw [Finset.sum_mul, Finset.mul_sum]
      refine Finset.sum_congr rfl fun j1 _ => ?_
      rw [Finset.mul_sum, Finset.mul_sum]
      refine Finset.sum_congr rfl fun i2 _ => ?_
      rw [Finset.mul_sum, Finset.mul_sum]
    simp only [hL, hR]
    rw [sum_comm5 (Finset.range N) (Finset.range N)
      (fun j2 j1 i2 i1 k => ∑ l ∈ Finset.range N,
        al k * be l * ((v (j2 * N + j1) * a j1 k * b j2 l)
          * (v (i2 * N + i1) * a i1 k * b i2 l)))]
    refine Finset.sum_congr rfl fun k _ => ?_
    rw [sum_comm5 (Finset.range N) (Finset.range N)
      (fun j2 j1 i2 i1 l =>
        al k * be l * ((v (j2 * N + j1) * a j1 k * b j2 l)
          * (v (i2 * N + i1) * a i1 k * b i2 l)))]
  rw [key]
  exact Finset.sum_nonneg fun k hk => Finset.sum_nonneg fun l hl =>
    mul_nonneg (mul_nonneg (hal k hk) (hbe l hl)) (sq_nonneg _)

/-- The quadratic form over `range (N*N)` written with four digit sums. -/
theorem quadForm_digits (N : Nat) (E : Nat → ℝ) (v : Nat → ℝ) :
    ∑ r ∈ Finset.range (N * N), ∑ c ∈ Finset.range (N * N), v r * E (r * (N * N) + c) * v c
      = ∑ j2 ∈ Finset.range N, ∑ j1 ∈ Finset.range N, ∑ i2 ∈ Finset.range N,
          ∑ i1 ∈ Finset.range N,
            v (j2 * N + j1) * E ((j2 * N + j1) * N * N + (i2 * N + i1)) * v (i2 * N + i1) := by
  rw [sum_range_mul]
  refine Finset.sum_congr rfl fun j2 _ => Finset.sum_congr rfl fun j1 _ => ?_
  rw [sum_range_mul]
  refine Finset.sum_congr rfl fun i2 _ => Finset.sum_congr rfl fun i1 _ => ?_
  rw [Nat.mul_assoc (j2 * N + j1) N N]

/-- C16: for `H > 0`, pairwise distinct real nodes and non-negative weights, the 2D
element mass matrix and the 2D element stiffness matrix are positive semidefinite:
`vᵀ Me2D v ≥ 0` and `vᵀ Ke2D v ≥ 0` for every vector `v`. -/
theorem C16_element_matrices_psd (H : ℝ) (p : Nat) (hH : 0 < H) (hp : 1 ≤ p)
    (gqn gqw Me1D0 Ke1D0 Me2D0 Ke2D0 : Nat → ℝ)
    (hx : ∀ a b, a ≤ p → b ≤ p → a ≠ b → gqn a ≠ gqn b)
    (hw : ∀ k, k ≤ p → 0 ≤ gqw k) (v : Nat → ℝ) :
    0 ≤ ∑ r ∈ Finset.range ((p + 1) ^ 2), ∑ c ∈ Finset.range ((p + 1) ^ 2),
        v r * (Form2DElementMass p (Form1DElementMass H p gqn gqw Me1D0) Me2D0).1
          (r * (p + 1) ^ 2 + c) * v c ∧
    0 ≤ ∑ r ∈ Finset.range ((p + 1) ^ 2), ∑ c ∈ Finset.range ((p + 1) ^ 2),
        v r * (Form2DElementStiffness p (Form1DElementStiffness H p gqn gqw Ke1D0)
          (Form1DElementMass H p gqn gqw Me1D0) Ke2D0).1 (r * (p + 1) ^ 2 + c) * v c := by
  have hal : ∀ k ∈ Finset.range (p + 1), 0 ≤ H * gqw k := fun k hk =>
    mul_nonneg hH.le (hw k (by rw [Finset.mem_range] at hk; omega))
  have hbe : ∀ k ∈ Finset.range (p + 1), 0 ≤ 1 / H * gqw k := fun k hk =>
    mul_nonneg (one_div_nonneg.2 hH.le) (hw k (by rw [Finset.mem_range] at hk; omega))
  have hM : ∀ j i, j ∈ Finset.range (p + 1) → i ∈ Finset.range (p + 1) →
      Form1DElementMass H p gqn gqw Me1D0 (j * (p + 1) + i)
        = ∑ k ∈ Finset.range (p + 1), H * gqw k * polyBasisFunc p i gqn (gqn k)
            * polyBasisFunc p j gqn (gqn k) := by
    intro j i hj hi
    rw [Finset.mem_range] at hj hi
    exact Form1DElementMass_apply H p gqn gqw Me1D0 j i (by omega) (by omega)
  have hK : ∀ j i, j ∈ Finset.range (p + 1) → i ∈ Finset.range (p + 1) →
      Form1DElementStiffness H p gqn gqw Ke1D0 (j * (p + 1) + i)
        = ∑ k ∈ Finset.range (p + 1), 1 / H * gqw k * derivPolyBasisFunc p i gqn (gqn k)
            * derivPolyBasisFunc p j gqn (gqn k) := by
    intro j i hj hi
    rw [Finset.mem_range] at hj hi
    exact Form1DElementStiffness_apply H p gqn gqw Ke1D0 j i (by omega) (by omega)
  rw [sq, quadForm_digits, quadForm_digits]
  constructor
  · have h := gram_kron_nonneg (p + 1) (fun k => H * gqw k) (fun k => H * gqw k)
      (fun i k => polyBasisFunc p i gqn (gqn k)) (fun i k => polyBasisFunc p i gqn (gqn k))
      v hal hal
    refine le_of_le_of_eq h ?_
    refine Finset.sum_congr rfl fun j2 h2 => Finset.sum_congr rfl fun j1 h1 =>
      Finset.sum_congr rfl fun i2 g2 => Finset.sum_congr rfl fun i1 g1 => ?_
    rw [Finset.mem_range] at h2 h1 g2 g1
    rw [Form2DElementMass_entry p _ _ j2 i2 j1 i1 (by omega) (by omega) (by omega) (by omega),
      hM j1 i1 (Finset.mem_range.2 h1) (Finset.mem_range.2 g1),
      hM j2 i2 (Finset.mem_range.2 h2) (Finset.mem_range.2 g2)]
  · have h1 := gram_kron_nonneg (p + 1) (fun k => 1 / H * gqw k) (fun k => H * gqw k)
      (fun i k => derivPolyBasisFunc p i gqn (gqn k))
      (fun i k => polyBasisFunc p i gqn (gqn k)) v hbe hal
    have h2 := gram_kron_nonneg (p + 1) (fun k => H * gqw k) (fun k => 1 / H * gqw k)
      (fun i k => polyBasisFunc p i gqn (gqn k))
      (fun i k => derivPolyBasisFunc p i gqn (gqn k)) v hal hbe
    refine le_of_le_of_eq (add_nonneg h1 h2) ?_
    simp only [← Finset.sum_add_distrib]
    refine Finset.sum_congr rfl fun j2 h2 => Finset.sum_congr rfl fun j1 h1 =>
      Finset.sum_congr rfl fun i2 g2 => Finset.sum_congr rfl fun i1 g1 => ?_
    rw [Finset.mem_range] at h2 h1 g2 g1
    rw [Form2DElementStiffness_entry p _ _ _ j2 i2 j1 i1 (by omega) (by omega) (by omega)
        (by omega),
      hM j1 i1 (Finset.mem_range.2 h1) (Finset.mem_range.2 g1),
      hM j2 i2 (Finset.mem_range.2 h2) (Finset.mem_range.2 g2),
      hK j1 i1 (Finset.mem_range.2 h1) (Finset.mem_range.2 g1),
      hK j2 i2 (Finset.mem_range.2 h2) (Finset.mem_range.2 g2)]
    ring

theorem C16_element_matrices_psd_witness :
    0 ≤ ∑ r ∈ Finset.range ((1 + 1) ^ 2), ∑ c ∈ Finset.range ((1 + 1) ^ 2),
        (fun i => (i : ℝ) - 1) r
          * (Form2DElementMass 1 (Form1DElementMass (3 : ℝ) 1 (fun i => (i : ℝ))
              (fun _ => 1 / 2) (fun _ => 0)) (fun _ => 0)).1 (r * (1 + 1) ^ 2 + c)
          * (fun i => (i : ℝ) - 1) c ∧
    0 ≤ ∑ r ∈ Finset.range ((1 + 1) ^ 2), ∑ c ∈ Finset.range ((1 + 1) ^ 2),
        (fun i => (i : ℝ) - 1) r
          * (Form2DElementStiffness 1
              (Form1DElementStiffness (3 : ℝ) 1 (fun i => (i : ℝ)) (fun _ => 1 / 2) (fun _ => 0))
              (Form1DElementMass (3 : ℝ) 1 (fun i => (i : ℝ)) (fun _ => 1 / 2) (fun _ => 0))
              (fun _ => 0)).1 (r * (1 + 1) ^ 2 + c)
          * (fun i => (i : ℝ) - 1) c :=
  C16_element_matrices_psd 3 1 (by norm_num) (by decide) (fun i => (i : ℝ)) (fun _ => 1 / 2)
    (fun _ => 0) (fun _ => 0) (fun _ => 0) (fun _ => 0)
    (fun _ _ _ _ h => fun e => h (Nat.cast_injective e)) (fun _ _ => by norm_num)
    (fun i => (i : ℝ) - 1)

/-! ## C18, C19, C20: the output of `leggaulob` -/
section
variable {K : Type} [LinearOrderedField K]

theorem leggaulobRoot_eq (cosR : K → K) (piR : K) (fuel n : Nat) (xm xl : K)
    (xw : (Nat → K) × (Nat → K)) (j : Nat) :
    leggaulobRoot cosR piR fuel n xm xl xw j
      = (newtonLoop n fuel (rootGuess cosR piR n j)).map (rootStore n xm xl xw j) := rfl

/-- If every Newton loop returns, the loop over the roots returns the result of
the stores of lines 430–434. -/
theorem roots_foldlM (cosR : K → K) (piR : K) (fuel n : Nat) (xm xl : K) (zs : Nat → K)
    (l : List Nat)
    (hz : ∀ j ∈ l, newtonLoop n fuel (rootGuess cosR piR n j) = some (zs j))
    (st : (Nat → K) × (Nat → K)) :
    l.foldlM (leggaulobRoot cosR piR fuel n xm xl) st
      = some (l.foldl (fun xw j => rootStore n xm xl xw j (zs j)) st) := by
  induction l generalizing st with
  | nil => rfl
  | cons a l ih =>
    rw [List.foldlM_cons, leggaulobRoot_eq, hz a (List.mem_cons_self a l)]
    simp only [Option.map_some', Option.bind_eq_bind, Option.some_bind, List.foldl_cons]
    exact ih (fun j hj => hz j (List.mem_cons_of_mem a hj)) _

/-- Buffers after the stores for the roots `1 .. t`, when `2 * t < n`. -/
theorem roots_fold (n : Nat) (xm xl : K) (zs : Nat → K) (xa wa : Nat → K) (t : Nat)
    (ht : 2 * t < n) :
    (∀ j, 1 ≤ j → j ≤ t →
      ((List.range' 1 t).foldl (fun xw j => rootStore n xm xl xw j (zs j)) (xa, wa)).1 j
        = xm + xl * zs j ∧
      ((List.range' 1 t).foldl (fun xw j => rootStore n xm xl xw j (zs j)) (xa, wa)).1 (n - j)
        = xm - xl * zs j ∧
      ((List.range' 1 t).foldl (fun xw j => rootStore n xm xl xw j (zs j)) (xa, wa)).2 j
        = gllWeightAt n (zs j) ∧
      ((List.range' 1 t).foldl (fun xw j => rootStore n xm xl xw j (zs j)) (xa, wa)).2 (n - j)
        = gllWeightAt n (zs j)) ∧
    (∀ i, (i = 0 ∨ (t < i ∧ i + t < n) ∨ n ≤ i) →
      ((List.range' 1 t).foldl (fun xw j => rootStore n xm xl xw j (zs j)) (xa, wa)).1 i = xa i ∧
      ((List.range' 1 t).foldl (fun xw j => rootStore n xm xl xw j (zs j)) (xa, wa)).2 i
        = wa i) := by
  induction t with
  | zero =>
    refine ⟨fun j h1 h2 => by omega, fun i _ => ⟨rfl, rfl⟩⟩
  | succ t ih =>
    obtain ⟨h1, h2⟩ := ih (by omega)
    rw [List.range'_1_concat, List.foldl_append]
    simp only [List.foldl_cons, List.foldl_nil]
    generalize (List.range' 1 t).foldl (fun xw j => rootStore n xm xl xw j (zs j)) (xa, wa)
      = R at h1 h2
    have e1 : 1 + t = t + 1 := by omega
    rw [e1]
    refine ⟨?_, ?_⟩
    · intro j hj1 hj2
      by_cases hjt : j = t + 1
      · subst hjt
        simp only [rootStore, gllWeightAt]
        refine ⟨?_, ?_, ?_, ?_⟩
        · rw [Function.update_noteq (by omega), Function.update_same]
        · rw [Function.update_same]
        · rw [Function.update_noteq (by omega), Function.update_same]
        · rw [Function.update_same, Function.update_same]
      · obtain ⟨g1, g2, g3, g4⟩ := h1 j hj1 (by omega)
        simp only [rootStore]
        refine ⟨?_, ?_, ?_, ?_⟩
        · rw [Function.update_noteq (by omega), Function.update_noteq (by omega)]; exact g1
        · rw [Function.update_noteq (by omega), Function.update_noteq (by omega)]; exact g2
        · rw [Function.update_noteq (by omega), Function.update_noteq (by omega)]; exact g3
        · rw [Function.update_noteq (by omega), Function.update_noteq (by omega)]; exact g4
    · intro i hi
      obtain ⟨g1, g2⟩ := h2 i (by omega)
      simp only [rootStore]
      refine ⟨?_, ?_⟩
      · rw [Function.update_noteq (by omega), Function.update_noteq (by omega)]; exact g1
      · rw [Function.update_noteq (by omega), Function.update_noteq (by omega)]; exact g2

/-- The scaling loop of line 444 multiplies the entries `0 .. n` by `scale`. -/
theorem scale_fold (scale : K) (w : Nat → K) (k : Nat) :
    (∀ i, i < k →
      ((List.range k).foldl (fun w j => Function.update w j (w j * scale)) w) i = w i * scale) ∧
    (∀ i, k ≤ i →
      ((List.range k).foldl (fun w j => Function.update w j (w j * scale)) w) i = w i) := by
  induction k with
  | zero => exact ⟨fun i h => by omega, fun i _ => rfl⟩
  | succ k ih =>
    obtain ⟨h1, h2⟩ := ih
    rw [List.range_succ, List.foldl_append]
    simp only [List.foldl_cons, List.foldl_nil]
    refine ⟨?_, ?_⟩
    · intro i hi
      by_cases hik : i = k
      · subst hik; rw [Function.update_same, h2 i (le_refl _)]
      · rw [Function.update_noteq hik]; exact h1 i (by omega)
    · intro i hi
      rw [Function.update_noteq (by omega)]; exact h2 i (by omega)

/-- The output of `leggaulob` for `n ≥ 2`, given the values `zs j` at which the
Newton loops stop. -/
theorem leggaulob_spec (cosR : K → K) (piR : K) (fuel : Nat) (x1 x2 : K) (x w : Nat → K)
    (n : Nat) (hn : 2 ≤ n) (zs : Nat → K)
    (hz : ∀ j, 1 ≤ j → j < (n + 1) / 2 →
      newtonLoop n fuel (rootGuess cosR piR n j) = some (zs j)) :
    ∃ X W, leggaulob cosR piR fuel x1 x2 x w n = some (X, W) ∧
      X 0 = x1 ∧ X n = x2 ∧
      W 0 = 2 / ((n * (n + 1) : Nat) : K) * ((x2 - x1) / 2) ∧
      W n = 2 / ((n * (n + 1) : Nat) : K) * ((x2 - x1) / 2) ∧
      (∀ j, 1 ≤ j → j < (n + 1) / 2 →
        X j = 1 / 2 * (x2 + x1) + 1 / 2 * (x2 - x1) * zs j ∧
        X (n - j) = 1 / 2 * (x2 + x1) - 1 / 2 * (x2 - x1) * zs j ∧
        W j = gllWeightAt n (zs j) * ((x2 - x1) / 2) ∧
        W (n - j) = gllWeightAt n (zs j) * ((x2 - x1) / 2)) ∧
      (n % 2 = 0 → X (n / 2) = (x2 - x1) / 2 ∧
        W (n / 2) = gllWeightAt n 0 * ((x2 - x1) / 2)) := by
  have hn1 : n ≠ 1 := by omega
  have hroots := roots_foldlM cosR piR fuel n (1 / 2 * (x2 + x1)) (1 / 2 * (x2 - x1)) zs
    (List.range' 1 ((n + 1) / 2 - 1))
    (fun j hj => by
      rw [List.mem_range'_1] at hj
      exact hz j hj.1 (by omega))
    (Function.update (Function.update x 0 x1) n x2,
      Function.update (Function.update w 0 (2 / ((n * (n + 1) : Nat) : K))) n
        (2 / ((n * (n + 1) : Nat) : K)))
  obtain ⟨r1, r2⟩ := roots_fold n (1 / 2 * (x2 + x1)) (1 / 2 * (x2 - x1)) zs
    (Function.update (Function.update x 0 x1) n x2)
    (Function.update (Function.update w 0 (2 / ((n * (n + 1) : Nat) : K))) n
        (2 / ((n * (n + 1) : Nat) : K))) ((n + 1) / 2 - 1) (by omega)
  generalize (List.range' 1 ((n + 1) / 2 - 1)).foldl
    (fun xw j => rootStore n (1 / 2 * (x2 + x1)) (1 / 2 * (x2 - x1)) xw j (zs j))
    (Function.update (Function.update x 0 x1) n x2,
      Function.update (Function.update w 0 (2 / ((n * (n + 1) : Nat) : K))) n
        (2 / ((n * (n + 1) : Nat) : K))) = R at hroots r1 r2
  have hout : leggaulob cosR piR fuel x1 x2 x w n = some
      ((if n % 2 = 0 then
          (Function.update R.1 (n / 2) ((x2 - x1) / 2),
           Function.update R.2 (n / 2) (gllWeightAt n 0))
        else R).1,
       (List.range (n + 1)).foldl (fun w j => Function.update w j (w j * ((x2 - x1) / 2)))
        (if n % 2 = 0 then
          (Function.update R.1 (n / 2) ((x2 - x1) / 2),
           Function.update R.2 (n / 2) (gllWeightAt n 0))
        else R).2) := by
    unfold leggaulob
    simp only [if_neg hn1, hroots, Option.map_some']
    rfl
  obtain ⟨s1, _⟩ := scale_fold ((x2 - x1) / 2)
    (if n % 2 = 0 then
          (Function.update R.1 (n / 2) ((x2 - x1) / 2),
           Function.update R.2 (n / 2) (gllWeightAt n 0))
        else R).2 (n + 1)
  refine ⟨_, _, hout, ?_, ?_, ?_, ?_, ?_, ?_⟩
  · have h0 := (r2 0 (Or.inl rfl)).1
    split_ifs with he
    · simp only []
      rw [Function.update_noteq (by omega), h0, Function.update_noteq (by omega),
        Function.update_same]
    · rw [h0, Function.update_noteq (by omega), Function.update_same]
  · have h0 := (r2 n (Or.inr (Or.inr (le_refl _)))).1
    split_ifs with he
    · simp only []
      rw [Function.update_noteq (by omega), h0, Function.update_same]
    · rw [h0, Function.update_same]
  · rw [s1 0 (by omega)]
    have h0 := (r2 0 (Or.inl rfl)).2
    split_ifs with he
    · simp only []
      rw [Function.update_noteq (by omega), h0, Function.update_noteq (by omega),
        Function.update_same]
    · rw [h0, Function.update_noteq (by omega), Function.update_same]
  · rw [s1 n (by omega)]
    have h0 := (r2 n (Or.inr (Or.inr (le_refl _)))).2
    split_ifs with he
    · simp only []
      rw [Function.update_noteq (by omega), h0, Function.update_same]
    · rw [h0, Function.update_same]
  · intro j hj1 hj2
    obtain ⟨g1, g2, g3, g4⟩ := r1 j hj1 (by omega)
    rw [s1 j (by omega), s1 (n - j) (by omega)]
    split_ifs with he
    · simp only []
      rw [Function.update_noteq (by omega), Function.update_noteq (by omega),
        Function.update_noteq (by omega), Function.update_noteq (by omega), g1, g2, g3, g4]
      exact ⟨rfl, rfl, rfl, rfl⟩
    · rw [g1, g2, g3, g4]
      exact ⟨rfl, rfl, rfl, rfl⟩
  · intro he
    rw [s1 (n / 2) (by omega)]
    constructor <;> simp only [if_pos he, Function.update_same]

/-- The output of `leggaulob` for `n ≥ 1` in closed form. -/
theorem leggaulob_closed (cosR : K → K) (piR : K) (fuel : Nat) (x1 x2 : K) (x w : Nat → K)
    (n : Nat) (hn : 1 ≤ n) (zs : Nat → K)
    (hz : ∀ j, 1 ≤ j → j < (n + 1) / 2 →
      newtonLoop n fuel (rootGuess cosR piR n j) = some (zs j)) :
    ∃ X W, leggaulob cosR piR fuel x1 x2 x w n = some (X, W) ∧
      ∀ i, i ≤ n → X i = gllNodeClosed n x1 x2 zs i ∧ W i = gllWeightClosed n x1 x2 zs i := by
  rcases Nat.lt_or_ge n 2 with h1 | h2
  · have hn1 : n = 1 := by omega
    subst hn1
    obtain ⟨X, W, h, hx0, hx1, hw0, hw1⟩ := leggaulob_one cosR piR fuel x1 x2 x w
    refine ⟨X, W, h, ?_⟩
    intro i hi
    have hi' : i = 0 ∨ i = 1 := by omega
    rcases hi' with rfl | rfl
    · simp [gllNodeClosed, gllWeightClosed, hx0, hw0]
    · simp [gllNodeClosed, gllWeightClosed, hx1, hw1]
  · obtain ⟨X, W, h, hx0, hxn, hw0, hwn, hroot, hmid⟩ :=
      leggaulob_spec cosR piR fuel x1 x2 x w n h2 zs hz
    refine ⟨X, W, h, ?_⟩
    intro i hi
    unfold gllNodeClosed gllWeightClosed
    by_cases c0 : i = 0
    · subst c0; simp only [if_true]; exact ⟨hx0, hw0⟩
    by_cases cn : i = n
    · subst cn; simp only [if_neg c0, if_true]; exact ⟨hxn, hwn⟩
    by_cases cm : n % 2 = 0 ∧ i = n / 2
    · simp only [if_neg c0, if_neg cn, if_pos cm]
      rw [cm.2]; exact hmid cm.1
    by_cases cl : i < (n + 1) / 2
    · simp only [if_neg c0, if_neg cn, if_neg cm, if_pos cl]
      obtain ⟨g1, _, g3, _⟩ := hroot i (by omega) cl
      exact ⟨g1, g3⟩
    · simp only [if_neg c0, if_neg cn, if_neg cm, if_neg cl]
      obtain ⟨_, g2, _, g4⟩ := hroot (n - i) (by omega) (by omega)
      rw [show n - (n - i) = i by omega] at g2 g4
      exact ⟨g2, g4⟩

/-- On `[0, 1]` the closed forms are symmetric about the midpoint. -/
theorem gllClosed_symm (n : Nat) (hn : 1 ≤ n) (zs : Nat → K) (i : Nat) (hi : i ≤ n) :
    gllNodeClosed n 0 1 zs i + gllNodeClosed n 0 1 zs (n - i) = 1 ∧
    gllWeightClosed n 0 1 zs i = gllWeightClosed n 0 1 zs (n - i) := by
  have e : n - (n - i) = i := by omega
  unfold gllNodeClosed gllWeightClosed
  by_cases c0 : i = 0
  · subst c0
    simp [show n ≠ 0 by omega]
  by_cases cn : i = n
  · subst cn; simp [c0]
  have d0 : n - i ≠ 0 := by omega
  have dn : n - i ≠ n := by omega
  by_cases cm : n % 2 = 0 ∧ i = n / 2
  · have dm : n % 2 = 0 ∧ n - i = n / 2 := ⟨cm.1, by omega⟩
    simp only [if_neg c0, if_neg cn, if_pos cm, if_neg d0, if_neg dn, if_pos dm]
    exact ⟨by norm_num, trivial⟩
  have dm : ¬ (n % 2 = 0 ∧ n - i = n / 2) := fun h => cm ⟨h.1, by omega⟩
  by_cases cl : i < (n + 1) / 2
  · have dl : ¬ n - i < (n + 1) / 2 := by omega
    simp only [if_neg c0, if_neg cn, if_neg cm, if_pos cl, if_neg d0, if_neg dn, if_neg dm,
      if_neg dl, e]
    exact ⟨by ring, trivial⟩
  · have dl : n - i < (n + 1) / 2 := by
      rcases Nat.lt_or_ge (n - i) ((n + 1) / 2) with h | h
      · exact h
      · exfalso
        have : n % 2 = 0 ∧ i = n / 2 := by omega
        exact cm this
    simp only [if_neg c0, if_neg cn, if_neg cm, if_neg cl, if_neg d0, if_neg dn, if_neg dm,
      if_pos dl]
    exact ⟨by ring, trivial⟩

/-- C19: on `[0, 1]`, whenever the Newton loops return (whatever values they
return), `leggaulob` returns buffers that are symmetric about the midpoint,
`x[i] + x[p-i] = 1` and `w[i] = w[p-i]` for all `i` in `[0, p]`; and every index in
`[0, p]` is assigned: the entries `0 .. p` of the output do not depend on the
previous contents of the buffers. -/
theorem C19_leggaulob_symmetric (cosR : K → K) (piR : K) (fuel p : Nat) (hp : 1 ≤ p)
    (x w x' w' : Nat → K)
    (hN : ∀ j, 1 ≤ j → j < (p + 1) / 2 →
      ∃ z, newtonLoop p fuel (rootGuess cosR piR p j) = some z) :
    ∃ X W, leggaulob cosR piR fuel 0 1 x w p = some (X, W) ∧
      (∀ i, i ≤ p → X i + X (p - i) = 1 ∧ W i = W (p - i)) ∧
      ∃ X' W', leggaulob cosR piR fuel 0 1 x' w' p = some (X', W') ∧
        ∀ i, i ≤ p → X' i = X i ∧ W' i = W i := by
  classical
  have hz : ∀ j, 1 ≤ j → j < (p + 1) / 2 →
      newtonLoop p fuel (rootGuess cosR piR p j)
        = some ((fun j => if h : 1 ≤ j ∧ j < (p + 1) / 2
            then Classical.choose (hN j h.1 h.2) else 0) j) := by
    intro j h1 h2
    simp only [dif_pos (And.intro h1 h2)]
    exact Classical.choose_spec (hN j h1 h2)
  obtain ⟨X, W, h, hc⟩ := leggaulob_closed cosR piR fuel 0 1 x w p hp _ hz
  obtain ⟨X', W', h', hc'⟩ := leggaulob_closed cosR piR fuel 0 1 x' w' p hp _ hz
  refine ⟨X, W, h, ?_, X', W', h', ?_⟩
  · intro i hi
    rw [(hc i hi).1, (hc i hi).2, (hc (p - i) (by omega)).1, (hc (p - i) (by omega)).2]
    exact gllClosed_symm p hp _ i hi
  · intro i hi
    rw [(hc i hi).1, (hc i hi).2, (hc' i hi).1, (hc' i hi).2]
    exact ⟨rfl, rfl⟩

/-- A Newton loop whose first step already moves by at most the tolerance returns
after that step. -/
theorem newtonLoop_one_step (n : Nat) (z : K)
    (h : |z - (qAndLEvaluation n z).1 / (qAndLEvaluation n z).2.1 - z| ≤ 3 / 10 ^ 11) :
    newtonLoop n 1 z = some (z - (qAndLEvaluation n z).1 / (qAndLEvaluation n z).2.1) := by
  unfold newtonLoop
  simp only []
  rw [if_neg (not_lt.2 h)]

end

/-- For order `3`, started at `-0.4472135955`, the Newton loop returns after one step. -/
theorem newtonLoop_sample :
    ∃ z, newtonLoop (3 : Nat) 1 (-1 * (4472135955 / 10000000000 : ℚ)) = some z := by
  refine ⟨_, newtonLoop_one_step 3 _ ?_⟩
  have hq : qAndLEvaluation 3 (-1 * (4472135955 / 10000000000 : ℚ))
      = ((-3370774399999841488280473 : ℚ) / 25600000000000000000000000000000000000,
         (10017584539199057839913097903 : ℚ) / 3200000000000000000000000000,
         (1431083505599865405701871129 : ℚ) / 3200000000000000000000000000) := by
    simp [qAndLEvaluation, List.range']
    norm_num
  rw [hq]
  norm_num [abs_le]

theorem C19_leggaulob_symmetric_witness :
    ∃ X W, leggaulob (fun _ => (4472135955 / 10000000000 : ℚ)) 3 1 0 1 (fun _ => 0) (fun _ => 0) 3
        = some (X, W) ∧
      (∀ i, i ≤ 3 → X i + X (3 - i) = 1 ∧ W i = W (3 - i)) ∧
      ∃ X' W', leggaulob (fun _ => (4472135955 / 10000000000 : ℚ)) 3 1 0 1 (fun _ => 7)
          (fun _ => 9) 3 = some (X', W') ∧
        ∀ i, i ≤ 3 → X' i = X i ∧ W' i = W i :=
  C19_leggaulob_symmetric (fun _ => (4472135955 / 10000000000 : ℚ)) 3 1 3 (by decide)
    (fun _ => 0) (fun _ => 0) (fun _ => 7) (fun _ => 9) (fun _ _ _ => newtonLoop_sample)

/-- C18 at the input `leggaulob(1, 2, x, w, 2)`: the nodes returned are
`(1, 1/2, 2)`, which are not increasing, and the middle one lies outside `[1, 2]`. -/
theorem C18_nodes_not_increasing :
    ∃ X W, leggaulob Real.cos Real.pi 100 (1 : ℝ) 2 (fun _ => 0) (fun _ => 0) 2 = some (X, W) ∧
      X 0 = 1 ∧ X 1 = 1 / 2 ∧ X 2 = 2 ∧ ¬ (X 0 < X 1) ∧ ¬ (1 ≤ X 1) := by
  obtain ⟨X, W, h, hx0, hx2, _, _, _, hmid⟩ :=
    leggaulob_spec Real.cos Real.pi 100 (1 : ℝ) 2 (fun _ => 0) (fun _ => 0) 2 (le_refl _)
      (fun _ => 0) (fun j h1 h2 => by omega)
  have h1 : X 1 = 1 / 2 := by
    have := (hmid (by decide)).1
    norm_num at this
    exact this
  refine ⟨X, W, h, hx0, h1, hx2, ?_, ?_⟩
  · rw [hx0, h1]; norm_num
  · rw [h1]; norm_num

/-- C20 at the input `leggaulob(1, 2, x, w, 2)`: the centre node `x[n/2]` is set to
`(x2 - x1)/2 = 1/2`, not to the midpoint `(x1 + x2)/2 = 3/2`. -/
theorem C20_centre_node_not_midpoint :
    ∃ X W, leggaulob Real.cos Real.pi 100 (1 : ℝ) 2 (fun _ => 0) (fun _ => 0) 2 = some (X, W) ∧
      X (2 / 2) = (2 - 1) / 2 ∧ X (2 / 2) ≠ (1 + 2) / 2 := by
  obtain ⟨X, W, h, _, _, _, _, _, hmid⟩ :=
    leggaulob_spec Real.cos Real.pi 100 (1 : ℝ) 2 (fun _ => 0) (fun _ => 0) 2 (le_refl _)
      (fun _ => 0) (fun j h1 h2 => by omega)
  have h1 := (hmid (by decide)).1
  refine ⟨X, W, h, h1, ?_⟩
  rw [h1]; norm_num

/-! ## C17: the sum of the weights of `leggaulob` -/

/-- For order `3` on `[0, 1]` the four weights sum to `1/6 + 2/(12 L₃(z)²)`, where `z`
is the value at which the one Newton loop (`j = 1`) stops. -/
theorem leggaulob_three_sum {K : Type} [LinearOrderedField K] (cosR : K → K) (piR : K)
    (fuel : Nat) (x w : Nat → K) (z : K)
    (hz : newtonLoop 3 fuel (rootGuess cosR piR 3 1) = some z) :
    ∃ X W, leggaulob cosR piR fuel 0 1 x w 3 = some (X, W) ∧
      ∑ i ∈ Finset.range (3 + 1), W i = 1 / 6 + gllWeightAt 3 z := by
  obtain ⟨X, W, h, _, _, hw0, hw3, hj, _⟩ :=
    leggaulob_spec cosR piR fuel 0 1 x w 3 (by decide) (fun _ => z)
      (fun j h1 h2 => by
        have hj1 : j = 1 := by omega
        rw [hj1]; exact hz)
  obtain ⟨_, _, hw1, hw2⟩ := hj 1 (le_refl _) (by decide)
  have h31 : (3 : Nat) - 1 = 2 := by decide
  rw [h31] at hw2
  refine ⟨X, W, h, ?_⟩
  rw [Finset.sum_range_succ, Finset.sum_range_succ, Finset.sum_range_succ,
    Finset.sum_range_one, hw0, hw1, hw2, hw3]
  norm_num
  ring

/-- No rational number has square `1/5`. -/
theorem rat_sq_ne_fifth (L : ℚ) : 5 * (L * L) ≠ 1 := by
  intro h
  have hirr : Irrational (Real.sqrt 5) := by
    have := Nat.Prime.irrational_sqrt Nat.prime_five
    simpa using this
  apply hirr
  refine ⟨|5 * L|, ?_⟩
  have h5 : ((|5 * L| : ℚ) : ℝ) * ((|5 * L| : ℚ) : ℝ) = 5 := by
    have : (|5 * L| : ℚ) * |5 * L| = 5 := by
      rw [abs_mul_abs_self]
      linear_combination 5 * h
    exact_mod_cast this
  have hnn : (0 : ℝ) ≤ ((|5 * L| : ℚ) : ℝ) := by exact_mod_cast abs_nonneg (5 * L)
  exact ((Real.sqrt_eq_iff_mul_self_eq (by norm_num) hnn).2 h5.symm).symm

/-- At a rational point `z` the order-3 sum `1/6 + 2/(12 L₃(z)²)` is never exactly `1`:
that would need `L₃(z)² = 1/5`. -/
theorem gllWeightAt_three_sum_ne_one (z : ℚ) : 1 / 6 + gllWeightAt 3 z ≠ 1 := by
  intro hone
  have hg : gllWeightAt 3 z = 5 / 6 := by linarith
  unfold gllWeightAt at hg
  by_cases hL : (qAndLEvaluation 3 z).2.2 = 0
  · rw [hL] at hg
    norm_num at hg
  · apply rat_sq_ne_fifth (qAndLEvaluation 3 z).2.2
    field_simp at hg
    linarith

/-- In rational arithmetic the order-3 weights on `[0, 1]` never sum to exactly `1`,
whatever the start value and wherever the Newton loop stops. -/
theorem leggaulob_three_sum_ne_one (cosR : ℚ → ℚ) (piR : ℚ) (fuel : Nat) (x w : Nat → ℚ)
    (z : ℚ) (hz : newtonLoop 3 fuel (rootGuess cosR piR 3 1) = some z) :
    ∃ X W, leggaulob cosR piR fuel 0 1 x w 3 = some (X, W) ∧
      ∑ i ∈ Finset.range (3 + 1), W i ≠ 1 := by
  obtain ⟨X, W, h, hs⟩ := leggaulob_three_sum cosR piR fuel x w z hz
  refine ⟨X, W, h, ?_⟩
  rw [hs]
  exact gllWeightAt_three_sum_ne_one z

/-- C21: for all real `x`, `y` the source term is the negated Laplacian of `ubdy`:
`src(x, y) = -(∂²/∂x² + ∂²/∂y²) ubdy(x, y)`; also `ubdy(x, y) = x²y²` and
`src(x, y) = -2y² - 2x²`. -/
theorem C21_src_neg_laplacian (x y : ℝ) :
    src x y = -(deriv (fun s => deriv (fun t => ubdy t y) s) x
      + deriv (fun s => deriv (fun t => ubdy x t) s) y) ∧
    ubdy x y = x ^ 2 * y ^ 2 ∧ src x y = -2 * y ^ 2 - 2 * x ^ 2 := by
  have hx1 : ∀ s : ℝ, deriv (fun t : ℝ => ubdy t y) s = 2 * s * y * y := by
    intro s
    have h : HasDerivAt (fun t : ℝ => ubdy t y) (2 * s * y * y) s := by
      have h0 : HasDerivAt (fun t : ℝ => t * t * y * y) ((1 * s + s * 1) * y * y) s :=
        (((hasDerivAt_id s).mul (hasDerivAt_id s)).mul_const y).mul_const y
      have e : (1 * s + s * 1) * y * y = 2 * s * y * y := by ring
      rw [e] at h0
      exact h0
    exact h.deriv
  have hy1 : ∀ s : ℝ, deriv (fun t : ℝ => ubdy x t) s = 2 * x * x * s := by
    intro s
    have h : HasDerivAt (fun t : ℝ => ubdy x t) (2 * x * x * s) s := by
      have h0 : HasDerivAt (fun t : ℝ => x * x * t * t) (x * x * 1 * s + x * x * s * 1) s :=
        ((hasDerivAt_id s).const_mul (x * x)).mul (hasDerivAt_id s)
      have e : x * x * 1 * s + x * x * s * 1 = 2 * x * x * s := by ring
      rw [e] at h0
      exact h0
    exact h.deriv
  have hx2 : deriv (fun s => deriv (fun t => ubdy t y) s) x = 2 * y * y := by
    have hf : (fun s => deriv (fun t => ubdy t y) s) = fun s : ℝ => 2 * s * y * y :=
      funext hx1
    rw [hf]
    have h : HasDerivAt (fun s : ℝ => 2 * s * y * y) (2 * 1 * y * y) x :=
      (((hasDerivAt_id x).const_mul 2).mul_const y).mul_const y
    rw [h.deriv]; ring
  have hy2 : deriv (fun s => deriv (fun t => ubdy x t) s) y = 2 * x * x := by
    have hf : (fun s => deriv (fun t => ubdy x t) s) = fun s : ℝ => 2 * x * x * s :=
      funext hy1
    rw [hf]
    have h : HasDerivAt (fun s : ℝ => 2 * x * x * s) (2 * x * x * 1) y :=
      (hasDerivAt_id y).const_mul (2 * x * x)
    rw [h.deriv]; ring
  refine ⟨?_, ?_, ?_⟩
  · rw [hx2, hy2]; unfold src; ring
  · unfold ubdy; ring
  · unfold src; ring

/-! ## C24: the closed-form rules of `leggaulob` -/

/-- C24: without Newton iteration `leggaulob` returns closed-form rules: for `n = 1`
on any `[x1, x2]` the nodes `(x1, x2)` with weights `1 * (x2 - x1)/2` each, and for
`n = 2` on `[0, 1]` the nodes `(0, 1/2, 1)` with weights `(1/6, 2/3, 1/6)`. -/
theorem C24_leggaulob_closed_rules {K : Type} [LinearOrderedField K] (cosR : K → K) (piR : K)
    (fuel : Nat) (x1 x2 : K) (x w : Nat → K) :
    (∃ X W, leggaulob cosR piR fuel x1 x2 x w 1 = some (X, W) ∧
      X 0 = x1 ∧ X 1 = x2 ∧ W 0 = 1 * ((x2 - x1) / 2) ∧ W 1 = 1 * ((x2 - x1) / 2)) ∧
    (∃ X W, leggaulob cosR piR fuel 0 1 x w 2 = some (X, W) ∧
      X 0 = 0 ∧ X 1 = 1 / 2 ∧ X 2 = 1 ∧ W 0 = 1 / 6 ∧ W 1 = 2 / 3 ∧ W 2 = 1 / 6) := by
  constructor
  · obtain ⟨X, W, h, hx0, hx1, hw0, hw1⟩ := leggaulob_one cosR piR fuel x1 x2 x w
    exact ⟨X, W, h, hx0, hx1, by rw [hw0, one_mul], by rw [hw1, one_mul]⟩
  · obtain ⟨X, W, h, hx0, hx2, hw0, hw2, _, hmid⟩ :=
      leggaulob_spec cosR piR fuel 0 1 x w 2 (le_refl _) (fun _ => 0)
        (fun j h1 h2 => by omega)
    obtain ⟨m1, m2⟩ := hmid (by decide)
    have hL : gllWeightAt 2 (0 : K) = 4 / 3 := by
      simp [gllWeightAt, qAndLEvaluation, List.range']
      norm_num
    refine ⟨X, W, h, hx0, ?_, hx2, ?_, ?_, ?_⟩
    · have : (2 : Nat) / 2 = 1 := by decide
      rw [this] at m1
      rw [m1]; norm_num
    · rw [hw0]; norm_num
    · have : (2 : Nat) / 2 = 1 := by decide
      rw [this] at m2
      rw [m2, hL]; norm_num
    · rw [hw2]; norm_num

/-! ## C25: the 1D mass matrix is diagonal -/

/-- C25: for pairwise distinct real nodes, used both as basis nodes and as
quadrature nodes, the 1D mass matrix built by `Form1DElementMass` is diagonal:
`Me1D[j*(p+1)+i] = H * w[i]` if `i = j` and `0` otherwise. -/
theorem C25_mass_diagonal (H : ℝ) (p i j : Nat) (gqn gqw Me1D : Nat → ℝ) (hp : 1 ≤ p)
    (hi : i ≤ p) (hj : j ≤ p) (hx : ∀ a b, a ≤ p → b ≤ p → a ≠ b → gqn a ≠ gqn b) :
    Form1DElementMass H p gqn gqw Me1D (j * (p + 1) + i) = if i = j then H * gqw i else 0 :=
  Form1DElementMass_entry H p gqn gqw Me1D j i hj hi hx

theorem C25_mass_diagonal_witness :
    Form1DElementMass (3 : ℝ) 2 (fun i => (i : ℝ)) (fun i => (i : ℝ) + 1) (fun _ => 7)
        (1 * (2 + 1) + 2)
      = if 2 = 1 then 3 * (fun (i : Nat) => (i : ℝ) + 1) 2 else 0 :=
  C25_mass_diagonal 3 2 2 1 (fun i => (i : ℝ)) (fun i => (i : ℝ) + 1) (fun _ => 7) (by decide)
    (by decide) (by decide) (fun _ _ _ _ h => fun e => h (Nat.cast_injective e))

/-! ## C26: shared nodes are sampled at the same point -/

section
variable {K : Type} [Field K]

theorem FormNodalRhs_apply (P : Nat) (x y H : K) (nds : Nat → K) (r : Nat → K) (j i : Nat)
    (hj : j < P + 1) (hi : i < P + 1) :
    FormNodalRhs P x y H nds r (j * (P + 1) + i) = src (x + H * nds i) (y + H * nds j) := by
  have := (seqStore_fold2 (fun j i => src (x + H * nds i) (y + H * nds j)) (P + 1) (P + 1)
    (r, 0)).2.1 j i hj hi
  simpa [FormNodalRhs] using this

/-- Two (element, local pair) combinations with the same global index have the same
physical coordinates. -/
theorem shared_node_coords (m p : Nat) (hm : 1 ≤ m) (hp : 1 ≤ p) (h : K) (node : Nat → K)
    (h0 : node 0 = 0) (h1 : node p = 1) (e k l e' k' l' : Nat)
    (he : e < m * m) (he' : e' < m * m) (hk : k ≤ p) (hl : l ≤ p) (hk' : k' ≤ p) (hl' : l' ≤ p)
    (hidx : idxValue p m e l k = idxValue p m e' l' k') :
    h * ((e % m : Nat) : K) + h * node k = h * ((e' % m : Nat) : K) + h * node k' ∧
    h * ((e / m : Nat) : K) + h * node l = h * ((e' / m : Nat) : K) + h * node l' := by
  rw [idxValue_eq_rowcol, idxValue_eq_rowcol] at hidx
  have hc := mul_add_le_of_lt (p := p) (mod_lt_of_lt_sq he) hk
  have hc' := mul_add_le_of_lt (p := p) (mod_lt_of_lt_sq he') hk'
  obtain ⟨hR, hC⟩ := rowcol_inj (n := p * m + 1) (by omega) (by omega) hidx
  refine ⟨?_, ?_⟩
  · rw [← edgeCoord_node p hp h node h0 h1 (e % m) k hk,
      ← edgeCoord_node p hp h node h0 h1 (e' % m) k' hk', hC]
  · rw [← edgeCoord_node p hp h node h0 h1 (e / m) l hl,
      ← edgeCoord_node p hp h node h0 h1 (e' / m) l' hl', hR]

/-- C26: with `h = 1/m`, `node[0] = 0` and `node[p] = 1`, whenever the local nodes
`(k, l)` of element `e` and `(k', l')` of element `e'` have the same global index,
they have the same physical point, and `FormNodalRhs` and `FormNodalSoln` store the
same values for them.  Stated for any field, in particular the reals. -/
theorem C26_shared_node_same_point (m p : Nat) (hm : 1 ≤ m) (hp : 1 ≤ p)
    (gllNode : Nat → K) (h0 : gllNode 0 = 0) (h1 : gllNode p = 1)
    (idx0 idx0' : Nat → Nat) (r0 r0' ue0 ue0' : Nat → K) (e k l e' k' l' : Nat)
    (he : e < m * m) (he' : e' < m * m) (hk : k ≤ p) (hl : l ≤ p) (hk' : k' ≤ p) (hl' : l' ≤ p)
    (hidx : elementIdx p m e idx0 (l * (p + 1) + k)
      = elementIdx p m e' idx0' (l' * (p + 1) + k')) :
    (meshWidth m * ((e % m : Nat) : K) + meshWidth m * gllNode k
        = meshWidth m * ((e' % m : Nat) : K) + meshWidth m * gllNode k' ∧
      meshWidth m * ((e / m : Nat) : K) + meshWidth m * gllNode l
        = meshWidth m * ((e' / m : Nat) : K) + meshWidth m * gllNode l') ∧
    FormNodalRhs p (meshWidth m * ((e % m : Nat) : K)) (meshWidth m * ((e / m : Nat) : K))
        (meshWidth m) gllNode r0 (l * (p + 1) + k)
      = FormNodalRhs p (meshWidth m * ((e' % m : Nat) : K))
          (meshWidth m * ((e' / m : Nat) : K)) (meshWidth m) gllNode r0' (l' * (p + 1) + k') ∧
    FormNodalSoln p (meshWidth m * ((e % m : Nat) : K)) (meshWidth m * ((e / m : Nat) : K))
        (meshWidth m) gllNode ue0 (l * (p + 1) + k)
      = FormNodalSoln p (meshWidth m * ((e' % m : Nat) : K))
          (meshWidth m * ((e' / m : Nat) : K)) (meshWidth m) gllNode ue0' (l' * (p + 1) + k') := by
  rw [elementIdx_apply p m e idx0 l k (by omega) (by omega),
    elementIdx_apply p m e' idx0' l' k' (by omega) (by omega)] at hidx
  obtain ⟨hx, hy⟩ := shared_node_coords m p hm hp (meshWidth m) gllNode h0 h1 e k l e' k' l'
    he he' hk hl hk' hl' hidx
  refine ⟨⟨hx, hy⟩, ?_, ?_⟩
  · rw [FormNodalRhs_apply p _ _ _ gllNode r0 l k (by omega) (by omega),
      FormNodalRhs_apply p _ _ _ gllNode r0' l' k' (by omega) (by omega), hx, hy]
  · rw [FormNodalSoln_apply p _ _ _ gllNode ue0 l k (by omega) (by omega),
      FormNodalSoln_apply p _ _ _ gllNode ue0' l' k' (by omega) (by omega), hx, hy]

theorem C26_shared_node_same_point_witness :
    (meshWidth 2 * ((0 % 2 : Nat) : ℚ) + meshWidth 2 * (fun (i : Nat) => if i = 0 then (0 : ℚ) else 1) 1
        = meshWidth 2 * ((1 % 2 : Nat) : ℚ)
          + meshWidth 2 * (fun (i : Nat) => if i = 0 then (0 : ℚ) else 1) 0 ∧
      meshWidth 2 * ((0 / 2 : Nat) : ℚ) + meshWidth 2 * (fun (i : Nat) => if i = 0 then (0 : ℚ) else 1) 0
        = meshWidth 2 * ((1 / 2 : Nat) : ℚ)
          + meshWidth 2 * (fun (i : Nat) => if i = 0 then (0 : ℚ) else 1) 0) ∧
    FormNodalRhs 1 (meshWidth 2 * ((0 % 2 : Nat) : ℚ)) (meshWidth 2 * ((0 / 2 : Nat) : ℚ))
        (meshWidth 2) (fun (i : Nat) => if i = 0 then (0 : ℚ) else 1) (fun _ => 0) (0 * (1 + 1) + 1)
      = FormNodalRhs 1 (meshWidth 2 * ((1 % 2 : Nat) : ℚ)) (meshWidth 2 * ((1 / 2 : Nat) : ℚ))
          (meshWidth 2) (fun (i : Nat) => if i = 0 then (0 : ℚ) else 1) (fun _ => 0)
          (0 * (1 + 1) + 0) ∧
    FormNodalSoln 1 (meshWidth 2 * ((0 % 2 : Nat) : ℚ)) (meshWidth 2 * ((0 / 2 : Nat) : ℚ))
        (meshWidth 2) (fun (i : Nat) => if i = 0 then (0 : ℚ) else 1) (fun _ => 0) (0 * (1 + 1) + 1)
      = FormNodalSoln 1 (meshWidth 2 * ((1 % 2 : Nat) : ℚ)) (meshWidth 2 * ((1 / 2 : Nat) : ℚ))
          (meshWidth 2) (fun (i : Nat) => if i = 0 then (0 : ℚ) else 1) (fun _ => 0)
          (0 * (1 + 1) + 0) :=
  C26_shared_node_same_point 2 1 (by decide) (by decide)
    (fun (i : Nat) => if i = 0 then (0 : ℚ) else 1) (by simp) (by simp)
    (fun _ => 0) (fun _ => 0) (fun _ => 0) (fun _ => 0) (fun _ => 0) (fun _ => 0)
    0 1 0 1 0 0 (by decide) (by decide) (by decide) (by decide) (by decide) (by decide)
    (by rw [elementIdx_apply 1 2 0 _ 0 1 (by decide) (by decide),
      elementIdx_apply 1 2 1 _ 0 0 (by decide) (by decide)]; rfl)

end

/-! ## C23: the Legendre evaluation helper -/

theorem hasDerivAt_legendreSpec (x : ℝ) (k : Nat) :
    HasDerivAt (fun t => legendreSpec t k) (legendreSpecDeriv x k) x ∧
    HasDerivAt (fun t => legendreSpec t (k + 1)) (legendreSpecDeriv x (k + 1)) x := by
  induction k with
  | zero =>
    refine ⟨?_, ?_⟩
    · simpa [legendreSpec, legendreSpecDeriv] using hasDerivAt_const x (1 : ℝ)
    · simpa [legendreSpec, legendreSpecDeriv] using hasDerivAt_id x
  | succ k ih =>
    refine ⟨ih.2, ?_⟩
    have h1 : HasDerivAt (fun t : ℝ => (2 * ((k + 2 : Nat) : ℝ) - 1) * t)
        ((2 * ((k + 2 : Nat) : ℝ) - 1) * 1) x :=
      (hasDerivAt_id x).const_mul _
    have h2 := h1.mul ih.2
    have h3 := (ih.1.const_mul (((k + 2 : Nat) : ℝ) - 1))
    have h4 := (h2.sub h3).div_const ((k + 2 : Nat) : ℝ)
    have e : (fun t => legendreSpec t (k + 1 + 1))
        = fun t => ((fun t : ℝ => (2 * ((k + 2 : Nat) : ℝ) - 1) * t) t * legendreSpec t (k + 1)
            - (((k + 2 : Nat) : ℝ) - 1) * legendreSpec t k) / ((k + 2 : Nat) : ℝ) := by
      funext t; rfl
    rw [e]
    convert h4 using 1
    simp only [legendreSpecDeriv]
    ring

section
variable {K : Type} [Field K] [CharZero K]

/-- The classical identities `x L'_k - L'_{k-1} = k L_k` and
`L'_k = x L'_{k-1} + k L_{k-1}`, shifted by one. -/
theorem legendreSpec_identities (x : K) (k : Nat) :
    x * legendreSpecDeriv x (k + 1) - legendreSpecDeriv x k
        = ((k + 1 : Nat) : K) * legendreSpec x (k + 1) ∧
    legendreSpecDeriv x (k + 1)
        = x * legendreSpecDeriv x k + ((k + 1 : Nat) : K) * legendreSpec x k := by
  induction k with
  | zero => simp [legendreSpec, legendreSpecDeriv]
  | succ k ih =>
    obtain ⟨hB, hC⟩ := ih
    have hk : ((k + 2 : Nat) : K) ≠ 0 := by exact_mod_cast (by omega : k + 2 ≠ 0)
    have hA : legendreSpecDeriv x (k + 2)
        = legendreSpecDeriv x k + (2 * ((k + 2 : Nat) : K) - 1) * legendreSpec x (k + 1) := by
      simp only [legendreSpecDeriv]
      rw [div_eq_iff hk]
      have hB' : x * legendreSpecDeriv x (k + 1)
          = legendreSpecDeriv x k + ((k + 1 : Nat) : K) * legendreSpec x (k + 1) := by
        linear_combination hB
      rw [hB']
      push_cast
      ring
    have hL : ((k + 2 : Nat) : K) * legendreSpec x (k + 2)
        = (2 * ((k + 2 : Nat) : K) - 1) * x * legendreSpec x (k + 1)
          - (((k + 2 : Nat) : K) - 1) * legendreSpec x k := by
      simp only [legendreSpec]
      rw [mul_div_assoc', mul_div_cancel_left₀ _ hk]
    refine ⟨?_, ?_⟩
    · show x * legendreSpecDeriv x (k + 2) - legendreSpecDeriv x (k + 1)
        = ((k + 1 + 1 : Nat) : K) * legendreSpec x (k + 2)
      rw [show ((k + 1 + 1 : Nat) : K) = ((k + 2 : Nat) : K) by rfl, hL, hA]
      push_cast at hC ⊢
      linear_combination (-1 : K) * hC
    · show legendreSpecDeriv x (k + 2)
        = x * legendreSpecDeriv x (k + 1) + ((k + 1 + 1 : Nat) : K) * legendreSpec x (k + 1)
      rw [hA]
      push_cast at hB ⊢
      linear_combination (-1 : K) * hB

/-- The derivative recurrence used by the program:
`L'_{k+2} = L'_k + (2(k+2) - 1) L_{k+1}`. -/
theorem legendreSpecDeriv_step (x : K) (k : Nat) :
    legendreSpecDeriv x (k + 2)
      = legendreSpecDeriv x k + (2 * ((k + 2 : Nat) : K) - 1) * legendreSpec x (k + 1) := by
  obtain ⟨hB, _⟩ := legendreSpec_identities x k
  have hk : ((k + 2 : Nat) : K) ≠ 0 := by exact_mod_cast (by omega : k + 2 ≠ 0)
  simp only [legendreSpecDeriv]
  rw [div_eq_iff hk]
  have hB' : x * legendreSpecDeriv x (k + 1)
      = legendreSpecDeriv x k + ((k + 1 : Nat) : K) * legendreSpec x (k + 1) := by
    linear_combination hB
  rw [hB']
  push_cast
  ring

/-- The three-term recurrence in the form the program evaluates it. -/
theorem legendreSpec_step (x : K) (k : Nat) :
    (2 * ((k + 2 : Nat) : K) - 1) / (1 * ((k + 2 : Nat) : K)) * x * legendreSpec x (k + 1)
        - (((k + 2 : Nat) : K) - 1) / (1 * ((k + 2 : Nat) : K)) * legendreSpec x k
      = legendreSpec x (k + 2) := by
  have hk : ((k + 2 : Nat) : K) ≠ 0 := by exact_mod_cast (by omega : k + 2 ≠ 0)
  simp only [legendreSpec]
  rw [one_mul]
  ring

/-- Loop invariant of `qAndLEvaluation`: after the passes `k = 2 .. t+1` the state
`(Lnm1, Ln, Lnm1p, Lnp)` is `(L_t, L_{t+1}, L'_t, L'_{t+1})`. -/
theorem qAndL_loop (x : K) (t : Nat) :
    (List.range' 2 t).foldl
      (fun (s : K × K × K × K) (k : Nat) =>
        (s.2.1,
         (2 * (k : K) - 1) / (1 * (k : K)) * x * s.2.1 - ((k : K) - 1) / (1 * (k : K)) * s.1,
         s.2.2.2,
         s.2.2.1 + (2 * (k : K) - 1) * s.2.1))
      (1, x, 0, 1)
    = (legendreSpec x t, legendreSpec x (t + 1), legendreSpecDeriv x t,
        legendreSpecDeriv x (t + 1)) := by
  induction t with
  | zero => rfl
  | succ t ih =>
    rw [List.range'_1_concat, List.foldl_append, ih]
    simp only [List.foldl_cons, List.foldl_nil]
    rw [show 2 + t = t + 2 by omega, legendreSpec_step x t, ← legendreSpecDeriv_step x t]

/-- The three results of `qAndLEvaluation(n, x)` for `n ≥ 1`. -/
theorem qAndLEvaluation_eq (n : Nat) (hn : 1 ≤ n) (x : K) :
    qAndLEvaluation n x
      = (legendreSpec x (n + 1) - legendreSpec x (n - 1),
         legendreSpecDeriv x (n + 1) - legendreSpecDeriv x (n - 1),
         legendreSpec x n) := by
  obtain ⟨t, rfl⟩ : ∃ t, n = t + 1 := ⟨n - 1, by omega⟩
  unfold qAndLEvaluation
  simp only [Nat.add_sub_cancel]
  rw [qAndL_loop x t]
  simp only []
  rw [legendreSpec_step x t, ← legendreSpecDeriv_step x t]

end

/-- C23: for `n ≥ 1` and real `x`, `qAndLEvaluation(n, x)` returns `Ln = L_n(x)`,
`q = L_{n+1}(x) - L_{n-1}(x)` and `qp` equal to the derivative of `q` at `x`, for the
Legendre polynomials `L_0 = 1`, `L_1 = x`,
`k L_k = (2k-1) x L_{k-1} - (k-1) L_{k-2}`. -/
theorem C23_qAndLEvaluation_legendre (n : Nat) (hn : 1 ≤ n) (x : ℝ) :
    (qAndLEvaluation n x).2.2 = legendreSpec x n ∧
    (qAndLEvaluation n x).1 = legendreSpec x (n + 1) - legendreSpec x (n - 1) ∧
    HasDerivAt (fun t => legendreSpec t (n + 1) - legendreSpec t (n - 1))
      (qAndLEvaluation n x).2.1 x ∧
    (∀ (t : ℝ) (k : Nat), ((k + 2 : Nat) : ℝ) * legendreSpec t (k + 2)
      = (2 * ((k + 2 : Nat) : ℝ) - 1) * t * legendreSpec t (k + 1)
        - (((k + 2 : Nat) : ℝ) - 1) * legendreSpec t k) := by
  rw [qAndLEvaluation_eq n hn x]
  refine ⟨rfl, rfl, ?_, ?_⟩
  · have h1 := (hasDerivAt_legendreSpec x n).2
    rcases Nat.eq_zero_or_pos (n - 1) with h0 | hpos
    · rw [h0]
      have h2 := (hasDerivAt_legendreSpec x 0).1
      exact h1.sub h2
    · have h2 := (hasDerivAt_legendreSpec x (n - 2)).2
      rw [show n - 2 + 1 = n - 1 by omega] at h2
      exact h1.sub h2
  · intro t k
    have hk : ((k + 2 : Nat) : ℝ) ≠ 0 := by exact_mod_cast (by omega : k + 2 ≠ 0)
    simp only [legendreSpec]
    rw [mul_div_assoc', mul_div_cancel_left₀ _ hk]

theorem C23_qAndLEvaluation_legendre_witness :
    (qAndLEvaluation 3 (1 / 2 : ℝ)).2.2 = legendreSpec (1 / 2 : ℝ) 3 ∧
    (qAndLEvaluation 3 (1 / 2 : ℝ)).1
      = legendreSpec (1 / 2 : ℝ) (3 + 1) - legendreSpec (1 / 2 : ℝ) (3 - 1) ∧
    HasDerivAt (fun t => legendreSpec t (3 + 1) - legendreSpec t (3 - 1))
      (qAndLEvaluation 3 (1 / 2 : ℝ)).2.1 (1 / 2) ∧
    (∀ (t : ℝ) (k : Nat), ((k + 2 : Nat) : ℝ) * legendreSpec t (k + 2)
      = (2 * ((k + 2 : Nat) : ℝ) - 1) * t * legendreSpec t (k + 1)
        - (((k + 2 : Nat) : ℝ) - 1) * legendreSpec t k) :=
  C23_qAndLEvaluation_legendre 3 (by decide) (1 / 2)


/-! ## C22: the check of the polynomial order -/

/-- C22: the driver fails with a user error if and only if the configured order `p`
(the option value, or the default `2`) is `≤ 0`; in that case no matrix, vector or
scratch buffer has been created; for every `p > 0` the check passes, and the
defaults `m = 5`, `p = 2` pass. -/
theorem C22_order_check (optM optP : Option Int) :
    ((driverMain optM optP).2 = DriverResult.userError ↔ optP.getD 2 ≤ 0) ∧
    (optP.getD 2 ≤ 0 → (driverMain optM optP).1.created = []) ∧
    (0 < optP.getD 2 → (driverMain optM optP).2 = DriverResult.success) ∧
    (driverMain none none).2 = DriverResult.success ∧
    (driverMain none none).1.m = 5 ∧ (driverMain none none).1.p = 2 := by
  by_cases h : 0 < optP.getD 2
  · have h' : ¬ optP.getD 2 ≤ 0 := by omega
    simp [driverMain, driverProgram, runDriver, PetscCheck, h, h']
  · have h' : optP.getD 2 ≤ 0 := by omega
    simp [driverMain, driverProgram, runDriver, PetscCheck, h, h']

theorem C22_order_check_witness :
    ((driverMain (some 4) (some (-1))).2 = DriverResult.userError
      ↔ (some (-1 : Int)).getD 2 ≤ 0) ∧
    ((some (-1 : Int)).getD 2 ≤ 0 → (driverMain (some 4) (some (-1))).1.created = []) ∧
    (0 < (some (-1 : Int)).getD 2 →
      (driverMain (some 4) (some (-1))).2 = DriverResult.success) ∧
    (driverMain none none).2 = DriverResult.success ∧
    (driverMain none none).1.m = 5 ∧ (driverMain none none).1.p = 2 :=
  C22_order_check (some 4) (some (-1))


/-! ## C27: the traceback error handler -/

theorem tb_ret (env : TBEnv) (st : TBState) (c : TBCall) :
    (PetscTraceBackErrorHandler env st c).ret = c.n := by
  unfold PetscTraceBackErrorHandler
  split_ifs <;> rfl

theorem tb_nonroot (env : TBEnv) (st : TBState) (c : TBCall)
    (hp : c.p ≠ PetscErrorType.REPEAT) (hr : tbRank c ≠ 0) :
    (PetscTraceBackErrorHandler env st c).printed = [] ∧
    (PetscTraceBackErrorHandler env st c).state.silent = true := by
  unfold PetscTraceBackErrorHandler
  rw [if_neg (fun h => hr h.1)]
  simp [tbQuiet, hp, hr]

theorem tb_repeat_silent (env : TBEnv) (st : TBState) (c : TBCall)
    (hs : st.silent = true) (hp : c.p = PetscErrorType.REPEAT) :
    (PetscTraceBackErrorHandler env st c).printed = [] ∧
    (PetscTraceBackErrorHandler env st c).state = st := by
  unfold PetscTraceBackErrorHandler
  have hreset : tbReset env st c = st := by simp [tbReset, hp]
  rw [hreset, if_neg (fun h => by
    rcases h.2.2 with h' | h'
    · exact h' hp
    · rw [hs] at h'; exact Bool.noConfusion h')]
  simp [tbQuiet, hp]

theorem tbRun_repeat_silent (env : TBEnv) (cs : List TBCall) :
    ∀ st : TBState, st.silent = true → (∀ c ∈ cs, c.p = PetscErrorType.REPEAT) →
      ∀ r ∈ tbRun env st cs, r.printed = [] ∧ r.state.silent = true := by
  induction cs with
  | nil => intro st _ _ r hr; simp [tbRun] at hr
  | cons c cs ih =>
    intro st hs hcs r hr
    obtain ⟨h1, h2⟩ := tb_repeat_silent env st c hs (hcs c (List.mem_cons_self c cs))
    rw [tbRun, List.mem_cons] at hr
    rcases hr with rfl | hr
    · exact ⟨h1, by rw [h2]; exact hs⟩
    · rw [h2] at hr
      exact ih st hs (fun c' hc' => hcs c' (List.mem_cons_of_mem c hc')) r hr

theorem tb_clears_first (env : TBEnv) (st : TBState) (c : TBCall)
    (hp : c.p ≠ PetscErrorType.REPEAT) :
    PetscTraceBackErrorHandler env st c
      = PetscTraceBackErrorHandler env
          { silent := false, cnt := st.cnt, abortmpifinalize := st.abortmpifinalize } c := by
  have hreset : tbReset env
      { silent := false, cnt := st.cnt, abortmpifinalize := st.abortmpifinalize } c
      = tbReset env st c := by simp [tbReset, hp]
  unfold PetscTraceBackErrorHandler
  rw [hreset]

/-- C27: a call with error type other than `PETSC_ERROR_REPEAT` on a process whose
rank in the communicator is not zero prints nothing and sets the flag; every later
`PETSC_ERROR_REPEAT` call then prints nothing and leaves the flag set, whatever its
communicator; a non-REPEAT call behaves as if the flag were clear on entry; and
every call returns the error code `n` it was given. -/
theorem C27_traceback_silent (env : TBEnv) (st : TBState) (c0 : TBCall) (cs : List TBCall)
    (hp : c0.p ≠ PetscErrorType.REPEAT) (hr : tbRank c0 ≠ 0)
    (hcs : ∀ c ∈ cs, c.p = PetscErrorType.REPEAT) :
    (PetscTraceBackErrorHandler env st c0).printed = [] ∧
    (PetscTraceBackErrorHandler env st c0).state.silent = true ∧
    (∀ r ∈ tbRun env (PetscTraceBackErrorHandler env st c0).state cs,
      r.printed = [] ∧ r.state.silent = true) ∧
    (∀ (st' : TBState) (c : TBCall), c.p ≠ PetscErrorType.REPEAT →
      PetscTraceBackErrorHandler env st' c
        = PetscTraceBackErrorHandler env
            { silent := false, cnt := st'.cnt, abortmpifinalize := st'.abortmpifinalize } c) ∧
    (∀ (st' : TBState) (c : TBCall), (PetscTraceBackErrorHandler env st' c).ret = c.n) := by
  obtain ⟨h1, h2⟩ := tb_nonroot env st c0 hp hr
  exact ⟨h1, h2, tbRun_repeat_silent env cs _ h2 hcs, fun st' c h => tb_clears_first env st' c h,
    fun st' c => tb_ret env st' c⟩

theorem C27_traceback_silent_witness :
    (PetscTraceBackErrorHandler tbSampleEnv ⟨false, 1, false⟩
        (tbSampleCall 83 PetscErrorType.INITIAL 2 "MatSetValues")).printed = [] ∧
    (PetscTraceBackErrorHandler tbSampleEnv ⟨false, 1, false⟩
        (tbSampleCall 83 PetscErrorType.INITIAL 2 "MatSetValues")).state.silent = true ∧
    (∀ r ∈ tbRun tbSampleEnv
        (PetscTraceBackErrorHandler tbSampleEnv ⟨false, 1, false⟩
          (tbSampleCall 83 PetscErrorType.INITIAL 2 "MatSetValues")).state
        [tbSampleCall 83 PetscErrorType.REPEAT 0 "main"],
      r.printed = [] ∧ r.state.silent = true) ∧
    (∀ (st' : TBState) (c : TBCall), c.p ≠ PetscErrorType.REPEAT →
      PetscTraceBackErrorHandler tbSampleEnv st' c
        = PetscTraceBackErrorHandler tbSampleEnv
            { silent := false, cnt := st'.cnt, abortmpifinalize := st'.abortmpifinalize } c) ∧
    (∀ (st' : TBState) (c : TBCall), (PetscTraceBackErrorHandler tbSampleEnv st' c).ret = c.n) :=
  C27_traceback_silent tbSampleEnv ⟨false, 1, false⟩
    (tbSampleCall 83 PetscErrorType.INITIAL 2 "MatSetValues")
    [tbSampleCall 83 PetscErrorType.REPEAT 0 "main"]
    (by simp [tbSampleCall]) (by simp [tbRank, tbSampleCall])
    (by intro c hc; rw [List.mem_singleton] at hc; rw [hc]; rfl)


end Ex51
